import Mathlib

/-! A skip list over an explicit heap.

Shallow embedding of `skiplist.go`.  Go pointers `*node` are addresses into an
explicit memory (`List (node K V)`, the address being the position); `nil` is
`none`.  Every operation that can fault in Go (nil dereference, index out of
range, `make` with a negative length) returns `Except Fault`.  The inner
`for next := ...` loops follow pointers, so they carry fuel; the operations
supply `mem.length + 1`, which no walk over distinct nodes can use up, and the
theorems show that the operations return on well-formed lists.

The `Key` interface (`LessEq`, `Eq`, `Less`) is a type `K` with a linear
order: `LessEq` is `≤`, `Less` is `<`, `Eq` is `=`.  A `nil` key (the head's)
is `none`.  `rand.Float64()` is a stream of draws `Nat → ℚ`, and `prob` is a
rational.  The `int` fields are integers without wrap-around: `size` counts
allocated nodes and `height` is fixed, so neither comes near the word size.

The file has three parts: the program and its observations; the invariants
(`WellFormed`, and `Shape`, which names the head and the chains) with what each
loop does to them; the properties of the operations.
-/

namespace SkipList

/-- Ways in which the Go code can stop without returning. -/
inductive Fault where
  | nilDeref
  | dangling
  | indexOutOfRange
  | makeNegative
  | outOfFuel
  deriving DecidableEq, Repr

/-- Model of `type Value interface{}`: the nil interface, the empty struct
`struct{}{}`, or any other stored datum. -/
inductive Value (V : Type) where
  | nil : Value V
  | empty : Value V
  | val : V → Value V
  deriving DecidableEq, Repr

/-- Model of `var defaultValue = struct{}{}`. -/
def defaultValue {V : Type} : Value V := Value.empty

/-- A pointer `*node`: `none` is `nil`, `some a` is the node stored at address `a`. -/
abbrev Ptr := Option Nat

/-- Model of `type node struct { key Key; value Value; next []*node }`. -/
structure node (K V : Type) where
  key : Option K
  value : Value V
  next : List Ptr
  deriving DecidableEq, Repr

/-- Model of `func (n *node) level() int`. -/
def node.level {K V : Type} (n : node K V) : Int := n.next.length

/-- Model of `type genericSkipList struct`, together with the memory its
pointers point into. -/
structure genericSkipList (K V : Type) where
  mem : List (node K V)
  height : Int
  head : Ptr
  size : Int
  prob : ℚ

/-- Model of `type skipListIterator struct { current *node }`. -/
structure skipListIterator where
  current : Ptr
  deriving DecidableEq, Repr

variable {K V : Type}

/-- Dereference a pointer. -/
def load (mem : List (node K V)) (p : Ptr) : Except Fault (node K V) :=
  match p with
  | none => .error .nilDeref
  | some a =>
    match mem[a]? with
    | some n => .ok n
    | none => .error .dangling

/-- Overwrite the node a pointer points to. -/
def store (mem : List (node K V)) (p : Ptr) (n : node K V) : Except Fault (List (node K V)) :=
  match p with
  | none => .error .nilDeref
  | some a => if a < mem.length then .ok (mem.set a n) else .error .dangling

/-- Read `xs[i]` of a slice. -/
def index {α : Type} (xs : List α) (i : Nat) : Except Fault α :=
  match xs[i]? with
  | some x => .ok x
  | none => .error .indexOutOfRange

/-- Model of `make([]*node, n)`: it stops on a negative length. The memory is unbounded, so
the upper limit that the runtime puts on a length is not modelled, and nothing is stated
about lengths beyond it. -/
def makeSlice (n : Int) : Except Fault (List Ptr) :=
  if n < 0 then .error .makeNegative else .ok (List.replicate n.toNat none)

/-- Model of `NewSkipList`: the head is the only node of a fresh memory; `prob`
is not stored (the field keeps its zero value). -/
def NewSkipList (height : Int) (_prob : ℚ) : Except Fault (genericSkipList K V) :=
  match makeSlice height with
  | .error e => .error e
  | .ok slots =>
    .ok { mem := [{ key := none, value := Value.nil, next := slots }]
          height := height
          head := some 0
          size := 0
          prob := 0 }

/-- The read `p.next[level]`. -/
def getNext (mem : List (node K V)) (p : Ptr) (level : Nat) : Except Fault Ptr :=
  match load mem p with
  | .error e => .error e
  | .ok n => index n.next level

/-- The read `p.key`. -/
def getKey (mem : List (node K V)) (p : Ptr) : Except Fault (Option K) :=
  match load mem p with
  | .error e => .error e
  | .ok n => .ok n.key

/-- The read `p.value`. -/
def getValue (mem : List (node K V)) (p : Ptr) : Except Fault (Value V) :=
  match load mem p with
  | .error e => .error e
  | .ok n => .ok n.value

/-- The assignment `p.next[level] = q`. -/
def setNext (mem : List (node K V)) (p : Ptr) (level : Nat) (q : Ptr) :
    Except Fault (List (node K V)) :=
  match load mem p with
  | .error e => .error e
  | .ok n =>
    if level < n.next.length then store mem p { n with next := n.next.set level q }
    else .error .indexOutOfRange

/-- The assignment `p.value = v`. -/
def setValue (mem : List (node K V)) (p : Ptr) (v : Value V) : Except Fault (List (node K V)) :=
  match load mem p with
  | .error e => .error e
  | .ok n => store mem p { n with value := v }

/-- The inner loop shared by `Find`, `Add` (`cmp` is `LessEq`) and `Delete`
(`cmp` is `Less`):
`for next := current.next[level]; next != nil && cmp(next.key, key); { current = next; next = current.next[level] }`. -/
def advance (cmp : K → K → Bool) (mem : List (node K V)) (level : Nat) (key : K) :
    Nat → Ptr → Except Fault Ptr
  | 0, _ => .error .outOfFuel
  | fuel + 1, current =>
    match getNext mem current level with
    | .error e => .error e
    | .ok none => .ok current
    | .ok (some a) =>
      match getKey mem (some a) with
      | .error e => .error e
      | .ok none => .error .nilDeref
      | .ok (some nk) =>
        if cmp nk key then advance cmp mem level key fuel (some a) else .ok current

section Ops
variable [LinearOrder K]

/-- The method `LessEq` of the `Key` interface. -/
def LessEq (a b : K) : Bool := decide (a ≤ b)

/-- The method `Less` of the `Key` interface. -/
def Less (a b : K) : Bool := decide (a < b)

/-- The outer loop of `Find`; the first argument is `level + 1`. -/
def findLoop (mem : List (node K V)) (key : K) (fuel : Nat) : Nat → Ptr → Except Fault Ptr
  | 0, current => .ok current
  | level + 1, current =>
    match advance LessEq mem level key fuel current with
    | .error e => .error e
    | .ok current => findLoop mem key fuel level current

/-- Model of `genericSkipList.Find`. -/
def genericSkipList.Find (sl : genericSkipList K V) (key : K) : Except Fault (Value V × Bool) :=
  match findLoop sl.mem key (sl.mem.length + 1) sl.height.toNat sl.head with
  | .error e => .error e
  | .ok current =>
    if current = sl.head then .ok (defaultValue, false)
    else
      match getKey sl.mem current with
      | .error e => .error e
      | .ok none => .error .nilDeref
      | .ok (some ck) =>
        if ck = key then
          match getValue sl.mem current with
          | .error e => .error e
          | .ok v => .ok (v, true)
        else .ok (defaultValue, false)

/-- The first loop of `Add`, which also records `update[level] = current`;
the first argument is `level + 1`. -/
def addLoop (mem : List (node K V)) (key : K) (fuel : Nat) :
    Nat → Ptr → List Ptr → Except Fault (Ptr × List Ptr)
  | 0, current, update => .ok (current, update)
  | level + 1, current, update =>
    match advance LessEq mem level key fuel current with
    | .error e => .error e
    | .ok current =>
      if level < update.length then addLoop mem key fuel level current (update.set level current)
      else .error .indexOutOfRange

/-- The loop of `randLevel`: `for ; level < sl.height-1 && rand.Float64() < sl.prob; level++`.
A draw is consumed only when the first conjunct holds. -/
def randLevelLoop (height : Int) (prob : ℚ) (draws : Nat → ℚ) : Nat → Nat → Int → Int
  | 0, _, level => level
  | fuel + 1, i, level =>
    if level < height - 1 then
      if draws i < prob then randLevelLoop height prob draws fuel (i + 1) (level + 1) else level
    else level

/-- Model of `genericSkipList.randLevel`, the draws of `rand.Float64()` being given. -/
def genericSkipList.randLevel (sl : genericSkipList K V) (draws : Nat → ℚ) : Int :=
  randLevelLoop sl.height sl.prob draws sl.height.toNat 0 1

/-- The second loop of `Add`; the first argument is `level + 1`:
`newNode.next[level] = update[level].next[level]; update[level].next[level] = &newNode`. -/
def spliceLoop (newNode : Ptr) (update : List Ptr) :
    Nat → List (node K V) → Except Fault (List (node K V))
  | 0, mem => .ok mem
  | level + 1, mem =>
    match index update level with
    | .error e => .error e
    | .ok u =>
      match getNext mem u level with
      | .error e => .error e
      | .ok p =>
        match setNext mem newNode level p with
        | .error e => .error e
        | .ok mem1 =>
          match setNext mem1 u level newNode with
          | .error e => .error e
          | .ok mem2 => spliceLoop newNode update level mem2

/-- The tail of `Add` for a key that is not there: allocate the node at the
first unused address, splice it in, count it. -/
def genericSkipList.insert (sl : genericSkipList K V) (key : K) (value : Value V)
    (draws : Nat → ℚ) (update : List Ptr) : Except Fault (genericSkipList K V) :=
  match makeSlice (sl.randLevel draws) with
  | .error e => .error e
  | .ok slots =>
    match spliceLoop (some sl.mem.length) update slots.length
        (sl.mem ++ [{ key := some key, value := value, next := slots }]) with
    | .error e => .error e
    | .ok mem => .ok { sl with mem := mem, size := sl.size + 1 }

/-- Model of `genericSkipList.Add`. -/
def genericSkipList.Add (sl : genericSkipList K V) (key : K) (value : Value V)
    (draws : Nat → ℚ) : Except Fault (genericSkipList K V) :=
  match makeSlice sl.height with
  | .error e => .error e
  | .ok update0 =>
    match addLoop sl.mem key (sl.mem.length + 1) sl.height.toNat sl.head update0 with
    | .error e => .error e
    | .ok (current, update) =>
      if current = sl.head then sl.insert key value draws update
      else
        match getKey sl.mem current with
        | .error e => .error e
        | .ok ck =>
          if ck = some key then
            -- current.next[0].value = value
            match getNext sl.mem current 0 with
            | .error e => .error e
            | .ok nx =>
              match setValue sl.mem nx value with
              | .error e => .error e
              | .ok mem => .ok { sl with mem := mem }
          else sl.insert key value draws update

/-- Model of `genericSkipList.Len`. -/
def genericSkipList.Len (sl : genericSkipList K V) : Int := sl.size

/-- The loop of `Delete`; the fourth argument is `level + 1`. -/
def deleteLoop (key : K) (fuel : Nat) :
    Nat → Ptr → List (node K V) → Value V → Bool →
      Except Fault (List (node K V) × Value V × Bool)
  | 0, _, mem, value, ok => .ok (mem, value, ok)
  | level + 1, current, mem, value, ok =>
    match advance Less mem level key fuel current with
    | .error e => .error e
    | .ok current =>
      match getNext mem current level with
      | .error e => .error e
      | .ok none => deleteLoop key fuel level current mem value ok
      | .ok (some a) =>
        match getKey mem (some a) with
        | .error e => .error e
        | .ok none => .error .nilDeref
        | .ok (some nk) =>
          if nk = key then
            match getValue mem (some a) with
            | .error e => .error e
            | .ok v =>
              match getNext mem (some a) level with
              | .error e => .error e
              | .ok nn =>
                match setNext mem current level nn with
                | .error e => .error e
                | .ok mem1 => deleteLoop key fuel level current mem1 v true
          else deleteLoop key fuel level current mem value ok

/-- Model of `genericSkipList.Delete`: the list afterwards, the value and the flag. -/
def genericSkipList.Delete (sl : genericSkipList K V) (key : K) :
    Except Fault (genericSkipList K V × Value V × Bool) :=
  match deleteLoop key (sl.mem.length + 1) sl.height.toNat sl.head sl.mem defaultValue false with
  | .error e => .error e
  | .ok (mem, value, ok) =>
    if ok then .ok ({ sl with mem := mem, size := sl.size - 1 }, value, ok)
    else .ok ({ sl with mem := mem }, value, ok)

/-- Model of `genericSkipList.Iterator`. -/
def genericSkipList.Iterator (sl : genericSkipList K V) : Except Fault skipListIterator :=
  match getNext sl.mem sl.head 0 with
  | .error e => .error e
  | .ok p => .ok { current := p }

end Ops

/-- Model of `skipListIterator.Next`: the returned flag and the iterator afterwards. -/
def skipListIterator.Next (mem : List (node K V)) (it : skipListIterator) :
    Except Fault (Bool × skipListIterator) :=
  match it.current with
  | none => .ok (false, it)
  | some a =>
    match getNext mem (some a) 0 with
    | .error e => .error e
    | .ok none => .ok (false, it)
    | .ok (some b) => .ok (true, { current := some b })

/-- Model of `skipListIterator.Key`. -/
def skipListIterator.Key (mem : List (node K V)) (it : skipListIterator) :
    Except Fault (Option K) :=
  getKey mem it.current

/-- Model of `skipListIterator.Value`. -/
def skipListIterator.Value (mem : List (node K V)) (it : skipListIterator) :
    Except Fault (SkipList.Value V) :=
  getValue mem it.current

/-! ## Observations and well-formedness -/

/-- The addresses met when following `next[level]` from `p` up to `nil`;
`none` when a link is broken or the fuel runs out. -/
def chainFrom (mem : List (node K V)) (level : Nat) : Nat → Ptr → Option (List Nat)
  | _, none => some []
  | 0, some _ => none
  | fuel + 1, some a =>
    match getNext mem (some a) level with
    | .error _ => none
    | .ok p =>
      match chainFrom mem level fuel p with
      | none => none
      | some xs => some (a :: xs)

/-- The chain of a level: the nodes after the head, in link order. -/
def genericSkipList.chain (sl : genericSkipList K V) (level : Nat) : Option (List Nat) :=
  match getNext sl.mem sl.head level with
  | .error _ => none
  | .ok p => chainFrom sl.mem level sl.mem.length p

/-- The key and value stored at an address. -/
def entryAt (mem : List (node K V)) (a : Nat) : Option (K × Value V) :=
  match load mem (some a) with
  | .ok n =>
    match n.key with
    | some k => some (k, n.value)
    | none => none
  | .error _ => none

/-- The entries in the order an iterator visits them (the level-0 chain). -/
def genericSkipList.entries (sl : genericSkipList K V) : List (K × Value V) :=
  match sl.chain 0 with
  | none => []
  | some xs => xs.filterMap (entryAt sl.mem)

/-- The keys in the order an iterator visits them. -/
def genericSkipList.keys (sl : genericSkipList K V) : List K :=
  sl.entries.map Prod.fst

/-- The keys along the chain of a level; `none` when the chain is broken or a
node on it has a nil key. -/
def genericSkipList.levelKeys (sl : genericSkipList K V) (level : Nat) : Option (List K) :=
  match sl.chain level with
  | none => none
  | some xs =>
    if xs.all (fun a => (entryAt sl.mem a).isSome) then
      some (xs.filterMap (fun a => (entryAt sl.mem a).map Prod.fst))
    else none

/-- The number of levels of the node at an address. -/
def levelAt (mem : List (node K V)) (a : Nat) : Option Int :=
  match load mem (some a) with
  | .ok n => some n.level
  | .error _ => none

/-- A chained node is not the head, has a key, and has at most `height` levels. -/
def nodeOK (sl : genericSkipList K V) (a : Nat) : Bool :=
  decide (some a ≠ sl.head) && (entryAt sl.mem a).isSome &&
    match levelAt sl.mem a with
    | some l => decide (l ≤ sl.height)
    | none => false

/-- The head is allocated and has exactly `height` levels. -/
def headOK (sl : genericSkipList K V) : Bool :=
  match sl.head with
  | none => false
  | some h =>
    match levelAt sl.mem h with
    | some l => decide (l = sl.height)
    | none => false

/-- The last element of `c :: xs`. -/
def lastFrom {α : Type} : α → List α → α
  | c, [] => c
  | _, a :: xs => lastFrom a xs

/-- The node at `a` holds a key that `cmp` relates to `key`. -/
def under (cmp : K → K → Bool) (mem : List (node K V)) (key : K) (a : Nat) : Bool :=
  match entryAt mem a with
  | some e => cmp e.1 key
  | none => false

/-- Segment of a level: from `p`, through exactly the nodes `xs`, to `q`. -/
def IsSeg (mem : List (node K V)) (level : Nat) : Ptr → List Nat → Ptr → Prop
  | p, [], q => p = q
  | p, a :: xs, q => p = some a ∧ ∃ r, getNext mem (some a) level = .ok r ∧ IsSeg mem level r xs q

/-- The node at `a` holds exactly the key `key`. -/
def keyIs [DecidableEq K] (mem : List (node K V)) (key : K) (a : Nat) : Bool :=
  under (fun x y => decide (x = y)) mem key a

/-- Two memories of the same size whose nodes hold the same keys and values and have the
same numbers of levels; only links may differ. -/
def SameData (m mem : List (node K V)) : Prop :=
  m.length = mem.length ∧
    ∀ b, entryAt m b = entryAt mem b ∧ levelAt m b = levelAt mem b ∧
      getKey m (some b) = getKey mem (some b) ∧ getValue m (some b) = getValue mem (some b)

section Spec
variable [LinearOrder K]

/-- Both addresses hold a key and the first key is smaller. -/
def keyLt (mem : List (node K V)) (a b : Nat) : Bool :=
  match entryAt mem a, entryAt mem b with
  | some x, some y => decide (x.1 < y.1)
  | _, _ => false

/-- The invariants of the data model: positive height; a head with `height`
levels; at every level a nil-terminated chain of nodes with strictly ascending
keys; every node of a level also on the level below; `size` counts level 0. -/
def WellFormed (sl : genericSkipList K V) : Prop :=
  0 < sl.height ∧ headOK sl = true ∧
  (∀ L, L < sl.height.toNat → ∃ xs ∈ sl.chain L,
    (∀ a ∈ xs, nodeOK sl a = true) ∧ xs.Pairwise (fun a b => keyLt sl.mem a b = true)) ∧
  (∀ L, L < sl.height.toNat - 1 →
    ∃ ys ∈ sl.chain (L + 1), ∃ xs ∈ sl.chain L, ∀ a ∈ ys, a ∈ xs) ∧
  (∃ xs ∈ sl.chain 0, sl.size = xs.length)

instance instDecidableWellFormed (sl : genericSkipList K V) : Decidable (WellFormed sl) := by
  unfold WellFormed
  infer_instance

/-- The same invariants, with the head address and the chains named. -/
structure Shape (sl : genericSkipList K V) (h : Nat) (ch : Nat → List Nat) : Prop where
  height_pos : 0 < sl.height
  head_eq : sl.head = some h
  head_ok : headOK sl = true
  seg : ∀ L, L < sl.height.toNat → IsSeg sl.mem L (some h) (h :: ch L) none
  node_ok : ∀ L, L < sl.height.toNat → ∀ a ∈ ch L, nodeOK sl a = true
  sorted : ∀ L, L < sl.height.toNat → (ch L).Pairwise (fun a b => keyLt sl.mem a b = true)
  nested : ∀ L, L + 1 < sl.height.toNat → ∀ a ∈ ch (L + 1), a ∈ ch L
  size_eq : sl.size = (ch 0).length

/-- Successive calls of `Add`, the `j`-th one with the draws `draws j`. -/
def addAll : genericSkipList K V → List (K × Value V) → (Nat → Nat → ℚ) →
    Except Fault (genericSkipList K V)
  | sl, [], _ => .ok sl
  | sl, (k, v) :: rest, draws =>
    match sl.Add k v (draws 0) with
    | .error e => .error e
    | .ok sl1 => addAll sl1 rest (fun j => draws (j + 1))

/-- The states a caller can reach from `NewSkipList height prob` by calls of `Add` and
`Delete` that return. -/
inductive Reachable (height : Int) (prob : ℚ) : genericSkipList K V → Prop where
  | fresh {sl : genericSkipList K V} :
      NewSkipList height prob = .ok sl → Reachable height prob sl
  | add {sl sl1 : genericSkipList K V} {k : K} {v : Value V} {draws : Nat → ℚ} :
      Reachable height prob sl → sl.Add k v draws = .ok sl1 → Reachable height prob sl1
  | delete {sl sl1 : genericSkipList K V} {k : K} {v : Value V} {ok : Bool} :
      Reachable height prob sl → sl.Delete k = .ok (sl1, v, ok) → Reachable height prob sl1

/-- Successive calls of `Delete`; each call records the value and the flag it returned and
`Len()` right after it. -/
def deleteAll : genericSkipList K V → List K →
    Except Fault (genericSkipList K V × List (Value V × Bool × Int))
  | sl, [] => .ok (sl, [])
  | sl, k :: rest =>
    match sl.Delete k with
    | .error e => .error e
    | .ok (sl1, v, ok) =>
      match deleteAll sl1 rest with
      | .error e => .error e
      | .ok (sl2, rs) => .ok (sl2, (v, ok, sl1.Len) :: rs)

/-- The lookup the search is compared with: scan the level-0 chain from the left for the
first entry with the key. It follows the words of the specification, not the code. -/
def genericSkipList.naiveFind (sl : genericSkipList K V) (key : K) : Value V × Bool :=
  match sl.entries.find? (fun e => decide (e.1 = key)) with
  | some e => (e.2, true)
  | none => (defaultValue, false)

/-- Every node linked on a level is linked on the level below. -/
def genericSkipList.Nested (sl : genericSkipList K V) : Prop :=
  ∀ L, L < sl.height.toNat - 1 →
    ∃ ys ∈ sl.chain (L + 1), ∃ xs ∈ sl.chain L, ∀ a ∈ ys, a ∈ xs

instance instDecidableNested (sl : genericSkipList K V) : Decidable sl.Nested := by
  unfold genericSkipList.Nested
  infer_instance

/-- The head has exactly `height` forward slots and every other allocated node between 1
and `height`. -/
def genericSkipList.LevelsOK (sl : genericSkipList K V) : Prop :=
  ∀ a, a < sl.mem.length →
    match levelAt sl.mem a with
    | some l => if some a = sl.head then l = sl.height else 1 ≤ l ∧ l ≤ sl.height
    | none => False

end Spec

/-- The flags returned by `j` successive calls of `Next`, and the iterator afterwards. -/
def skipListIterator.runNext (mem : List (node K V)) :
    Nat → skipListIterator → Except Fault (List Bool × skipListIterator)
  | 0, it => .ok ([], it)
  | j + 1, it =>
    match it.Next mem with
    | .error e => .error e
    | .ok (b, it1) =>
      match skipListIterator.runNext mem j it1 with
      | .error e => .error e
      | .ok (bs, it2) => .ok (b :: bs, it2)

/-! ## Sample lists -/

/-- Keys 2, 5, 7 in a list of height 3: the node of 5 has one level, that of 2 two, that of 7
three. -/
def sample : genericSkipList Nat Nat :=
  { mem := [{ key := none, value := Value.nil, next := [some 2, some 2, some 3] },
            { key := some 5, value := Value.val 50, next := [some 3] },
            { key := some 2, value := Value.val 20, next := [some 1, some 3] },
            { key := some 7, value := Value.val 70, next := [none, none, none] }]
    height := 3
    head := some 0
    size := 3
    prob := 1 }

/-- The list returned by `NewSkipList(3, p)`. -/
def sampleFresh : genericSkipList Nat Nat :=
  { mem := [{ key := none, value := Value.nil, next := [none, none, none] }]
    height := 3
    head := some 0
    size := 0
    prob := 0 }

/-- The list after `NewSkipList(3, p)` and `Add(5, 50)`. -/
def sampleOne : genericSkipList Nat Nat :=
  { mem := [{ key := none, value := Value.nil, next := [some 1, none, none] },
            { key := some 5, value := Value.val 50, next := [none] }]
    height := 3
    head := some 0
    size := 1
    prob := 0 }

/-- The list after `NewSkipList(3, p)`, `Add(5, 50)` and `Add(2, 20)`. -/
def sampleTwo : genericSkipList Nat Nat :=
  { mem := [{ key := none, value := Value.nil, next := [some 2, none, none] },
            { key := some 5, value := Value.val 50, next := [none] },
            { key := some 2, value := Value.val 20, next := [some 1] }]
    height := 3
    head := some 0
    size := 2
    prob := 0 }

/-- The list after `NewSkipList(3, p)`, `Add(5, 50)`, `Add(2, 20)` and `Add(7, 70)`. -/
def sampleThree : genericSkipList Nat Nat :=
  { mem := [{ key := none, value := Value.nil, next := [some 2, none, none] },
            { key := some 5, value := Value.val 50, next := [some 3] },
            { key := some 2, value := Value.val 20, next := [some 1] },
            { key := some 7, value := Value.val 70, next := [none] }]
    height := 3
    head := some 0
    size := 3
    prob := 0 }

/-- The list after `Delete(5)` on `sampleThree`; the node of 5 stays in the memory, unlinked. -/
def sampleAfter : genericSkipList Nat Nat :=
  { mem := [{ key := none, value := Value.nil, next := [some 2, none, none] },
            { key := some 5, value := Value.val 50, next := [some 3] },
            { key := some 2, value := Value.val 20, next := [some 3] },
            { key := some 7, value := Value.val 70, next := [none] }]
    height := 3
    head := some 0
    size := 2
    prob := 0 }

/-- The list returned by `NewSkipList(1, p)`. -/
def sampleLow : genericSkipList Nat Nat :=
  { mem := [{ key := none, value := Value.nil, next := [none] }]
    height := 1
    head := some 0
    size := 0
    prob := 0 }

/-- The list returned by `NewSkipList(0, p)`: its head has no forward slot. -/
def sampleZero : genericSkipList Nat Nat :=
  { mem := [{ key := none, value := Value.nil, next := [] }]
    height := 0
    head := some 0
    size := 0
    prob := 0 }

/-- Draws that make the level generator go on once and then stop, for `prob = 1`. -/
def sampleDraws : Nat → ℚ := fun i => if i = 0 then 0 else 1

end SkipList

namespace SkipList

variable {K V : Type}

/-! ## Reads and writes of the memory -/

theorem load_eq (mem : List (node K V)) (a : Nat) :
    load mem (some a) = match mem[a]? with
      | some n => .ok n
      | none => .error .dangling := rfl

theorem getNext_ok_iff {mem : List (node K V)} {a L : Nat} {p : Ptr} :
    getNext mem (some a) L = .ok p ↔ ∃ n, mem[a]? = some n ∧ n.next[L]? = some p := by
  unfold getNext index
  rw [load_eq]
  cases h : mem[a]? with
  | none => simp
  | some n =>
    cases h2 : n.next[L]? <;> simp [h2]

theorem entryAt_eq_some_iff {mem : List (node K V)} {a : Nat} {e : K × Value V} :
    entryAt mem a = some e ↔ ∃ n, mem[a]? = some n ∧ n.key = some e.1 ∧ n.value = e.2 := by
  unfold entryAt
  rw [load_eq]
  cases h : mem[a]? with
  | none => simp
  | some n =>
    obtain ⟨nk, nv, nn⟩ := n
    obtain ⟨k1, v1⟩ := e
    cases nk <;> simp

theorem levelAt_eq_some_iff {mem : List (node K V)} {a : Nat} {l : Int} :
    levelAt mem a = some l ↔ ∃ n, mem[a]? = some n ∧ (n.next.length : Int) = l := by
  unfold levelAt node.level
  rw [load_eq]
  cases h : mem[a]? <;> simp

theorem getKey_of_entryAt {mem : List (node K V)} {a : Nat} {e : K × Value V}
    (h : entryAt mem a = some e) : getKey mem (some a) = .ok (some e.1) := by
  obtain ⟨n, hn, hk, _⟩ := entryAt_eq_some_iff.1 h
  simp [getKey, load_eq, hn, hk]

theorem getValue_of_entryAt {mem : List (node K V)} {a : Nat} {e : K × Value V}
    (h : entryAt mem a = some e) : getValue mem (some a) = .ok e.2 := by
  obtain ⟨n, hn, _, hv⟩ := entryAt_eq_some_iff.1 h
  simp [getValue, load_eq, hn, hv]

theorem lt_length_of_getNext {mem : List (node K V)} {a L : Nat} {p : Ptr}
    (h : getNext mem (some a) L = .ok p) : a < mem.length := by
  obtain ⟨n, hn, _⟩ := getNext_ok_iff.1 h
  exact (List.getElem?_eq_some.1 hn).1

theorem lt_length_of_entryAt {mem : List (node K V)} {a : Nat} {e : K × Value V}
    (h : entryAt mem a = some e) : a < mem.length := by
  obtain ⟨n, hn, _⟩ := entryAt_eq_some_iff.1 h
  exact (List.getElem?_eq_some.1 hn).1

theorem setNext_ok_iff {mem mem1 : List (node K V)} {a L : Nat} {q : Ptr} :
    setNext mem (some a) L q = .ok mem1 ↔
      ∃ n, mem[a]? = some n ∧ L < n.next.length ∧
        mem1 = mem.set a { n with next := n.next.set L q } := by
  unfold setNext store
  rw [load_eq]
  cases h : mem[a]? with
  | none => simp
  | some n =>
    have ha : a < mem.length := (List.getElem?_eq_some.1 h).1
    by_cases hL : L < n.next.length
    · simp [hL, ha, eq_comm]
    · simp [hL]

theorem setNext_of_getNext {mem : List (node K V)} {a L : Nat} {p : Ptr} (q : Ptr)
    (h : getNext mem (some a) L = .ok p) : ∃ mem1, setNext mem (some a) L q = .ok mem1 := by
  obtain ⟨n, hn, hp⟩ := getNext_ok_iff.1 h
  exact ⟨_, setNext_ok_iff.2 ⟨n, hn, (List.getElem?_eq_some.1 hp).1, rfl⟩⟩

theorem length_setNext {mem mem1 : List (node K V)} {a L : Nat} {q : Ptr}
    (h : setNext mem (some a) L q = .ok mem1) : mem1.length = mem.length := by
  obtain ⟨n, _, _, rfl⟩ := setNext_ok_iff.1 h
  simp

theorem getNext_setNext {mem mem1 : List (node K V)} {a L : Nat} {q : Ptr}
    (h : setNext mem (some a) L q = .ok mem1) (b M : Nat) :
    getNext mem1 (some b) M = if b = a ∧ M = L then .ok q else getNext mem (some b) M := by
  obtain ⟨n, hn, hL, rfl⟩ := setNext_ok_iff.1 h
  have ha : a < mem.length := (List.getElem?_eq_some.1 hn).1
  unfold getNext index
  simp only [load_eq]
  by_cases hb : b = a
  · subst hb
    simp only [List.getElem?_set, if_true, ha, hn]
    by_cases hM : M = L
    · subst hM
      simp [hL]
    · have : L ≠ M := fun h => hM h.symm
      simp [hM, this]
  · have : a ≠ b := fun h => hb h.symm
    simp [hb, List.getElem?_set_ne this]

theorem entryAt_setNext {mem mem1 : List (node K V)} {a L : Nat} {q : Ptr}
    (h : setNext mem (some a) L q = .ok mem1) (b : Nat) :
    entryAt mem1 b = entryAt mem b := by
  obtain ⟨n, hn, hL, rfl⟩ := setNext_ok_iff.1 h
  have ha : a < mem.length := (List.getElem?_eq_some.1 hn).1
  unfold entryAt
  simp only [load_eq]
  by_cases hb : b = a
  · subst hb
    simp [List.getElem?_set, ha, hn]
  · have : a ≠ b := fun h => hb h.symm
    simp [List.getElem?_set_ne this]

theorem levelAt_setNext {mem mem1 : List (node K V)} {a L : Nat} {q : Ptr}
    (h : setNext mem (some a) L q = .ok mem1) (b : Nat) :
    levelAt mem1 b = levelAt mem b := by
  obtain ⟨n, hn, hL, rfl⟩ := setNext_ok_iff.1 h
  have ha : a < mem.length := (List.getElem?_eq_some.1 hn).1
  unfold levelAt node.level
  simp only [load_eq]
  by_cases hb : b = a
  · subst hb
    simp [List.getElem?_set, ha, hn]
  · have : a ≠ b := fun h => hb h.symm
    simp [List.getElem?_set_ne this]

theorem getKey_setNext {mem mem1 : List (node K V)} {a L : Nat} {q : Ptr}
    (h : setNext mem (some a) L q = .ok mem1) (b : Nat) :
    getKey mem1 (some b) = getKey mem (some b) := by
  obtain ⟨n, hn, hL, rfl⟩ := setNext_ok_iff.1 h
  have ha : a < mem.length := (List.getElem?_eq_some.1 hn).1
  unfold getKey
  simp only [load_eq]
  by_cases hb : b = a
  · subst hb
    simp [List.getElem?_set, ha, hn]
  · have : a ≠ b := fun h => hb h.symm
    simp [List.getElem?_set_ne this]

theorem getValue_setNext {mem mem1 : List (node K V)} {a L : Nat} {q : Ptr}
    (h : setNext mem (some a) L q = .ok mem1) (b : Nat) :
    getValue mem1 (some b) = getValue mem (some b) := by
  obtain ⟨n, hn, hL, rfl⟩ := setNext_ok_iff.1 h
  have ha : a < mem.length := (List.getElem?_eq_some.1 hn).1
  unfold getValue
  simp only [load_eq]
  by_cases hb : b = a
  · subst hb
    simp [List.getElem?_set, ha, hn]
  · have : a ≠ b := fun h => hb h.symm
    simp [List.getElem?_set_ne this]

theorem SameData.refl (mem : List (node K V)) : SameData mem mem :=
  ⟨rfl, fun _ => ⟨rfl, rfl, rfl, rfl⟩⟩

theorem SameData.trans {m1 m2 m3 : List (node K V)} (h12 : SameData m1 m2)
    (h23 : SameData m2 m3) : SameData m1 m3 := by
  refine ⟨h12.1.trans h23.1, fun b => ?_⟩
  obtain ⟨a1, a2, a3, a4⟩ := h12.2 b
  obtain ⟨b1, b2, b3, b4⟩ := h23.2 b
  exact ⟨a1.trans b1, a2.trans b2, a3.trans b3, a4.trans b4⟩

theorem SameData.of_setNext {mem mem1 : List (node K V)} {a L : Nat} {q : Ptr}
    (h : setNext mem (some a) L q = .ok mem1) : SameData mem1 mem :=
  ⟨length_setNext h, fun b =>
    ⟨entryAt_setNext h b, levelAt_setNext h b, getKey_setNext h b, getValue_setNext h b⟩⟩

theorem setValue_ok_iff {mem mem1 : List (node K V)} {a : Nat} {v : Value V} :
    setValue mem (some a) v = .ok mem1 ↔
      ∃ n, mem[a]? = some n ∧ mem1 = mem.set a { n with value := v } := by
  unfold setValue store
  rw [load_eq]
  cases h : mem[a]? with
  | none => simp
  | some n =>
    have ha : a < mem.length := (List.getElem?_eq_some.1 h).1
    simp [ha, eq_comm]

theorem length_setValue {mem mem1 : List (node K V)} {a : Nat} {v : Value V}
    (h : setValue mem (some a) v = .ok mem1) : mem1.length = mem.length := by
  obtain ⟨n, _, rfl⟩ := setValue_ok_iff.1 h
  simp

theorem getNext_setValue {mem mem1 : List (node K V)} {a : Nat} {v : Value V}
    (h : setValue mem (some a) v = .ok mem1) (b M : Nat) :
    getNext mem1 (some b) M = getNext mem (some b) M := by
  obtain ⟨n, hn, rfl⟩ := setValue_ok_iff.1 h
  have ha : a < mem.length := (List.getElem?_eq_some.1 hn).1
  unfold getNext
  simp only [load_eq]
  by_cases hb : b = a
  · subst hb
    simp [List.getElem?_set, ha, hn]
  · have : a ≠ b := fun h => hb h.symm
    simp [List.getElem?_set_ne this]

theorem levelAt_setValue {mem mem1 : List (node K V)} {a : Nat} {v : Value V}
    (h : setValue mem (some a) v = .ok mem1) (b : Nat) :
    levelAt mem1 b = levelAt mem b := by
  obtain ⟨n, hn, rfl⟩ := setValue_ok_iff.1 h
  have ha : a < mem.length := (List.getElem?_eq_some.1 hn).1
  unfold levelAt node.level
  simp only [load_eq]
  by_cases hb : b = a
  · subst hb
    simp [List.getElem?_set, ha, hn]
  · have : a ≠ b := fun h => hb h.symm
    simp [List.getElem?_set_ne this]

theorem entryAt_setValue {mem mem1 : List (node K V)} {a : Nat} {v : Value V}
    (h : setValue mem (some a) v = .ok mem1) (b : Nat) :
    entryAt mem1 b =
      if b = a then (entryAt mem a).map (fun e => (e.1, v)) else entryAt mem b := by
  obtain ⟨n, hn, rfl⟩ := setValue_ok_iff.1 h
  have ha : a < mem.length := (List.getElem?_eq_some.1 hn).1
  unfold entryAt
  simp only [load_eq]
  by_cases hb : b = a
  · subst hb
    simp only [List.getElem?_set, if_true, ha, hn]
    cases n.key <;> simp
  · have : a ≠ b := fun h => hb h.symm
    simp [hb, List.getElem?_set_ne this]

/-! ### Allocation: a node appended to the memory -/

theorem getNext_append {mem : List (node K V)} (n : node K V) {b : Nat} (hb : b < mem.length)
    (M : Nat) : getNext (mem ++ [n]) (some b) M = getNext mem (some b) M := by
  unfold getNext
  simp only [load_eq, List.getElem?_append_left hb]

theorem entryAt_append {mem : List (node K V)} (n : node K V) {b : Nat} (hb : b < mem.length) :
    entryAt (mem ++ [n]) b = entryAt mem b := by
  unfold entryAt
  simp only [load_eq, List.getElem?_append_left hb]

theorem levelAt_append {mem : List (node K V)} (n : node K V) {b : Nat} (hb : b < mem.length) :
    levelAt (mem ++ [n]) b = levelAt mem b := by
  unfold levelAt
  simp only [load_eq, List.getElem?_append_left hb]

theorem getNext_append_new (mem : List (node K V)) (n : node K V) (M : Nat) :
    getNext (mem ++ [n]) (some mem.length) M = index n.next M := by
  unfold getNext
  simp [load_eq]

theorem entryAt_append_new (mem : List (node K V)) (k : K) (v : Value V) (nx : List Ptr) :
    entryAt (mem ++ [{ key := some k, value := v, next := nx }]) mem.length = some (k, v) := by
  unfold entryAt
  simp [load_eq]

theorem levelAt_append_new (mem : List (node K V)) (n : node K V) :
    levelAt (mem ++ [n]) mem.length = some (n.next.length : Int) := by
  unfold levelAt node.level
  simp [load_eq]

end SkipList

namespace SkipList

variable {K V : Type}

/-! ## Lists: last element, sorted prefixes -/

theorem lastFrom_append {α : Type} (c : α) (xs ys : List α) :
    lastFrom c (xs ++ ys) = lastFrom (lastFrom c xs) ys := by
  induction xs generalizing c with
  | nil => rfl
  | cons a xs ih => exact ih a

theorem lastFrom_mem {α : Type} (c : α) (xs : List α) : lastFrom c xs ∈ c :: xs := by
  induction xs generalizing c with
  | nil => simp [lastFrom]
  | cons a xs ih =>
    have := ih a
    simp only [lastFrom]
    exact List.mem_cons_of_mem _ this

theorem lastFrom_split {α : Type} (c : α) (xs : List α) :
    ∃ init, c :: xs = init ++ [lastFrom c xs] := by
  induction xs generalizing c with
  | nil => exact ⟨[], rfl⟩
  | cons a xs ih =>
    obtain ⟨init, hi⟩ := ih a
    exact ⟨c :: init, by simp [lastFrom, hi]⟩

theorem lastFrom_of_mem_split {α : Type} {h c : α} {lo A B : List α}
    (hs : h :: lo = A ++ c :: B) : lastFrom c B = lastFrom h lo := by
  have h1 : lastFrom h lo = lastFrom h (h :: lo) := rfl
  rw [h1, hs, lastFrom_append]
  rfl

theorem mem_takeWhile_of_pairwise {α : Type} {R : α → α → Prop} {t : α → Bool}
    (hdown : ∀ a b, R a b → t b = true → t a = true) :
    ∀ {xs : List α}, xs.Pairwise R → ∀ {a : α}, a ∈ xs → t a = true → a ∈ xs.takeWhile t := by
  intro xs
  induction xs with
  | nil => intro _ a ha; simp at ha
  | cons x xs ih =>
    intro hp a ha hta
    rw [List.pairwise_cons] at hp
    rcases List.mem_cons.1 ha with rfl | hmem
    · simp [List.takeWhile_cons, hta]
    · have hx : t x = true := hdown x a (hp.1 a hmem) hta
      simp only [List.takeWhile_cons, hx, if_true]
      exact List.mem_cons_of_mem _ (ih hp.2 hmem hta)

theorem dropWhile_all_false {α : Type} {R : α → α → Prop} {t : α → Bool}
    (hdown : ∀ a b, R a b → t b = true → t a = true) :
    ∀ {xs : List α}, xs.Pairwise R → ∀ a ∈ xs.dropWhile t, t a = false := by
  intro xs
  induction xs with
  | nil => intro _ a ha; simp at ha
  | cons x xs ih =>
    intro hp a ha
    rw [List.pairwise_cons] at hp
    by_cases hx : t x = true
    · simp only [List.dropWhile_cons, hx, if_true] at ha
      exact ih hp.2 a ha
    · simp only [List.dropWhile_cons, hx] at ha
      rcases List.mem_cons.1 ha with rfl | hmem
      · simpa using hx
      · by_contra hta
        exact hx (hdown x a (hp.1 a hmem) (by simpa using hta))

theorem length_le_of_nodup_lt {xs : List Nat} {n : Nat} (hnd : xs.Nodup)
    (hlt : ∀ a ∈ xs, a < n) : xs.length ≤ n := by
  have hsub : xs ⊆ List.range n := fun a ha => List.mem_range.2 (hlt a ha)
  have := (List.Nodup.subperm hnd hsub).length_le
  simpa using this

/-! ## Segments of a level -/

theorem seg_append {mem : List (node K V)} {L : Nat} {xs ys : List Nat} {p q : Ptr} :
    IsSeg mem L p (xs ++ ys) q ↔ ∃ r, IsSeg mem L p xs r ∧ IsSeg mem L r ys q := by
  induction xs generalizing p with
  | nil => simp [IsSeg]
  | cons a xs ih =>
    show (p = some a ∧ ∃ r, getNext mem (some a) L = .ok r ∧ IsSeg mem L r (xs ++ ys) q) ↔ _
    constructor
    · rintro ⟨rfl, r, hr, h⟩
      obtain ⟨s, h1, h2⟩ := ih.1 h
      exact ⟨s, ⟨rfl, r, hr, h1⟩, h2⟩
    · rintro ⟨s, ⟨rfl, r, hr, h1⟩, h2⟩
      exact ⟨rfl, r, hr, ih.2 ⟨s, h1, h2⟩⟩

theorem seg_congr {mem mem1 : List (node K V)} {L : Nat} {xs : List Nat} {p q : Ptr}
    (hsame : ∀ a ∈ xs, getNext mem1 (some a) L = getNext mem (some a) L)
    (h : IsSeg mem L p xs q) : IsSeg mem1 L p xs q := by
  induction xs generalizing p with
  | nil => exact h
  | cons a xs ih =>
    obtain ⟨rfl, r, hr, hrest⟩ := h
    refine ⟨rfl, r, ?_, ih (fun b hb => hsame b (List.mem_cons_of_mem _ hb)) hrest⟩
    rw [hsame a (List.mem_cons_self _ _)]
    exact hr

theorem seg_unique {mem : List (node K V)} {L : Nat} {xs ys : List Nat} {p : Ptr}
    (h1 : IsSeg mem L p xs none) (h2 : IsSeg mem L p ys none) : xs = ys := by
  induction xs generalizing p ys with
  | nil =>
    cases ys with
    | nil => rfl
    | cons b ys =>
      simp only [IsSeg] at h1 h2
      rw [h1] at h2
      exact absurd h2.1 (by simp)
  | cons a xs ih =>
    cases ys with
    | nil =>
      simp only [IsSeg] at h1 h2
      rw [h2] at h1
      exact absurd h1.1 (by simp)
    | cons b ys =>
      obtain ⟨hp1, r1, hr1, hrest1⟩ := h1
      obtain ⟨hp2, r2, hr2, hrest2⟩ := h2
      rw [hp1] at hp2
      have hab : a = b := Option.some.inj hp2
      subst hab
      rw [hr1] at hr2
      have : r1 = r2 := by injection hr2
      subst this
      rw [ih hrest1 hrest2]

theorem seg_lt_length {mem : List (node K V)} {L : Nat} {xs : List Nat} {p q : Ptr}
    (h : IsSeg mem L p xs q) : ∀ a ∈ xs, a < mem.length := by
  induction xs generalizing p with
  | nil => intro a ha; simp at ha
  | cons b xs ih =>
    obtain ⟨_, r, hr, hrest⟩ := h
    intro a ha
    rcases List.mem_cons.1 ha with rfl | hmem
    · exact lt_length_of_getNext hr
    · exact ih hrest a hmem

theorem seg_getNext {mem : List (node K V)} {L : Nat} {xs : List Nat} {p q : Ptr}
    (h : IsSeg mem L p xs q) : ∀ a ∈ xs, ∃ r, getNext mem (some a) L = .ok r := by
  induction xs generalizing p with
  | nil => intro a ha; simp at ha
  | cons b xs ih =>
    obtain ⟨_, r, hr, hrest⟩ := h
    intro a ha
    rcases List.mem_cons.1 ha with rfl | hmem
    · exact ⟨r, hr⟩
    · exact ih hrest a hmem

theorem seg_snoc {mem : List (node K V)} {L : Nat} {xs : List Nat} {u : Nat} {p q : Ptr} :
    IsSeg mem L p (xs ++ [u]) q ↔ IsSeg mem L p xs (some u) ∧ getNext mem (some u) L = .ok q := by
  rw [seg_append]
  constructor
  · rintro ⟨r, h1, rfl, s, hs, hq⟩
    simp only [IsSeg] at hq
    subst hq
    exact ⟨h1, hs⟩
  · rintro ⟨h1, h2⟩
    exact ⟨some u, h1, rfl, q, h2, rfl⟩

theorem seg_start {mem : List (node K V)} {L : Nat} {xs : List Nat} {a : Nat} {p q : Ptr}
    (h : IsSeg mem L p (a :: xs) q) : p = some a := h.1

/-- The computed chain is a nil-terminated segment no longer than the fuel, and conversely. -/
theorem chainFrom_eq_some_iff {mem : List (node K V)} {L : Nat} {fuel : Nat} {p : Ptr}
    {xs : List Nat} :
    chainFrom mem L fuel p = some xs ↔ IsSeg mem L p xs none ∧ xs.length ≤ fuel := by
  induction fuel generalizing p xs with
  | zero =>
    cases p with
    | none =>
      cases xs with
      | nil => simp [chainFrom, IsSeg]
      | cons b xs => simp [chainFrom, IsSeg]
    | some a =>
      cases xs with
      | nil => simp [chainFrom, IsSeg]
      | cons b xs => simp [chainFrom, IsSeg]
  | succ fuel ih =>
    cases p with
    | none =>
      cases xs with
      | nil => simp [chainFrom, IsSeg]
      | cons b xs => simp [chainFrom, IsSeg]
    | some a =>
      cases hn : getNext mem (some a) L with
      | error e =>
        cases xs with
        | nil => simp [chainFrom, IsSeg, hn]
        | cons b xs =>
          simp only [chainFrom, hn, IsSeg]
          constructor
          · intro h; cases h
          · rintro ⟨⟨hab, r, hr, _⟩, _⟩
            have : a = b := Option.some.inj hab
            subst this
            rw [hn] at hr
            cases hr
      | ok r =>
        cases xs with
        | nil =>
          simp only [chainFrom, hn, IsSeg]
          cases chainFrom mem L fuel r <;> simp
        | cons b xs =>
          simp only [chainFrom, hn, IsSeg]
          cases hc : chainFrom mem L fuel r with
          | none =>
            constructor
            · intro h; cases h
            · rintro ⟨⟨hab, r1, hr1, hrest⟩, hlen⟩
              have : a = b := Option.some.inj hab
              subst this
              rw [hn] at hr1
              have : r = r1 := by injection hr1
              subst this
              have := (@ih r xs).2 ⟨hrest, by simpa using hlen⟩
              rw [hc] at this
              cases this
          | some ys =>
            have hys := (@ih r ys).1 hc
            constructor
            · intro h
              simp only [Option.some.injEq, List.cons.injEq] at h
              obtain ⟨rfl, rfl⟩ := h
              exact ⟨⟨rfl, r, hn, hys.1⟩, by simpa using hys.2⟩
            · rintro ⟨⟨hab, r1, hr1, hrest⟩, hlen⟩
              have : a = b := Option.some.inj hab
              subst this
              rw [hn] at hr1
              have : r = r1 := by injection hr1
              subst this
              rw [seg_unique hrest hys.1]

/-! ## The inner loop -/

/-- Walking from `c` along a segment whose nodes all pass `cmp`, up to a link that is nil or
fails `cmp`, ends on the last node of the segment. -/
theorem advance_seg (cmp : K → K → Bool) (mem : List (node K V)) (L : Nat) (key : K) :
    ∀ (lo : List Nat) (c : Nat) (r : Ptr) (fuel : Nat),
      IsSeg mem L (some c) (c :: lo) r →
      (∀ a ∈ lo, under cmp mem key a = true) →
      (∀ d, r = some d → ∃ e, entryAt mem d = some e ∧ cmp e.1 key = false) →
      lo.length < fuel →
      advance cmp mem L key fuel (some c) = .ok (some (lastFrom c lo)) := by
  intro lo
  induction lo with
  | nil =>
    intro c r fuel hseg _ hstop hfuel
    obtain ⟨_, r1, hr1, hrest⟩ := hseg
    simp only [IsSeg] at hrest
    subst hrest
    obtain ⟨fuel, rfl⟩ : ∃ f, fuel = f + 1 := ⟨fuel - 1, by simp at hfuel; omega⟩
    cases r1 with
    | none => simp [advance, hr1, lastFrom]
    | some d =>
      obtain ⟨e, he, hc⟩ := hstop d rfl
      simp [advance, hr1, getKey_of_entryAt he, hc, lastFrom]
  | cons a lo ih =>
    intro c r fuel hseg hpass hstop hfuel
    obtain ⟨_, r1, hr1, hrest⟩ := hseg
    have hr1a : r1 = some a := hrest.1
    subst hr1a
    obtain ⟨fuel, rfl⟩ : ∃ f, fuel = f + 1 := ⟨fuel - 1, by simp at hfuel; omega⟩
    have ha : under cmp mem key a = true := hpass a (List.mem_cons_self _ _)
    unfold under at ha
    cases he : entryAt mem a with
    | none => simp [he] at ha
    | some e =>
      simp only [he] at ha
      have := ih a r fuel hrest (fun b hb => hpass b (List.mem_cons_of_mem _ hb)) hstop
        (by simpa using hfuel)
      simp [advance, hr1, getKey_of_entryAt he, ha, this, lastFrom]

theorem advance_congr (cmp : K → K → Bool) {m mem : List (node K V)} (L : Nat) (key : K)
    (hnext : ∀ b, getNext m (some b) L = getNext mem (some b) L)
    (hkey : ∀ b, getKey m (some b) = getKey mem (some b)) :
    ∀ (fuel : Nat) (c : Nat), advance cmp m L key fuel (some c) = advance cmp mem L key fuel (some c) := by
  intro fuel
  induction fuel with
  | zero => intro c; rfl
  | succ fuel ih =>
    intro c
    simp only [advance, hnext, hkey, ih]

/-! ## Unlinking and linking a node in a segment -/

theorem seg_unlink {m m1 : List (node K V)} {L : Nat} {s r : Ptr} {init hi : List Nat}
    {p d : Nat} (hnd : (init ++ p :: d :: hi).Nodup)
    (hseg : IsSeg m L s (init ++ p :: d :: hi) none)
    (hr : getNext m (some d) L = .ok r)
    (hset : setNext m (some p) L r = .ok m1) :
    IsSeg m1 L s (init ++ p :: hi) none := by
  rw [seg_append] at hseg ⊢
  obtain ⟨t, hinit, hp, q, hq, hd, q1, hq1, hhi⟩ := hseg
  rw [hr] at hq1
  have : r = q1 := by injection hq1
  subst this
  have hnd1 := List.nodup_append.1 hnd
  have hdisj := hnd1.2.2
  have hpd := List.nodup_cons.1 hnd1.2.1
  refine ⟨t, ?_, hp, r, ?_, ?_⟩
  · refine seg_congr ?_ hinit
    intro b hb
    rw [getNext_setNext hset]
    have : b ≠ p := fun hbp => hdisj hb (by rw [hbp]; exact List.mem_cons_self _ _) 
    simp [this]
  · rw [getNext_setNext hset]
    simp
  · refine seg_congr ?_ hhi
    intro b hb
    rw [getNext_setNext hset]
    have : b ≠ p := fun hbp => hpd.1 (by rw [← hbp]; exact List.mem_cons_of_mem _ hb)
    simp [this]

theorem seg_link {m m1 m2 : List (node K V)} {L : Nat} {s r : Ptr} {init hi : List Nat}
    {p new : Nat} (hnd : (init ++ p :: hi).Nodup) (hnew : new ∉ init ++ p :: hi)
    (hseg : IsSeg m L s (init ++ p :: hi) none)
    (hr : getNext m (some p) L = .ok r)
    (hset1 : setNext m (some new) L r = .ok m1)
    (hset2 : setNext m1 (some p) L (some new) = .ok m2) :
    IsSeg m2 L s (init ++ p :: new :: hi) none := by
  rw [seg_append] at hseg ⊢
  obtain ⟨t, hinit, hp, q, hq, hhi⟩ := hseg
  rw [hr] at hq
  have : r = q := by injection hq
  subst this
  have hnd1 := List.nodup_append.1 hnd
  have hdisj := hnd1.2.2
  have hpd := List.nodup_cons.1 hnd1.2.1
  have hnewp : new ≠ p := fun h => hnew (by rw [h]; simp)
  refine ⟨t, ?_, hp, some new, ?_, rfl, r, ?_, ?_⟩
  · refine seg_congr ?_ hinit
    intro b hb
    rw [getNext_setNext hset2, getNext_setNext hset1]
    have h1 : b ≠ p := fun hbp => hdisj hb (by rw [hbp]; exact List.mem_cons_self _ _)
    have h2 : b ≠ new := fun hbn => hnew (by rw [← hbn]; simp [hb])
    simp [h1, h2]
  · rw [getNext_setNext hset2]
    simp
  · rw [getNext_setNext hset2, getNext_setNext hset1]
    simp [hnewp]
  · refine seg_congr ?_ hhi
    intro b hb
    rw [getNext_setNext hset2, getNext_setNext hset1]
    have h1 : b ≠ p := fun hbp => hpd.1 (by rw [← hbp]; exact hb)
    have h2 : b ≠ new := fun hbn => hnew (by rw [← hbn]; simp [hb])
    simp [h1, h2]

end SkipList

namespace SkipList

set_option linter.unusedSectionVars false

variable {K V : Type} [LinearOrder K]

/-! ## Consequences of the invariants -/

theorem keyLt_iff {mem : List (node K V)} {a b : Nat} :
    keyLt mem a b = true ↔
      ∃ x y, entryAt mem a = some x ∧ entryAt mem b = some y ∧ x.1 < y.1 := by
  unfold keyLt
  cases entryAt mem a <;> cases entryAt mem b <;> simp

theorem keyLt_congr {mem mem1 : List (node K V)} {a b : Nat}
    (ha : entryAt mem1 a = entryAt mem a) (hb : entryAt mem1 b = entryAt mem b) :
    keyLt mem1 a b = keyLt mem a b := by
  unfold keyLt
  rw [ha, hb]

theorem keyLt_irrefl (mem : List (node K V)) (a : Nat) : ¬ keyLt mem a a = true := by
  rw [keyLt_iff]
  rintro ⟨x, y, hx, hy, hlt⟩
  rw [hx] at hy
  cases hy
  exact lt_irrefl _ hlt

theorem keyLt_trans {mem : List (node K V)} {a b c : Nat}
    (h1 : keyLt mem a b = true) (h2 : keyLt mem b c = true) : keyLt mem a c = true := by
  rw [keyLt_iff] at *
  obtain ⟨x, y, hx, hy, hlt⟩ := h1
  obtain ⟨y1, z, hy1, hz, hlt1⟩ := h2
  rw [hy] at hy1
  cases hy1
  exact ⟨x, z, hx, hz, lt_trans hlt hlt1⟩

theorem nodup_of_pairwise_keyLt {mem : List (node K V)} {xs : List Nat}
    (h : xs.Pairwise (fun a b => keyLt mem a b = true)) : xs.Nodup := by
  refine List.Pairwise.imp ?_ h
  intro a b hab heq
  subst heq
  exact keyLt_irrefl mem a hab

theorem under_down {cmp : K → K → Bool} {key : K}
    (hdc : ∀ x y : K, x < y → cmp y key = true → cmp x key = true)
    (mem : List (node K V)) (a b : Nat)
    (hlt : keyLt mem a b = true) (hb : under cmp mem key b = true) :
    under cmp mem key a = true := by
  obtain ⟨x, y, hx, hy, hxy⟩ := keyLt_iff.1 hlt
  unfold under at *
  rw [hy] at hb
  rw [hx]
  exact hdc _ _ hxy hb

theorem LessEq_down (key : K) : ∀ x y : K, x < y → LessEq y key = true → LessEq x key = true := by
  intro x y hxy hy
  simp only [LessEq, decide_eq_true_eq] at *
  exact le_trans (le_of_lt hxy) hy

theorem Less_down (key : K) : ∀ x y : K, x < y → Less y key = true → Less x key = true := by
  intro x y hxy hy
  simp only [Less, decide_eq_true_eq] at *
  exact lt_trans hxy hy

theorem nodeOK_iff {sl : genericSkipList K V} {a : Nat} :
    nodeOK sl a = true ↔
      some a ≠ sl.head ∧ (∃ e, entryAt sl.mem a = some e) ∧
        ∃ l, levelAt sl.mem a = some l ∧ l ≤ sl.height := by
  cases he : entryAt sl.mem a <;> cases hl : levelAt sl.mem a <;> simp [nodeOK, he, hl]

theorem headOK_iff {sl : genericSkipList K V} :
    headOK sl = true ↔ ∃ h, sl.head = some h ∧ levelAt sl.mem h = some sl.height := by
  cases hh : sl.head with
  | none => simp [headOK, hh]
  | some h =>
    cases hl : levelAt sl.mem h <;> simp [headOK, hh, hl]

namespace Shape

variable {sl : genericSkipList K V} {h : Nat} {ch : Nat → List Nat}

theorem entry (hs : Shape sl h ch) {L : Nat} (hL : L < sl.height.toNat) {a : Nat}
    (ha : a ∈ ch L) : ∃ e, entryAt sl.mem a = some e :=
  (nodeOK_iff.1 (hs.node_ok L hL a ha)).2.1

theorem ne_head (hs : Shape sl h ch) {L : Nat} (hL : L < sl.height.toNat) {a : Nat}
    (ha : a ∈ ch L) : a ≠ h := by
  have := (nodeOK_iff.1 (hs.node_ok L hL a ha)).1
  rw [hs.head_eq] at this
  intro heq
  exact this (by rw [heq])

theorem nodup (hs : Shape sl h ch) {L : Nat} (hL : L < sl.height.toNat) : (ch L).Nodup :=
  nodup_of_pairwise_keyLt (hs.sorted L hL)

theorem lt_length (hs : Shape sl h ch) {L : Nat} (hL : L < sl.height.toNat) {a : Nat}
    (ha : a ∈ ch L) : a < sl.mem.length :=
  seg_lt_length (hs.seg L hL) a (List.mem_cons_of_mem _ ha)

theorem head_lt_length (hs : Shape sl h ch) : h < sl.mem.length := by
  have hpos : 0 < sl.height.toNat := by have := hs.height_pos; omega
  exact seg_lt_length (hs.seg 0 hpos) h (List.mem_cons_self _ _)

theorem length_le (hs : Shape sl h ch) {L : Nat} (hL : L < sl.height.toNat) :
    (ch L).length ≤ sl.mem.length :=
  length_le_of_nodup_lt (hs.nodup hL) (fun _ ha => hs.lt_length hL ha)

theorem mem_lower (hs : Shape sl h ch) {L : Nat} (hL : L < sl.height.toNat) {a : Nat}
    (ha : a ∈ ch L) : ∀ M, M ≤ L → a ∈ ch M := by
  induction L with
  | zero =>
    intro M hM
    have : M = 0 := by omega
    subst this
    exact ha
  | succ L ih =>
    intro M hM
    rcases Nat.lt_or_ge M (L + 1) with hlt | hge
    · exact ih (by omega) (hs.nested L hL a ha) M (by omega)
    · have : M = L + 1 := by omega
      subst this
      exact ha

theorem chain_eq (hs : Shape sl h ch) {L : Nat} (hL : L < sl.height.toNat) :
    sl.chain L = some (ch L) := by
  obtain ⟨_, r, hr, hrest⟩ := hs.seg L hL
  unfold genericSkipList.chain
  rw [hs.head_eq, hr]
  exact chainFrom_eq_some_iff.2 ⟨hrest, hs.length_le hL⟩

/-- Below a key: the nodes of a level that pass the comparison form the leading part of the
chain, followed only by nodes that fail it. -/
theorem below_mono (hs : Shape sl h ch) {cmp : K → K → Bool} {key : K}
    (hdc : ∀ x y : K, x < y → cmp y key = true → cmp x key = true)
    {L : Nat} (hL : L + 1 < sl.height.toNat) {c : Nat}
    (hc : c ∈ h :: (ch (L + 1)).takeWhile (under cmp sl.mem key)) :
    c ∈ h :: (ch L).takeWhile (under cmp sl.mem key) := by
  rcases List.mem_cons.1 hc with rfl | hmem
  · exact List.mem_cons_self _ _
  · refine List.mem_cons_of_mem _ ?_
    have h1 : c ∈ ch (L + 1) := (List.takeWhile_sublist _).subset hmem
    have h2 : under cmp sl.mem key c = true := List.mem_takeWhile_imp hmem
    exact mem_takeWhile_of_pairwise (under_down hdc sl.mem) (hs.sorted L (by omega))
      (hs.nested L hL c h1) h2

theorem advance_level (hs : Shape sl h ch) {cmp : K → K → Bool} {key : K}
    (hdc : ∀ x y : K, x < y → cmp y key = true → cmp x key = true)
    {L : Nat} (hL : L < sl.height.toNat) {c : Nat}
    (hc : c ∈ h :: (ch L).takeWhile (under cmp sl.mem key))
    {fuel : Nat} (hfuel : sl.mem.length < fuel) :
    advance cmp sl.mem L key fuel (some c) =
      .ok (some (lastFrom h ((ch L).takeWhile (under cmp sl.mem key)))) := by
  obtain ⟨A, B, hAB⟩ := List.append_of_mem hc
  have hseg := hs.seg L hL
  have hfull : h :: ch L = A ++ ((c :: B) ++ (ch L).dropWhile (under cmp sl.mem key)) := by
    rw [← List.append_assoc, ← hAB, List.cons_append, List.takeWhile_append_dropWhile]
  rw [hfull, seg_append] at hseg
  obtain ⟨r1, _, hseg2⟩ := hseg
  rw [seg_append] at hseg2
  obtain ⟨r, hcB, hhi⟩ := hseg2
  have hr1 : r1 = some c := hcB.1
  subst hr1
  have hBsub : ∀ a ∈ B, a ∈ (ch L).takeWhile (under cmp sl.mem key) := by
    intro a ha
    have : a ∈ h :: (ch L).takeWhile (under cmp sl.mem key) := by
      rw [hAB]; simp [ha]
    rcases List.mem_cons.1 this with heq | hmem
    · exfalso
      -- the head occurs once in `h :: ch L`
      have ha : h ∈ B := heq ▸ ha
      have hnd : (h :: ch L).Nodup := by
        refine List.nodup_cons.2 ⟨fun hmem => hs.ne_head hL hmem rfl, hs.nodup hL⟩
      rw [hfull] at hnd
      cases A with
      | nil =>
        simp only [List.nil_append, List.cons_append] at hAB
        have hca : h = c := by injection hAB
        subst hca
        simp only [List.nil_append, List.cons_append, List.nodup_cons, List.mem_append] at hnd
        exact hnd.1 (Or.inl ha)
      | cons x A =>
        have hxa : h = x := by injection hAB
        subst hxa
        simp only [List.cons_append, List.nodup_cons, List.mem_append, List.mem_cons] at hnd
        exact hnd.1 (Or.inr (Or.inr (Or.inl ha)))
    · exact hmem
  have hrw := lastFrom_of_mem_split hAB
  rw [← hrw]
  refine advance_seg cmp sl.mem L key B c r fuel hcB ?_ ?_ ?_
  · intro a ha
    exact List.mem_takeWhile_imp (hBsub a ha)
  · intro d hd
    subst hd
    cases hdw : (ch L).dropWhile (under cmp sl.mem key) with
    | nil =>
      rw [hdw] at hhi
      simp [IsSeg] at hhi
    | cons d1 rest =>
      rw [hdw] at hhi
      have hd1 : d = d1 := Option.some.inj hhi.1
      subst hd1
      have hmemd : d ∈ (ch L).dropWhile (under cmp sl.mem key) := by rw [hdw]; simp
      have hfalse := dropWhile_all_false (under_down hdc sl.mem) (hs.sorted L hL) d hmemd
      have hdch : d ∈ ch L := (List.dropWhile_suffix _).subset hmemd
      obtain ⟨e, he⟩ := hs.entry hL hdch
      refine ⟨e, he, ?_⟩
      unfold under at hfalse
      rw [he] at hfalse
      exact hfalse
  · have h1 : B.length ≤ ((ch L).takeWhile (under cmp sl.mem key)).length := by
      have := congrArg List.length hAB
      simp at this
      omega
    have h2 : ((ch L).takeWhile (under cmp sl.mem key)).length ≤ (ch L).length :=
      (List.takeWhile_sublist _).length_le
    have h3 := hs.length_le hL
    omega

end Shape

end SkipList

namespace SkipList

set_option linter.unusedSectionVars false

variable {K V : Type} [LinearOrder K]

theorem under_eq_true_iff {cmp : K → K → Bool} {mem : List (node K V)} {key : K} {a : Nat} :
    under cmp mem key a = true ↔ ∃ e, entryAt mem a = some e ∧ cmp e.1 key = true := by
  cases he : entryAt mem a <;> simp [under, he]

theorem lastFrom_mem_of_ne_nil {α : Type} (c : α) {xs : List α} (hne : xs ≠ []) :
    lastFrom c xs ∈ xs := by
  cases xs with
  | nil => exact absurd rfl hne
  | cons a xs => exact lastFrom_mem a xs

theorem pairwise_lastFrom {α : Type} {R : α → α → Prop} {xs : List α} (hp : xs.Pairwise R)
    (c : α) {a : α} (ha : a ∈ xs) : a = lastFrom c xs ∨ R a (lastFrom c xs) := by
  induction xs generalizing c with
  | nil => simp at ha
  | cons x xs ih =>
    rw [List.pairwise_cons] at hp
    rcases List.mem_cons.1 ha with rfl | hmem
    · cases xs with
      | nil => exact Or.inl rfl
      | cons y ys =>
        exact Or.inr (hp.1 _ (lastFrom_mem_of_ne_nil a (by simp)))
    · exact ih hp.2 x hmem

/-! ## Between the decidable invariant and its named form -/

theorem Shape.wellFormed {sl : genericSkipList K V} {h : Nat} {ch : Nat → List Nat}
    (hs : Shape sl h ch) : WellFormed sl := by
  have hpos : 0 < sl.height.toNat := by have := hs.height_pos; omega
  refine ⟨hs.height_pos, hs.head_ok, ?_, ?_, ?_⟩
  · intro L hL
    exact ⟨ch L, hs.chain_eq hL, hs.node_ok L hL, hs.sorted L hL⟩
  · intro L hL
    have hL1 : L + 1 < sl.height.toNat := by omega
    exact ⟨ch (L + 1), hs.chain_eq hL1, ch L, hs.chain_eq (by omega), hs.nested L hL1⟩
  · exact ⟨ch 0, hs.chain_eq hpos, hs.size_eq⟩

theorem WellFormed.shape {sl : genericSkipList K V} (hw : WellFormed sl) :
    ∃ h ch, Shape sl h ch ∧ ∀ L, L < sl.height.toNat → sl.chain L = some (ch L) := by
  obtain ⟨hpos, hhead, hlev, hnest, hsize⟩ := hw
  obtain ⟨h, hh, _⟩ := headOK_iff.1 hhead
  refine ⟨h, fun L => (sl.chain L).getD [], ?_, ?_⟩
  · refine ⟨hpos, hh, hhead, ?_, ?_, ?_, ?_, ?_⟩
    · intro L hL
      obtain ⟨xs, hxs, _, _⟩ := hlev L hL
      have hxs : sl.chain L = some xs := hxs
      simp only [hxs, Option.getD_some]
      unfold genericSkipList.chain at hxs
      rw [hh] at hxs
      cases hn : getNext sl.mem (some h) L with
      | error e => rw [hn] at hxs; cases hxs
      | ok r =>
        rw [hn] at hxs
        exact ⟨rfl, r, hn, (chainFrom_eq_some_iff.1 hxs).1⟩
    · intro L hL
      obtain ⟨xs, hxs, hok, _⟩ := hlev L hL
      have hxs : sl.chain L = some xs := hxs
      simpa only [hxs, Option.getD_some] using hok
    · intro L hL
      obtain ⟨xs, hxs, _, hp⟩ := hlev L hL
      have hxs : sl.chain L = some xs := hxs
      simpa only [hxs, Option.getD_some] using hp
    · intro L hL
      obtain ⟨ys, hys, xs, hxs, hsub⟩ := hnest L (by omega)
      have hxs : sl.chain L = some xs := hxs
      have hys : sl.chain (L + 1) = some ys := hys
      simpa only [hxs, hys, Option.getD_some] using hsub
    · obtain ⟨xs, hxs, hsz⟩ := hsize
      have hxs : sl.chain 0 = some xs := hxs
      simpa only [hxs, Option.getD_some] using hsz
  · intro L hL
    obtain ⟨xs, hxs, _, _⟩ := hlev L hL
    have hxs : sl.chain L = some xs := hxs
    simp [hxs]

theorem wellFormed_iff_shape {sl : genericSkipList K V} :
    WellFormed sl ↔ ∃ h ch, Shape sl h ch :=
  ⟨fun hw => by obtain ⟨h, ch, hs, _⟩ := hw.shape; exact ⟨h, ch, hs⟩,
   fun ⟨_, _, hs⟩ => hs.wellFormed⟩

namespace Shape

variable {sl : genericSkipList K V} {h : Nat} {ch : Nat → List Nat}

theorem height_toNat_pos (hs : Shape sl h ch) : 0 < sl.height.toNat := by
  have := hs.height_pos; omega

theorem entries_eq (hs : Shape sl h ch) : sl.entries = (ch 0).filterMap (entryAt sl.mem) := by
  unfold genericSkipList.entries
  rw [hs.chain_eq hs.height_toNat_pos]

theorem mem_entries (hs : Shape sl h ch) {e : K × Value V} :
    e ∈ sl.entries ↔ ∃ a ∈ ch 0, entryAt sl.mem a = some e := by
  rw [hs.entries_eq, List.mem_filterMap]

theorem not_mem_keys (hs : Shape sl h ch) {k : K} :
    k ∉ sl.keys ↔ ∀ a ∈ ch 0, ∀ e, entryAt sl.mem a = some e → e.1 ≠ k := by
  unfold genericSkipList.keys
  rw [List.mem_map]
  constructor
  · intro hnot a ha e he hk
    exact hnot ⟨e, hs.mem_entries.2 ⟨a, ha, he⟩, hk⟩
  · rintro hall ⟨e, he, hk⟩
    obtain ⟨a, ha, hea⟩ := hs.mem_entries.1 he
    exact hall a ha e hea hk

/-- The descent of `Find` and `Add` ends, at level 0, on the last node whose key is at most
the target, or on the head. -/
theorem findLoop_eq (hs : Shape sl h ch) (key : K) {fuel : Nat} (hfuel : sl.mem.length < fuel) :
    ∀ n, n < sl.height.toNat → ∀ c, c ∈ h :: (ch n).takeWhile (under LessEq sl.mem key) →
      findLoop sl.mem key fuel (n + 1) (some c) =
        .ok (some (lastFrom h ((ch 0).takeWhile (under LessEq sl.mem key)))) := by
  intro n
  induction n with
  | zero =>
    intro hn c hc
    simp only [findLoop, hs.advance_level (LessEq_down key) hn hc hfuel]
  | succ n ih =>
    intro hn c hc
    have hadv := hs.advance_level (LessEq_down key) hn hc hfuel
    have hin := hs.below_mono (LessEq_down key) hn
      (lastFrom_mem h ((ch (n + 1)).takeWhile (under LessEq sl.mem key)))
    have := ih (by omega) _ hin
    rw [findLoop, hadv]
    exact this

theorem findLoop_head (hs : Shape sl h ch) (key : K) :
    findLoop sl.mem key (sl.mem.length + 1) sl.height.toNat sl.head =
      .ok (some (lastFrom h ((ch 0).takeWhile (under LessEq sl.mem key)))) := by
  obtain ⟨n, hn⟩ : ∃ n, sl.height.toNat = n + 1 :=
    ⟨sl.height.toNat - 1, by have := hs.height_toNat_pos; omega⟩
  rw [hn, hs.head_eq]
  exact hs.findLoop_eq key (Nat.lt_succ_self _) n (by omega) h (List.mem_cons_self _ _)

theorem Find_of_mem (hs : Shape sl h ch) {a : Nat} (ha : a ∈ ch 0) {k : K} {v : Value V}
    (he : entryAt sl.mem a = some (k, v)) : sl.Find k = .ok (v, true) := by
  have hpos := hs.height_toNat_pos
  have hunder : under LessEq sl.mem k a = true := by
    simp [under, he, LessEq]
  have halo : a ∈ (ch 0).takeWhile (under LessEq sl.mem k) :=
    mem_takeWhile_of_pairwise (under_down (LessEq_down k) sl.mem) (hs.sorted 0 hpos) ha hunder
  have hne : (ch 0).takeWhile (under LessEq sl.mem k) ≠ [] := List.ne_nil_of_mem halo
  have hsorted : ((ch 0).takeWhile (under LessEq sl.mem k)).Pairwise
      (fun a b => keyLt sl.mem a b = true) :=
    (hs.sorted 0 hpos).sublist (List.takeWhile_sublist _)
  have hplo := lastFrom_mem_of_ne_nil h hne
  have hpunder : under LessEq sl.mem k
      (lastFrom h ((ch 0).takeWhile (under LessEq sl.mem k))) = true :=
    List.mem_takeWhile_imp hplo
  have heq : a = lastFrom h ((ch 0).takeWhile (under LessEq sl.mem k)) := by
    rcases pairwise_lastFrom hsorted h halo with heq | hlt
    · exact heq
    · exfalso
      obtain ⟨x, y, hx, hy, hxy⟩ := keyLt_iff.1 hlt
      rw [he] at hx
      cases hx
      obtain ⟨e, hey, hle⟩ := under_eq_true_iff.1 hpunder
      rw [hy] at hey
      cases hey
      simp only [LessEq, decide_eq_true_eq] at hle
      exact absurd hxy (not_lt.2 hle)
  unfold genericSkipList.Find
  rw [hs.findLoop_head k, ← heq, hs.head_eq]
  have hah : a ≠ h := hs.ne_head hpos ha
  simp [hah, getKey_of_entryAt he, getValue_of_entryAt he]

theorem Find_of_not_mem (hs : Shape sl h ch) {k : K}
    (hnot : ∀ a ∈ ch 0, ∀ e, entryAt sl.mem a = some e → e.1 ≠ k) :
    sl.Find k = .ok (defaultValue, false) := by
  have hpos := hs.height_toNat_pos
  unfold genericSkipList.Find
  rw [hs.findLoop_head k, hs.head_eq]
  by_cases hne : (ch 0).takeWhile (under LessEq sl.mem k) = []
  · simp [hne, lastFrom]
  · have hplo := lastFrom_mem_of_ne_nil h hne
    have hpch : lastFrom h ((ch 0).takeWhile (under LessEq sl.mem k)) ∈ ch 0 :=
      (List.takeWhile_sublist _).subset hplo
    obtain ⟨e, he⟩ := hs.entry hpos hpch
    have hk := hnot _ hpch e he
    have hph := hs.ne_head hpos hpch
    simp [hph, getKey_of_entryAt he, hk]

end Shape

end SkipList

namespace SkipList

set_option linter.unusedSectionVars false

variable {K V : Type} [LinearOrder K]

theorem keyIs_eq_true_iff {mem : List (node K V)} {key : K} {a : Nat} :
    keyIs mem key a = true ↔ ∃ v, entryAt mem a = some (key, v) := by
  unfold keyIs
  rw [under_eq_true_iff]
  constructor
  · rintro ⟨⟨k1, v1⟩, he, hk⟩
    simp only [decide_eq_true_eq] at hk
    subst hk
    exact ⟨v1, he⟩
  · rintro ⟨v, he⟩
    exact ⟨(key, v), he, by simp⟩

theorem keyIs_eq_false_iff {mem : List (node K V)} {key : K} {a : Nat} :
    keyIs mem key a = false ↔ ∀ e, entryAt mem a = some e → e.1 ≠ key := by
  rw [← Bool.not_eq_true, keyIs_eq_true_iff]
  constructor
  · intro hno e he hk
    exact hno ⟨e.2, by rw [he, ← hk]⟩
  · rintro hall ⟨v, he⟩
    exact hall _ he rfl

namespace Shape

variable {sl : genericSkipList K V} {h : Nat} {ch : Nat → List Nat}

/-- Nodes strictly below the key do not hold it. -/
theorem keyIs_false_of_less (key : K) {a : Nat}
    (ha : under Less sl.mem key a = true) : keyIs sl.mem key a = false := by
  obtain ⟨e, he, hlt⟩ := under_eq_true_iff.1 ha
  rw [keyIs_eq_false_iff]
  intro e1 he1
  rw [he] at he1
  cases he1
  simp only [Less, decide_eq_true_eq] at hlt
  exact ne_of_lt hlt

/-- Nodes after a node whose key is at least the key do not hold it. -/
theorem keyIs_false_of_after {key : K} {d a : Nat} {e : K × Value V}
    (hd : entryAt sl.mem d = some e) (hge : key ≤ e.1)
    (hlt : keyLt sl.mem d a = true) : keyIs sl.mem key a = false := by
  obtain ⟨x, y, hx, hy, hxy⟩ := keyLt_iff.1 hlt
  rw [hd] at hx
  cases hx
  rw [keyIs_eq_false_iff]
  intro e1 he1
  rw [hy] at he1
  cases he1
  exact ne_of_gt (lt_of_le_of_lt hge hxy)

/-- One level of `Delete`: from a node below the key the walk stops at the last node below
it, the node holding the key (if linked at this level) is unlinked, nothing else changes. -/
theorem delete_step (hs : Shape sl h ch) (key : K) {n : Nat} (hn : n < sl.height.toNat)
    {c : Nat} (hc : c ∈ h :: (ch n).takeWhile (under Less sl.mem key))
    {m : List (node K V)} (hsame : SameData m sl.mem)
    (hnext : ∀ b, getNext m (some b) n = getNext sl.mem (some b) n)
    (value : Value V) (ok : Bool) {fuel : Nat} (hfuel : sl.mem.length < fuel) :
    ∃ m1 value1 ok1,
      deleteLoop key fuel (n + 1) (some c) m value ok =
        deleteLoop key fuel n (some (lastFrom h ((ch n).takeWhile (under Less sl.mem key))))
          m1 value1 ok1 ∧
      SameData m1 sl.mem ∧
      (∀ M, M ≠ n → ∀ b, getNext m1 (some b) M = getNext m (some b) M) ∧
      IsSeg m1 n (some h) (h :: (ch n).filter (fun a => !keyIs sl.mem key a)) none ∧
      (∀ a ∈ ch n, ∀ v, entryAt sl.mem a = some (key, v) → value1 = v ∧ ok1 = true) ∧
      ((∀ a ∈ ch n, keyIs sl.mem key a = false) → m1 = m ∧ value1 = value ∧ ok1 = ok) := by
  have hadv : advance Less m n key fuel (some c) =
      .ok (some (lastFrom h ((ch n).takeWhile (under Less sl.mem key)))) := by
    rw [advance_congr Less n key hnext (fun b => (hsame.2 b).2.2.1)]
    exact hs.advance_level (Less_down key) hn hc hfuel
  obtain ⟨init, hinit⟩ := lastFrom_split h ((ch n).takeWhile (under Less sl.mem key))
  generalize hp : lastFrom h ((ch n).takeWhile (under Less sl.mem key)) = p at hadv hinit ⊢
  have hfull : h :: ch n = init ++ p :: (ch n).dropWhile (under Less sl.mem key) := by
    have : init ++ p :: (ch n).dropWhile (under Less sl.mem key)
        = (init ++ [p]) ++ (ch n).dropWhile (under Less sl.mem key) := by simp
    rw [this, ← hinit, List.cons_append, List.takeWhile_append_dropWhile]
  have hsegm : IsSeg m n (some h) (h :: ch n) none :=
    seg_congr (fun b _ => hnext b) (hs.seg n hn)
  have hnd : (h :: ch n).Nodup :=
    List.nodup_cons.2 ⟨fun hmem => hs.ne_head hn hmem rfl, hs.nodup hn⟩
  have hlo : ∀ a ∈ (ch n).takeWhile (under Less sl.mem key), keyIs sl.mem key a = false :=
    fun a ha => keyIs_false_of_less key (List.mem_takeWhile_imp ha)
  have hsplit := (List.takeWhile_append_dropWhile (under Less sl.mem key) (ch n)).symm
  cases hhi : (ch n).dropWhile (under Less sl.mem key) with
  | nil =>
    rw [hhi] at hfull hsplit
    have hall : ∀ a ∈ ch n, keyIs sl.mem key a = false := by
      intro a ha
      rw [hsplit] at ha
      simp only [List.append_nil] at ha
      exact hlo a ha
    have hgn : getNext m (some p) n = .ok none := by
      rw [hfull] at hsegm
      exact (seg_snoc.1 hsegm).2
    refine ⟨m, value, ok, ?_, hsame, fun _ _ _ => rfl, ?_, ?_, fun _ => ⟨rfl, rfl, rfl⟩⟩
    · rw [deleteLoop, hadv]
      simp only [hgn]
    · have : (ch n).filter (fun a => !keyIs sl.mem key a) = ch n := by
        rw [List.filter_eq_self]
        intro a ha
        simp [hall a ha]
      rw [this]
      exact hsegm
    · intro a ha v hv
      have := hall a ha
      rw [keyIs_eq_false_iff] at this
      exact absurd rfl (this _ hv)
  | cons d hi =>
    rw [hhi] at hfull hsplit
    have hdmem : d ∈ ch n := by rw [hsplit]; simp
    obtain ⟨e, he⟩ := hs.entry hn hdmem
    have hdfalse : under Less sl.mem key d = false :=
      dropWhile_all_false (under_down (Less_down key) sl.mem) (hs.sorted n hn) d
        (by rw [hhi]; simp)
    have hge : key ≤ e.1 := by
      unfold under at hdfalse
      rw [he] at hdfalse
      simp only [Less, decide_eq_false_iff_not] at hdfalse
      exact not_lt.1 hdfalse
    have hsorted := hs.sorted n hn
    rw [hsplit, List.pairwise_append] at hsorted
    have hafter : ∀ a ∈ hi, keyIs sl.mem key a = false := by
      intro a ha
      exact keyIs_false_of_after he hge ((List.pairwise_cons.1 hsorted.2.1).1 a ha)
    rw [hfull] at hsegm hnd
    have hsegm0 := hsegm
    rw [seg_append] at hsegm
    obtain ⟨t, _, _, q, hq, hqd, r, hr, _⟩ := hsegm
    have hqd : q = some d := hqd
    subst hqd
    have hgk : getKey m (some d) = .ok (some e.1) := by
      rw [(hsame.2 d).2.2.1]; exact getKey_of_entryAt he
    have hgv : getValue m (some d) = .ok e.2 := by
      rw [(hsame.2 d).2.2.2]; exact getValue_of_entryAt he
    by_cases hk : e.1 = key
    · obtain ⟨m1, hset⟩ := setNext_of_getNext r hq
      refine ⟨m1, e.2, true, ?_, (SameData.of_setNext hset).trans hsame, ?_, ?_, ?_, ?_⟩
      · rw [deleteLoop, hadv]
        simp only [hq, hgk, hk, if_true, hgv, hr, hset]
      · intro M hM b
        rw [getNext_setNext hset]
        simp [hM]
      · have hfilter : (ch n).filter (fun a => !keyIs sl.mem key a)
            = (ch n).takeWhile (under Less sl.mem key) ++ hi := by
          have hdk : keyIs sl.mem key d = true :=
            keyIs_eq_true_iff.2 ⟨e.2, by rw [he, ← hk]⟩
          conv_lhs => rw [hsplit]
          rw [List.filter_append, List.filter_cons]
          simp only [hdk, Bool.not_true, Bool.false_eq_true, if_false]
          rw [List.filter_eq_self.2, List.filter_eq_self.2]
          · intro a ha; simp [hafter a ha]
          · intro a ha; simp [hlo a ha]
        have hlist : h :: ((ch n).takeWhile (under Less sl.mem key) ++ hi) = init ++ p :: hi := by
          rw [← List.cons_append, hinit]
          simp
        rw [hfilter, hlist]
        exact seg_unlink hnd hsegm0 hr hset
      · intro a ha v hv
        rw [hsplit] at ha
        rcases List.mem_append.1 ha with h1 | h1
        · have := hlo a h1
          rw [keyIs_eq_false_iff] at this
          exact absurd rfl (this _ hv)
        · rcases List.mem_cons.1 h1 with h2 | h2
          · subst h2
            rw [he] at hv
            cases hv
            exact ⟨rfl, rfl⟩
          · have := hafter a h2
            rw [keyIs_eq_false_iff] at this
            exact absurd rfl (this _ hv)
      · intro hall
        have := hall d hdmem
        rw [keyIs_eq_false_iff] at this
        exact absurd hk (this e he)
    · have hdk : keyIs sl.mem key d = false := by
        rw [keyIs_eq_false_iff]
        intro e1 he1
        rw [he] at he1
        cases he1
        exact hk
      have hall : ∀ a ∈ ch n, keyIs sl.mem key a = false := by
        intro a ha
        rw [hsplit] at ha
        rcases List.mem_append.1 ha with h1 | h1
        · exact hlo a h1
        · rcases List.mem_cons.1 h1 with h2 | h2
          · rw [h2]; exact hdk
          · exact hafter a h2
      refine ⟨m, value, ok, ?_, hsame, fun _ _ _ => rfl, ?_, ?_, fun _ => ⟨rfl, rfl, rfl⟩⟩
      · rw [deleteLoop, hadv]
        simp only [hq, hgk, hk, if_false]
      · have : (ch n).filter (fun a => !keyIs sl.mem key a) = ch n := by
          rw [List.filter_eq_self]
          intro a ha
          simp [hall a ha]
        rw [this]
        exact seg_congr (fun b _ => hnext b) (hs.seg n hn)
      · intro a ha v hv
        have := hall a ha
        rw [keyIs_eq_false_iff] at this
        exact absurd rfl (this _ hv)

end Shape

end SkipList

namespace SkipList

set_option linter.unusedSectionVars false

variable {K V : Type} [LinearOrder K]

theorem nodeOK_congr (sl sl1 : genericSkipList K V) (hhead : sl1.head = sl.head)
    (hheight : sl1.height = sl.height) (hsame : SameData sl1.mem sl.mem) (a : Nat) :
    nodeOK sl1 a = nodeOK sl a := by
  unfold nodeOK
  rw [hhead, hheight, (hsame.2 a).1, (hsame.2 a).2.1]

theorem headOK_congr (sl sl1 : genericSkipList K V) (hhead : sl1.head = sl.head)
    (hheight : sl1.height = sl.height) (hsame : SameData sl1.mem sl.mem) :
    headOK sl1 = headOK sl := by
  unfold headOK
  rw [hhead, hheight]
  cases sl.head with
  | none => rfl
  | some h => simp only [(hsame.2 h).2.1]

theorem keyLt_of_sameData {m mem : List (node K V)} (hsame : SameData m mem) (a b : Nat) :
    keyLt m a b = keyLt mem a b :=
  keyLt_congr (hsame.2 a).1 (hsame.2 b).1

theorem pairwise_mem_or {α : Type} {R : α → α → Prop} {xs : List α} (hp : xs.Pairwise R)
    {a b : α} (ha : a ∈ xs) (hb : b ∈ xs) : a = b ∨ R a b ∨ R b a := by
  induction xs with
  | nil => simp at ha
  | cons x xs ih =>
    rw [List.pairwise_cons] at hp
    rcases List.mem_cons.1 ha with rfl | ha1
    · rcases List.mem_cons.1 hb with rfl | hb1
      · exact Or.inl rfl
      · exact Or.inr (Or.inl (hp.1 b hb1))
    · rcases List.mem_cons.1 hb with rfl | hb1
      · exact Or.inr (Or.inr (hp.1 a ha1))
      · exact ih hp.2 ha1 hb1

/-- Two nodes of a chain with strictly ascending keys that hold the same key are the same. -/
theorem eq_of_keyIs {mem : List (node K V)} {key : K} {xs : List Nat}
    (hp : xs.Pairwise (fun a b => keyLt mem a b = true)) {a b : Nat} (ha : a ∈ xs) (hb : b ∈ xs)
    (hka : keyIs mem key a = true) (hkb : keyIs mem key b = true) : a = b := by
  obtain ⟨v, hv⟩ := keyIs_eq_true_iff.1 hka
  obtain ⟨w, hw⟩ := keyIs_eq_true_iff.1 hkb
  rcases pairwise_mem_or hp ha hb with heq | hlt | hlt
  · exact heq
  · obtain ⟨x, y, hx, hy, hxy⟩ := keyLt_iff.1 hlt
    rw [hv] at hx; rw [hw] at hy
    cases hx; cases hy
    exact absurd hxy (lt_irrefl _)
  · obtain ⟨x, y, hx, hy, hxy⟩ := keyLt_iff.1 hlt
    rw [hw] at hx; rw [hv] at hy
    cases hx; cases hy
    exact absurd hxy (lt_irrefl _)

/-- In a chain with strictly ascending keys, dropping the node that holds the key shortens the
chain by one. -/
theorem length_filter_keyIs {mem : List (node K V)} {key : K} {xs : List Nat}
    (hp : xs.Pairwise (fun a b => keyLt mem a b = true)) {a : Nat} (ha : a ∈ xs)
    (hk : keyIs mem key a = true) :
    (xs.filter (fun b => !keyIs mem key b)).length + 1 = xs.length := by
  have hnd := nodup_of_pairwise_keyLt hp
  have hfil : xs.filter (fun b => !keyIs mem key b) = xs.filter (fun b => b != a) := by
    apply List.filter_congr
    intro b hb
    by_cases hba : b = a
    · subst hba; simp [hk]
    · have : keyIs mem key b = false := by
        by_contra hkb
        exact hba (eq_of_keyIs hp hb ha (by simpa using hkb) hk)
      simp [this, hba]
  rw [hfil, ← List.Nodup.erase_eq_filter hnd, List.length_erase_of_mem ha]
  have : 0 < xs.length := List.length_pos_of_mem ha
  omega

namespace Shape

variable {sl : genericSkipList K V} {h : Nat} {ch : Nat → List Nat}

/-- All levels of `Delete`, from level `n` down. -/
theorem deleteLoop_spec (hs : Shape sl h ch) (key : K) {fuel : Nat}
    (hfuel : sl.mem.length < fuel) :
    ∀ n, n < sl.height.toNat → ∀ c, c ∈ h :: (ch n).takeWhile (under Less sl.mem key) →
      ∀ m, SameData m sl.mem →
        (∀ M, M ≤ n → ∀ b, getNext m (some b) M = getNext sl.mem (some b) M) →
        ∀ (value : Value V) (ok : Bool),
          ∃ m1 value1 ok1,
            deleteLoop key fuel (n + 1) (some c) m value ok = .ok (m1, value1, ok1) ∧
            SameData m1 sl.mem ∧
            (∀ M, M ≤ n →
              IsSeg m1 M (some h) (h :: (ch M).filter (fun a => !keyIs sl.mem key a)) none) ∧
            (∀ M, n < M → ∀ b, getNext m1 (some b) M = getNext m (some b) M) ∧
            (∀ a ∈ ch 0, ∀ v, entryAt sl.mem a = some (key, v) → value1 = v ∧ ok1 = true) ∧
            ((∀ a ∈ ch 0, keyIs sl.mem key a = false) → m1 = m ∧ value1 = value ∧ ok1 = ok) := by
  intro n
  induction n with
  | zero =>
    intro hn c hc m hsame hnext value ok
    obtain ⟨m1, v1, ok1, hrun, hsame1, hframe, hseg, hval, hnone⟩ :=
      hs.delete_step key hn hc hsame (hnext 0 (le_refl _)) value ok hfuel
    refine ⟨m1, v1, ok1, ?_, hsame1, ?_, ?_, hval, hnone⟩
    · rw [hrun]; rfl
    · intro M hM
      have : M = 0 := by omega
      subst this
      exact hseg
    · intro M hM b
      exact hframe M (by omega) b
  | succ n ih =>
    intro hn c hc m hsame hnext value ok
    obtain ⟨m1, v1, ok1, hrun, hsame1, hframe, hseg, _, hnone⟩ :=
      hs.delete_step key hn hc hsame (hnext (n + 1) (le_refl _)) value ok hfuel
    have hin := hs.below_mono (Less_down key) hn
      (lastFrom_mem h ((ch (n + 1)).takeWhile (under Less sl.mem key)))
    obtain ⟨m2, v2, ok2, hrun2, hsame2, hseg2, hframe2, hval2, hnone2⟩ :=
      ih (by omega) _ hin m1 hsame1
        (fun M hM b => by rw [hframe M (by omega) b]; exact hnext M (by omega) b) v1 ok1
    refine ⟨m2, v2, ok2, ?_, hsame2, ?_, ?_, hval2, ?_⟩
    · rw [hrun, hrun2]
    · intro M hM
      rcases Nat.lt_or_ge M (n + 1) with hlt | hge
      · exact hseg2 M (by omega)
      · have : M = n + 1 := by omega
        subst this
        exact seg_congr (fun b _ => hframe2 (n + 1) (by omega) b) hseg
    · intro M hM b
      rw [hframe2 M (by omega) b, hframe M (by omega) b]
    · intro hall
      have hall1 : ∀ a ∈ ch (n + 1), keyIs sl.mem key a = false :=
        fun a ha => hall a (hs.mem_lower hn ha 0 (Nat.zero_le _))
      obtain ⟨e1, e2, e3⟩ := hnone hall1
      obtain ⟨f1, f2, f3⟩ := hnone2 hall
      exact ⟨f1.trans e1, f2.trans e2, f3.trans e3⟩

/-- What `Delete` does to a well-formed list. -/
theorem Delete_spec (hs : Shape sl h ch) (key : K) :
    ∃ sl1 value ok,
      sl.Delete key = .ok (sl1, value, ok) ∧
      Shape sl1 h (fun L => (ch L).filter (fun a => !keyIs sl.mem key a)) ∧
      SameData sl1.mem sl.mem ∧
      sl1.height = sl.height ∧ sl1.prob = sl.prob ∧
      (∀ a ∈ ch 0, ∀ v, entryAt sl.mem a = some (key, v) →
        value = v ∧ ok = true ∧ sl1.size = sl.size - 1) ∧
      ((∀ a ∈ ch 0, keyIs sl.mem key a = false) →
        sl1 = sl ∧ value = defaultValue ∧ ok = false) := by
  have hpos := hs.height_toNat_pos
  obtain ⟨n, hn⟩ : ∃ n, sl.height.toNat = n + 1 := ⟨sl.height.toNat - 1, by omega⟩
  obtain ⟨m1, v1, ok1, hrun, hsame1, hseg, _, hval, hnone⟩ :=
    hs.deleteLoop_spec key (Nat.lt_succ_self sl.mem.length) n (by omega) h
      (List.mem_cons_self _ _) sl.mem (SameData.refl _) (fun _ _ _ => rfl) defaultValue false
  have hrun1 : deleteLoop key (sl.mem.length + 1) sl.height.toNat sl.head sl.mem
      defaultValue false = .ok (m1, v1, ok1) := by
    rw [hn, hs.head_eq]; exact hrun
  -- the part of the shape that does not depend on `size`
  have hshape : ∀ sz : Int,
      sz = ((ch 0).filter (fun a => !keyIs sl.mem key a)).length →
      Shape { sl with mem := m1, size := sz } h
        (fun L => (ch L).filter (fun a => !keyIs sl.mem key a)) := by
    intro sz hsz
    refine ⟨hs.height_pos, hs.head_eq, ?_, ?_, ?_, ?_, ?_, hsz⟩
    · exact (headOK_congr sl { sl with mem := m1, size := sz } rfl rfl hsame1).trans
        hs.head_ok
    · intro L hL
      exact hseg L (by have : L < sl.height.toNat := hL; omega)
    · intro L hL a ha
      exact (nodeOK_congr sl { sl with mem := m1, size := sz } rfl rfl hsame1 a).trans
        (hs.node_ok L hL a (List.mem_filter.1 ha).1)
    · intro L hL
      have := (hs.sorted L hL).sublist
        (List.filter_sublist (p := fun a => !keyIs sl.mem key a) (ch L))
      refine this.imp ?_
      intro a b hab
      show keyLt m1 a b = true
      rw [keyLt_of_sameData hsame1]; exact hab
    · intro L hL a ha
      have ha1 := List.mem_filter.1 ha
      exact List.mem_filter.2 ⟨hs.nested L hL a ha1.1, ha1.2⟩
  by_cases hex : ∃ a ∈ ch 0, keyIs sl.mem key a = true
  · obtain ⟨a, ha, hka⟩ := hex
    obtain ⟨v, hv⟩ := keyIs_eq_true_iff.1 hka
    obtain ⟨hv1, hok1⟩ := hval a ha v hv
    have hlen := length_filter_keyIs (hs.sorted 0 hpos) ha hka
    refine ⟨{ sl with mem := m1, size := sl.size - 1 }, v1, ok1, ?_, ?_, hsame1, rfl, rfl, ?_, ?_⟩
    · unfold genericSkipList.Delete
      rw [hrun1]
      simp [hok1]
    · apply hshape
      have := hs.size_eq
      omega
    · intro b hb w hw
      obtain ⟨e1, e2⟩ := hval b hb w hw
      exact ⟨e1, e2, rfl⟩
    · intro hall
      rw [hall a ha] at hka
      cases hka
  · have hall : ∀ a ∈ ch 0, keyIs sl.mem key a = false := by
      intro a ha
      by_contra hk
      exact hex ⟨a, ha, by simpa using hk⟩
    obtain ⟨e1, e2, e3⟩ := hnone hall
    subst e1 e2 e3
    have hfil : (ch 0).filter (fun a => !keyIs sl.mem key a) = ch 0 := by
      rw [List.filter_eq_self]
      intro a ha
      simp [hall a ha]
    refine ⟨sl, defaultValue, false, ?_, ?_, SameData.refl _, rfl, rfl, ?_, ?_⟩
    · unfold genericSkipList.Delete
      rw [hrun1]
      simp
    · have := hshape sl.size (by rw [hfil]; exact hs.size_eq)
      exact this
    · intro b hb w hw
      have := hall b hb
      rw [keyIs_eq_false_iff] at this
      exact absurd rfl (this _ hw)
    · intro _
      exact ⟨rfl, rfl, rfl⟩

end Shape

end SkipList

namespace SkipList

set_option linter.unusedSectionVars false

variable {K V : Type} [LinearOrder K]

/-! ## The level generator -/

theorem randLevelLoop_bounds (height : Int) (prob : ℚ) (draws : Nat → ℚ) :
    ∀ (fuel i : Nat) (level : Int),
      level ≤ randLevelLoop height prob draws fuel i level ∧
        randLevelLoop height prob draws fuel i level ≤ max level (height - 1) := by
  intro fuel
  induction fuel with
  | zero =>
    intro i level
    simp [randLevelLoop]
  | succ fuel ih =>
    intro i level
    unfold randLevelLoop
    by_cases h1 : level < height - 1
    · by_cases h2 : draws i < prob
      · simp only [h1, h2, if_true]
        obtain ⟨l1, l2⟩ := ih (i + 1) (level + 1)
        refine ⟨by omega, ?_⟩
        have : max (level + 1) (height - 1) = height - 1 := max_eq_right (by omega)
        rw [this] at l2
        exact le_trans l2 (le_max_right _ _)
      · simp [h1, h2]
    · simp [h1]

theorem randLevel_bounds (sl : genericSkipList K V) (draws : Nat → ℚ) (hpos : 0 < sl.height) :
    1 ≤ sl.randLevel draws ∧ sl.randLevel draws ≤ sl.height := by
  obtain ⟨l1, l2⟩ := randLevelLoop_bounds sl.height sl.prob draws sl.height.toNat 0 1
  refine ⟨l1, le_trans l2 ?_⟩
  exact max_le (by omega) (by omega)

/-! ## The first loop of `Add` -/

namespace Shape

variable {sl : genericSkipList K V} {h : Nat} {ch : Nat → List Nat}

theorem addLoop_spec (hs : Shape sl h ch) (key : K) {fuel : Nat} (hfuel : sl.mem.length < fuel) :
    ∀ n, n < sl.height.toNat → ∀ c, c ∈ h :: (ch n).takeWhile (under LessEq sl.mem key) →
      ∀ update : List Ptr, update.length = sl.height.toNat →
        ∃ update1 : List Ptr,
          addLoop sl.mem key fuel (n + 1) (some c) update =
            .ok (some (lastFrom h ((ch 0).takeWhile (under LessEq sl.mem key))), update1) ∧
          update1.length = sl.height.toNat ∧
          (∀ M, M ≤ n → update1[M]? =
            some (some (lastFrom h ((ch M).takeWhile (under LessEq sl.mem key))))) ∧
          (∀ M, n < M → update1[M]? = update[M]?) := by
  intro n
  induction n with
  | zero =>
    intro hn c hc update hlen
    refine ⟨update.set 0 (some (lastFrom h ((ch 0).takeWhile (under LessEq sl.mem key)))),
      ?_, by simpa using hlen, ?_, ?_⟩
    · have hlt : 0 < update.length := by omega
      simp only [addLoop, hs.advance_level (LessEq_down key) hn hc hfuel, hlt, if_true]
    · intro M hM
      have : M = 0 := by omega
      subst this
      rw [List.getElem?_set]
      have hlt : 0 < update.length := by omega
      simp [hlt]
    · intro M hM
      rw [List.getElem?_set_ne (by omega)]
  | succ n ih =>
    intro hn c hc update hlen
    have hadv := hs.advance_level (LessEq_down key) hn hc hfuel
    have hin := hs.below_mono (LessEq_down key) hn
      (lastFrom_mem h ((ch (n + 1)).takeWhile (under LessEq sl.mem key)))
    obtain ⟨update1, hrun, hlen1, hset, hframe⟩ := ih (by omega) _ hin
      (update.set (n + 1) (some (lastFrom h ((ch (n + 1)).takeWhile (under LessEq sl.mem key)))))
      (by simpa using hlen)
    refine ⟨update1, ?_, hlen1, ?_, ?_⟩
    · have hlt : n + 1 < update.length := by omega
      rw [addLoop, hadv]
      simp only [hlt, if_true]
      exact hrun
    · intro M hM
      rcases Nat.lt_or_ge M (n + 1) with hlt | hge
      · exact hset M (by omega)
      · have : M = n + 1 := by omega
        subst this
        rw [hframe (n + 1) (by omega), List.getElem?_set]
        have hlt : n + 1 < update.length := by omega
        simp [hlt]
    · intro M hM
      rw [hframe M (by omega), List.getElem?_set_ne (by omega)]

theorem addLoop_head (hs : Shape sl h ch) (key : K) (update : List Ptr)
    (hlen : update.length = sl.height.toNat) :
    ∃ update1 : List Ptr,
      addLoop sl.mem key (sl.mem.length + 1) sl.height.toNat sl.head update =
        .ok (some (lastFrom h ((ch 0).takeWhile (under LessEq sl.mem key))), update1) ∧
      ∀ M, M < sl.height.toNat → update1[M]? =
        some (some (lastFrom h ((ch M).takeWhile (under LessEq sl.mem key)))) := by
  obtain ⟨n, hn⟩ : ∃ n, sl.height.toNat = n + 1 :=
    ⟨sl.height.toNat - 1, by have := hs.height_toNat_pos; omega⟩
  obtain ⟨update1, hrun, _, hset, _⟩ := hs.addLoop_spec key (Nat.lt_succ_self _) n (by omega) h
    (List.mem_cons_self _ _) update hlen
  refine ⟨update1, ?_, fun M hM => hset M (by omega)⟩
  rw [hn, hs.head_eq]
  exact hrun

end Shape

end SkipList

namespace SkipList

set_option linter.unusedSectionVars false

variable {K V : Type} [LinearOrder K]

theorem index_eq_ok {α : Type} {xs : List α} {i : Nat} {x : α} (h : xs[i]? = some x) :
    index xs i = .ok x := by
  unfold index
  rw [h]

theorem index_of_lt {α : Type} {xs : List α} {i : Nat} (h : i < xs.length) :
    ∃ x, index xs i = .ok x :=
  ⟨xs[i], index_eq_ok (List.getElem?_eq_getElem h)⟩

namespace Shape

variable {sl : genericSkipList K V} {h : Nat} {ch : Nat → List Nat}

/-- The second loop of `Add`: below level `n` the new node is linked right after the last
node whose key is at most the key; from level `n` up nothing changes. -/
theorem spliceLoop_spec (hs : Shape sl h ch) (key : K) (nd : node K V) (update : List Ptr)
    (hupd : ∀ M, M < sl.height.toNat → update[M]? =
      some (some (lastFrom h ((ch M).takeWhile (under LessEq sl.mem key))))) :
    ∀ n, n ≤ nd.next.length → n ≤ sl.height.toNat →
      ∀ m, SameData m (sl.mem ++ [nd]) →
        (∀ M, M < n → ∀ b, getNext m (some b) M = getNext (sl.mem ++ [nd]) (some b) M) →
        ∃ m1,
          spliceLoop (some sl.mem.length) update n m = .ok m1 ∧
          SameData m1 (sl.mem ++ [nd]) ∧
          (∀ M, M < n → IsSeg m1 M (some h)
            (h :: ((ch M).takeWhile (under LessEq sl.mem key) ++
              sl.mem.length :: (ch M).dropWhile (under LessEq sl.mem key))) none) ∧
          (∀ M, n ≤ M → ∀ b, getNext m1 (some b) M = getNext m (some b) M) := by
  intro n
  induction n with
  | zero =>
    intro _ _ m hsame _
    exact ⟨m, rfl, hsame, fun M hM => absurd hM (Nat.not_lt_zero _), fun _ _ _ => rfl⟩
  | succ n ih =>
    intro hlvl hH m hsame hnext
    have hn : n < sl.height.toNat := by omega
    obtain ⟨init, hinit⟩ := lastFrom_split h ((ch n).takeWhile (under LessEq sl.mem key))
    generalize hp : lastFrom h ((ch n).takeWhile (under LessEq sl.mem key)) = p at hinit
    have hfull : h :: ch n = init ++ p :: (ch n).dropWhile (under LessEq sl.mem key) := by
      have : init ++ p :: (ch n).dropWhile (under LessEq sl.mem key)
          = (init ++ [p]) ++ (ch n).dropWhile (under LessEq sl.mem key) := by simp
      rw [this, ← hinit, List.cons_append, List.takeWhile_append_dropWhile]
    have hlt : ∀ b ∈ h :: ch n, b < sl.mem.length := seg_lt_length (hs.seg n hn)
    have hold : ∀ b ∈ h :: ch n, getNext m (some b) n = getNext sl.mem (some b) n := by
      intro b hb
      rw [hnext n (Nat.lt_succ_self _) b, getNext_append nd (hlt b hb)]
    have hsegm : IsSeg m n (some h) (h :: ch n) none := seg_congr hold (hs.seg n hn)
    have hnd : (h :: ch n).Nodup :=
      List.nodup_cons.2 ⟨fun hmem => hs.ne_head hn hmem rfl, hs.nodup hn⟩
    have hpmem : p ∈ h :: ch n := by rw [hfull]; simp
    have hplt : p < sl.mem.length := hlt p hpmem
    rw [hfull] at hsegm hnd
    obtain ⟨r, hr⟩ : ∃ r, getNext m (some p) n = .ok r := by
      obtain ⟨t, _, _, q, hq, _⟩ := seg_append.1 hsegm
      exact ⟨q, hq⟩
    have hupdn : index update n = .ok (some p) := by
      apply index_eq_ok
      rw [hupd n hn, hp]
    obtain ⟨r0, hr0⟩ : ∃ r0, getNext m (some sl.mem.length) n = .ok r0 := by
      rw [hnext n (Nat.lt_succ_self _), getNext_append_new]
      exact index_of_lt (by omega)
    obtain ⟨m1, hset1⟩ := setNext_of_getNext r hr0
    have hpne : p ≠ sl.mem.length := by omega
    have hr1 : getNext m1 (some p) n = .ok r := by
      rw [getNext_setNext hset1]
      simp [hpne, hr]
    obtain ⟨m2, hset2⟩ := setNext_of_getNext (some sl.mem.length) hr1
    have hnew : sl.mem.length ∉ init ++ p :: (ch n).dropWhile (under LessEq sl.mem key) := by
      rw [← hfull]
      intro hmem
      exact absurd (hlt _ hmem) (lt_irrefl _)
    have hlink := seg_link hnd hnew hsegm hr hset1 hset2
    have hsame2 : SameData m2 (sl.mem ++ [nd]) :=
      (SameData.of_setNext hset2).trans ((SameData.of_setNext hset1).trans hsame)
    have hframe2 : ∀ M, M ≠ n → ∀ b, getNext m2 (some b) M = getNext m (some b) M := by
      intro M hM b
      rw [getNext_setNext hset2, getNext_setNext hset1]
      simp [hM]
    obtain ⟨m3, hrun, hsame3, hseg3, hframe3⟩ := ih (by omega) (by omega) m2 hsame2
      (fun M hM b => by rw [hframe2 M (by omega) b]; exact hnext M (by omega) b)
    refine ⟨m3, ?_, hsame3, ?_, ?_⟩
    · rw [spliceLoop]
      simp only [hupdn, hr, hset1, hset2]
      exact hrun
    · intro M hM
      rcases Nat.lt_or_ge M n with hlt1 | hge
      · exact hseg3 M hlt1
      · have : M = n := by omega
        subst this
        have hlist : h :: ((ch M).takeWhile (under LessEq sl.mem key) ++
            sl.mem.length :: (ch M).dropWhile (under LessEq sl.mem key))
            = init ++ p :: sl.mem.length :: (ch M).dropWhile (under LessEq sl.mem key) := by
          rw [← List.cons_append, hinit]
          simp
        rw [hlist]
        exact seg_congr (fun b _ => hframe3 M (le_refl _) b) hlink
    · intro M hM b
      rw [hframe3 M (by omega) b, hframe2 M (by omega) b]

end Shape

end SkipList

namespace SkipList

set_option linter.unusedSectionVars false

variable {K V : Type} [LinearOrder K]

theorem makeSlice_of_nonneg {n : Int} (h : 0 ≤ n) :
    makeSlice n = .ok (List.replicate n.toNat none) := by
  unfold makeSlice
  simp [not_lt.2 h]

theorem under_LessEq_false_iff {mem : List (node K V)} {key : K} {a : Nat} {e : K × Value V}
    (he : entryAt mem a = some e) : under LessEq mem key a = false ↔ key < e.1 := by
  simp [under, he, LessEq]

theorem under_LessEq_true_iff {mem : List (node K V)} {key : K} {a : Nat} {e : K × Value V}
    (he : entryAt mem a = some e) : under LessEq mem key a = true ↔ e.1 ≤ key := by
  simp [under, he, LessEq]

namespace Shape

variable {sl : genericSkipList K V} {h : Nat} {ch : Nat → List Nat}

/-- For a key that is not in the list, `Add` takes the inserting branch, with `update[M]`
the last node of level `M` whose key is below the key. -/
theorem Add_eq_insert (hs : Shape sl h ch) (key : K) (value : Value V) (draws : Nat → ℚ)
    (hnew : ∀ a ∈ ch 0, keyIs sl.mem key a = false) :
    ∃ update : List Ptr,
      sl.Add key value draws = sl.insert key value draws update ∧
      ∀ M, M < sl.height.toNat → update[M]? =
        some (some (lastFrom h ((ch M).takeWhile (under LessEq sl.mem key)))) := by
  have hpos := hs.height_toNat_pos
  obtain ⟨update, hrun, hupd⟩ := hs.addLoop_head key (List.replicate sl.height.toNat none)
    (by simp)
  refine ⟨update, ?_, hupd⟩
  unfold genericSkipList.Add
  rw [makeSlice_of_nonneg (le_of_lt hs.height_pos)]
  simp only [hrun]
  simp only [hs.head_eq]
  by_cases hne : (ch 0).takeWhile (under LessEq sl.mem key) = []
  · simp [hne, lastFrom]
  · have hplo := lastFrom_mem_of_ne_nil h hne
    have hpch : lastFrom h ((ch 0).takeWhile (under LessEq sl.mem key)) ∈ ch 0 :=
      (List.takeWhile_sublist _).subset hplo
    obtain ⟨e, he⟩ := hs.entry hpos hpch
    have hk := keyIs_eq_false_iff.1 (hnew _ hpch) e he
    have hph := hs.ne_head hpos hpch
    simp [hph, getKey_of_entryAt he, hk]

/-- The chains after inserting at address `a0` with `lvl` levels. -/
theorem mem_inserted_iff (key : K) (a0 lvl M a : Nat) :
    a ∈ (if M < lvl then (ch M).takeWhile (under LessEq sl.mem key) ++
          a0 :: (ch M).dropWhile (under LessEq sl.mem key) else ch M) ↔
      a ∈ ch M ∨ (a = a0 ∧ M < lvl) := by
  by_cases hM : M < lvl
  · simp only [hM, if_true, and_true, List.mem_append, List.mem_cons]
    conv_rhs => rw [← List.takeWhile_append_dropWhile (under LessEq sl.mem key) (ch M)]
    simp only [List.mem_append]
    tauto
  · simp [hM]

theorem insert_spec (hs : Shape sl h ch) (key : K) (value : Value V) (draws : Nat → ℚ)
    (hnew : ∀ a ∈ ch 0, keyIs sl.mem key a = false) (update : List Ptr)
    (hupd : ∀ M, M < sl.height.toNat → update[M]? =
      some (some (lastFrom h ((ch M).takeWhile (under LessEq sl.mem key))))) :
    ∃ sl1,
      sl.insert key value draws update = .ok sl1 ∧
      Shape sl1 h (fun M => if M < (sl.randLevel draws).toNat then
        (ch M).takeWhile (under LessEq sl.mem key) ++
          sl.mem.length :: (ch M).dropWhile (under LessEq sl.mem key) else ch M) ∧
      (∀ b, b < sl.mem.length → entryAt sl1.mem b = entryAt sl.mem b) ∧
      entryAt sl1.mem sl.mem.length = some (key, value) ∧
      levelAt sl1.mem sl.mem.length = some (sl.randLevel draws) ∧
      sl1.mem.length = sl.mem.length + 1 ∧
      sl1.size = sl.size + 1 ∧ sl1.height = sl.height ∧ sl1.prob = sl.prob ∧
      sl1.head = sl.head := by
  have hpos := hs.height_toNat_pos
  obtain ⟨hl1, hl2⟩ := randLevel_bounds sl draws hs.height_pos
  generalize hlvl : sl.randLevel draws = lv at hl1 hl2 ⊢
  obtain ⟨lvl, rfl⟩ : ∃ lvl : Nat, lv = (lvl : Int) := ⟨lv.toNat, by omega⟩
  have hlvlH : lvl ≤ sl.height.toNat := by omega
  have hlvl1 : 1 ≤ lvl := by omega
  simp only [Int.toNat_ofNat]
  obtain ⟨m1, hrun, hsame, hseg, hframe⟩ :=
    hs.spliceLoop_spec key { key := some key, value := value, next := List.replicate lvl none }
      update hupd lvl (by simp) hlvlH
      (sl.mem ++ [{ key := some key, value := value, next := List.replicate lvl none }])
      (SameData.refl _) (fun _ _ _ => rfl)
  have hentry : ∀ b, b < sl.mem.length → entryAt m1 b = entryAt sl.mem b := by
    intro b hb
    rw [(hsame.2 b).1, entryAt_append _ hb]
  have hlevel : ∀ b, b < sl.mem.length → levelAt m1 b = levelAt sl.mem b := by
    intro b hb
    rw [(hsame.2 b).2.1, levelAt_append _ hb]
  have hentry0 : entryAt m1 sl.mem.length = some (key, value) := by
    rw [(hsame.2 _).1, entryAt_append_new]
  have hlevel0 : levelAt m1 sl.mem.length = some (lvl : Int) := by
    rw [(hsame.2 _).2.1, levelAt_append_new]
    simp
  have hkl : ∀ a b, a < sl.mem.length → b < sl.mem.length →
      keyLt m1 a b = keyLt sl.mem a b :=
    fun a b ha hb => keyLt_congr (hentry a ha) (hentry b hb)
  refine ⟨{ sl with mem := m1, size := sl.size + 1 }, ?_, ?_, hentry, hentry0, hlevel0, ?_,
    rfl, rfl, rfl, rfl⟩
  · unfold genericSkipList.insert
    rw [hlvl, makeSlice_of_nonneg (by omega)]
    simp only [Int.toNat_ofNat, List.length_replicate, hrun]
  · refine ⟨hs.height_pos, hs.head_eq, ?_, ?_, ?_, ?_, ?_, ?_⟩
    · -- head
      obtain ⟨h1, hh1, hl⟩ := headOK_iff.1 hs.head_ok
      rw [hs.head_eq] at hh1
      cases hh1
      exact headOK_iff.2 ⟨h, hs.head_eq, by
        show levelAt m1 h = some sl.height
        rw [hlevel h hs.head_lt_length]; exact hl⟩
    · -- segments
      intro M hM
      have hM : M < sl.height.toNat := hM
      by_cases hMl : M < lvl
      · simp only [hMl, if_true]
        exact hseg M hMl
      · simp only [hMl, if_false]
        refine seg_congr ?_ (hs.seg M hM)
        intro b hb
        show getNext m1 (some b) M = getNext sl.mem (some b) M
        rw [hframe M (by omega) b, getNext_append _ (seg_lt_length (hs.seg M hM) b hb)]
    · -- nodes
      intro M hM a ha
      have hM : M < sl.height.toNat := hM
      rw [mem_inserted_iff] at ha
      rw [nodeOK_iff]
      rcases ha with ha | ⟨ha, _⟩
      · obtain ⟨n1, n2, l, n3, n4⟩ := nodeOK_iff.1 (hs.node_ok M hM a ha)
        have hlt := hs.lt_length hM ha
        exact ⟨n1, by show ∃ e, entryAt m1 a = some e; rw [hentry a hlt]; exact n2,
          l, by show levelAt m1 a = some l; rw [hlevel a hlt]; exact n3, n4⟩
      · subst ha
        refine ⟨?_, ⟨_, hentry0⟩, _, hlevel0, hl2⟩
        show some sl.mem.length ≠ sl.head
        rw [hs.head_eq]
        intro heq
        have := hs.head_lt_length
        cases heq
        exact absurd this (lt_irrefl _)
    · -- sorted
      intro M hM
      have hM : M < sl.height.toNat := hM
      have hsorted := hs.sorted M hM
      have hold : (ch M).Pairwise (fun a b => keyLt m1 a b = true) := by
        refine List.Pairwise.imp_of_mem ?_ hsorted
        intro a b ha hb hab
        rw [hkl a b (hs.lt_length hM ha) (hs.lt_length hM hb)]
        exact hab
      by_cases hMl : M < lvl
      · simp only [hMl, if_true]
        rw [← List.takeWhile_append_dropWhile (under LessEq sl.mem key) (ch M),
          List.pairwise_append] at hold
        rw [List.pairwise_append, List.pairwise_cons]
        refine ⟨hold.1, ⟨?_, hold.2.1⟩, ?_⟩
        · intro b hb
          have hbch : b ∈ ch M := (List.dropWhile_suffix _).subset hb
          obtain ⟨e, he⟩ := hs.entry hM hbch
          have hfalse := dropWhile_all_false (under_down (LessEq_down key) sl.mem)
            hsorted b hb
          rw [under_LessEq_false_iff he] at hfalse
          rw [keyLt_iff]
          exact ⟨_, e, hentry0, by rw [hentry b (hs.lt_length hM hbch)]; exact he, hfalse⟩
        · intro a ha b hb
          rcases List.mem_cons.1 hb with hb1 | hb1
          · subst hb1
            have hach : a ∈ ch M := (List.takeWhile_sublist _).subset ha
            obtain ⟨e, he⟩ := hs.entry hM hach
            have htrue : under LessEq sl.mem key a = true := List.mem_takeWhile_imp ha
            rw [under_LessEq_true_iff he] at htrue
            have hne := keyIs_eq_false_iff.1 (hnew a (hs.mem_lower hM hach 0 (Nat.zero_le _))) e he
            rw [keyLt_iff]
            exact ⟨e, _, by rw [hentry a (hs.lt_length hM hach)]; exact he, hentry0,
              lt_of_le_of_ne htrue hne⟩
          · exact hold.2.2 a ha b hb1
      · simp only [hMl, if_false]
        exact hold
    · -- nested
      intro M hM a ha
      have hM : M + 1 < sl.height.toNat := hM
      rw [mem_inserted_iff] at ha ⊢
      rcases ha with ha | ⟨ha, hlt⟩
      · exact Or.inl (hs.nested M hM a ha)
      · exact Or.inr ⟨ha, by omega⟩
    · -- size
      show sl.size + 1 = _
      have h0 : 0 < lvl := hlvl1
      simp only [h0, if_true, List.length_append, List.length_cons]
      have := congrArg List.length
        (List.takeWhile_append_dropWhile (under LessEq sl.mem key) (ch 0))
      simp only [List.length_append] at this
      have hsz := hs.size_eq
      push_cast
      omega
  · show m1.length = sl.mem.length + 1
    rw [hsame.1]
    simp

/-- What `Add` does to a well-formed list that lacks the key. -/
theorem Add_new (hs : Shape sl h ch) (key : K) (value : Value V) (draws : Nat → ℚ)
    (hnew : ∀ a ∈ ch 0, keyIs sl.mem key a = false) :
    ∃ sl1,
      sl.Add key value draws = .ok sl1 ∧
      Shape sl1 h (fun M => if M < (sl.randLevel draws).toNat then
        (ch M).takeWhile (under LessEq sl.mem key) ++
          sl.mem.length :: (ch M).dropWhile (under LessEq sl.mem key) else ch M) ∧
      (∀ b, b < sl.mem.length → entryAt sl1.mem b = entryAt sl.mem b) ∧
      entryAt sl1.mem sl.mem.length = some (key, value) ∧
      levelAt sl1.mem sl.mem.length = some (sl.randLevel draws) ∧
      sl1.mem.length = sl.mem.length + 1 ∧
      sl1.size = sl.size + 1 ∧ sl1.height = sl.height ∧ sl1.prob = sl.prob ∧
      sl1.head = sl.head := by
  obtain ⟨update, hadd, hupd⟩ := hs.Add_eq_insert key value draws hnew
  rw [hadd]
  exact hs.insert_spec key value draws hnew update hupd

end Shape

end SkipList

namespace SkipList

set_option linter.unusedSectionVars false

variable {K V : Type} [LinearOrder K]

theorem setValue_nil (mem : List (node K V)) (v : Value V) :
    setValue mem none v = .error .nilDeref := rfl

theorem getKey_setValue {mem mem1 : List (node K V)} {a : Nat} {v : Value V}
    (h : setValue mem (some a) v = .ok mem1) (b : Nat) :
    getKey mem1 (some b) = getKey mem (some b) := by
  obtain ⟨n, hn, rfl⟩ := setValue_ok_iff.1 h
  have ha : a < mem.length := (List.getElem?_eq_some.1 hn).1
  unfold getKey
  simp only [load_eq]
  by_cases hb : b = a
  · subst hb
    simp [List.getElem?_set, ha, hn]
  · have : a ≠ b := fun h => hb h.symm
    simp [List.getElem?_set_ne this]

theorem setValue_of_getNext {mem : List (node K V)} {a L : Nat} {p : Ptr} (v : Value V)
    (h : getNext mem (some a) L = .ok p) : ∃ mem1, setValue mem (some a) v = .ok mem1 := by
  obtain ⟨n, hn, _⟩ := getNext_ok_iff.1 h
  exact ⟨_, setValue_ok_iff.2 ⟨n, hn, rfl⟩⟩

namespace Shape

variable {sl : genericSkipList K V} {h : Nat} {ch : Nat → List Nat}

/-- The descent for a key held at `a` stops on `a`. -/
theorem lastFrom_of_key (hs : Shape sl h ch) {a : Nat} (ha : a ∈ ch 0) {k : K} {v : Value V}
    (he : entryAt sl.mem a = some (k, v)) :
    lastFrom h ((ch 0).takeWhile (under LessEq sl.mem k)) = a := by
  have hpos := hs.height_toNat_pos
  have hunder : under LessEq sl.mem k a = true := by
    simp [under, he, LessEq]
  have halo : a ∈ (ch 0).takeWhile (under LessEq sl.mem k) :=
    mem_takeWhile_of_pairwise (under_down (LessEq_down k) sl.mem) (hs.sorted 0 hpos) ha hunder
  have hne : (ch 0).takeWhile (under LessEq sl.mem k) ≠ [] := List.ne_nil_of_mem halo
  have hsorted : ((ch 0).takeWhile (under LessEq sl.mem k)).Pairwise
      (fun a b => keyLt sl.mem a b = true) :=
    (hs.sorted 0 hpos).sublist (List.takeWhile_sublist _)
  have hplo := lastFrom_mem_of_ne_nil h hne
  have hpunder : under LessEq sl.mem k
      (lastFrom h ((ch 0).takeWhile (under LessEq sl.mem k))) = true :=
    List.mem_takeWhile_imp hplo
  rcases pairwise_lastFrom hsorted h halo with heq | hlt
  · exact heq.symm
  · exfalso
    obtain ⟨x, y, hx, hy, hxy⟩ := keyLt_iff.1 hlt
    rw [he] at hx
    cases hx
    obtain ⟨e, hey, hle⟩ := under_eq_true_iff.1 hpunder
    rw [hy] at hey
    cases hey
    simp only [LessEq, decide_eq_true_eq] at hle
    exact absurd hxy (not_lt.2 hle)

/-- For a key that is already there, held at `a`, `Add` writes the value into the node that
follows `a` on level 0; it faults when there is none. -/
theorem Add_existing (hs : Shape sl h ch) {a : Nat} (ha : a ∈ ch 0) {k : K} {v0 : Value V}
    (he : entryAt sl.mem a = some (k, v0)) (value : Value V) (draws : Nat → ℚ) :
    ∃ r, getNext sl.mem (some a) 0 = .ok r ∧
      sl.Add k value draws =
        match setValue sl.mem r value with
        | .error e => .error e
        | .ok mem => .ok { sl with mem := mem } := by
  have hpos := hs.height_toNat_pos
  obtain ⟨update, hrun, _⟩ := hs.addLoop_head k (List.replicate sl.height.toNat none)
    (by simp)
  rw [hs.lastFrom_of_key ha he] at hrun
  obtain ⟨r, hr⟩ := seg_getNext (hs.seg 0 hpos) a (List.mem_cons_of_mem _ ha)
  refine ⟨r, hr, ?_⟩
  have hah : a ≠ h := hs.ne_head hpos ha
  unfold genericSkipList.Add
  rw [makeSlice_of_nonneg (le_of_lt hs.height_pos)]
  simp only [hrun]
  cases hsv : setValue sl.mem r value <;>
    simp [hs.head_eq, hah, getKey_of_entryAt he, hr, hsv]

/-- Overwriting the value of a node keeps the shape. -/
theorem setValue_shape (hs : Shape sl h ch) {b : Nat} {value : Value V}
    {mem1 : List (node K V)} (hset : setValue sl.mem (some b) value = .ok mem1) :
    Shape { sl with mem := mem1 } h ch := by
  have hentry : ∀ c, (entryAt mem1 c).map Prod.fst = (entryAt sl.mem c).map Prod.fst := by
    intro c
    rw [entryAt_setValue hset]
    by_cases hc : c = b
    · subst hc
      cases entryAt sl.mem c <;> simp
    · simp [hc]
  have hkl : ∀ c d, keyLt mem1 c d = keyLt sl.mem c d := by
    intro c d
    have h1 := hentry c
    have h2 := hentry d
    unfold keyLt
    cases e1 : entryAt mem1 c <;> cases e2 : entryAt sl.mem c <;>
      cases e3 : entryAt mem1 d <;> cases e4 : entryAt sl.mem d <;>
      simp_all
  refine ⟨hs.height_pos, hs.head_eq, ?_, ?_, ?_, ?_, hs.nested, hs.size_eq⟩
  · obtain ⟨h1, hh1, hl⟩ := headOK_iff.1 hs.head_ok
    exact headOK_iff.2 ⟨h1, hh1, by
      show levelAt mem1 h1 = some sl.height
      rw [levelAt_setValue hset]; exact hl⟩
  · intro L hL
    exact seg_congr (fun c _ => getNext_setValue hset c L) (hs.seg L hL)
  · intro L hL c hc
    obtain ⟨n1, ⟨e, n2⟩, l, n3, n4⟩ := nodeOK_iff.1 (hs.node_ok L hL c hc)
    refine nodeOK_iff.2 ⟨n1, ?_, l, ?_, n4⟩
    · show ∃ e, entryAt mem1 c = some e
      have := hentry c
      rw [n2] at this
      cases h1 : entryAt mem1 c with
      | none => rw [h1] at this; simp at this
      | some e1 => exact ⟨e1, rfl⟩
    · show levelAt mem1 c = some l
      rw [levelAt_setValue hset]; exact n3
  · intro L hL
    refine (hs.sorted L hL).imp ?_
    intro c d hcd
    show keyLt mem1 c d = true
    rw [hkl]; exact hcd

end Shape

/-! ## The invariants are kept by `Add` and `Delete` -/

theorem WellFormed.add {sl sl1 : genericSkipList K V} (hw : WellFormed sl) {k : K}
    {v : Value V} {draws : Nat → ℚ} (hadd : sl.Add k v draws = .ok sl1) :
    WellFormed sl1 ∧ sl1.height = sl.height := by
  obtain ⟨h, ch, hs, _⟩ := hw.shape
  by_cases hex : ∃ a ∈ ch 0, keyIs sl.mem k a = true
  · obtain ⟨a, ha, hka⟩ := hex
    obtain ⟨v0, hv0⟩ := keyIs_eq_true_iff.1 hka
    obtain ⟨r, hr, hrun⟩ := hs.Add_existing ha hv0 v draws
    rw [hadd] at hrun
    cases r with
    | none => rw [setValue_nil] at hrun; cases hrun
    | some b =>
      cases hset : setValue sl.mem (some b) v with
      | error e => rw [hset] at hrun; cases hrun
      | ok mem1 =>
        rw [hset] at hrun
        simp only [Except.ok.injEq] at hrun
        subst hrun
        exact ⟨(hs.setValue_shape hset).wellFormed, rfl⟩
  · have hall : ∀ a ∈ ch 0, keyIs sl.mem k a = false := by
      intro a ha
      by_contra hk
      exact hex ⟨a, ha, by simpa using hk⟩
    obtain ⟨sl2, hrun, hshape, _, _, _, _, _, hh, _⟩ := hs.Add_new k v draws hall
    rw [hadd] at hrun
    cases hrun
    exact ⟨hshape.wellFormed, hh⟩

theorem WellFormed.delete {sl sl1 : genericSkipList K V} (hw : WellFormed sl) {k : K}
    {v : Value V} {ok : Bool} (hdel : sl.Delete k = .ok (sl1, v, ok)) :
    WellFormed sl1 ∧ sl1.height = sl.height := by
  obtain ⟨h, ch, hs, _⟩ := hw.shape
  obtain ⟨sl2, v2, ok2, hrun, hshape, _, hh, _⟩ := hs.Delete_spec k
  rw [hdel] at hrun
  cases hrun
  exact ⟨hshape.wellFormed, hh⟩

end SkipList

namespace SkipList

set_option linter.unusedSectionVars false

variable {K V : Type} [LinearOrder K]

theorem filterMap_filter_of {α β : Type} (f : α → Option β) (p : α → Bool) (q : β → Bool)
    (l : List α) (hpq : ∀ a ∈ l, ∀ e, f a = some e → p a = q e) :
    (l.filter p).filterMap f = (l.filterMap f).filter q := by
  induction l with
  | nil => rfl
  | cons a l ih =>
    have ih1 := ih (fun b hb => hpq b (List.mem_cons_of_mem _ hb))
    cases hfa : f a with
    | none =>
      by_cases hpa : p a = true
      · simp [List.filter_cons, hpa, List.filterMap_cons, hfa, ih1]
      · simp [List.filter_cons, hpa, List.filterMap_cons, hfa, ih1]
    | some e =>
      have := hpq a (List.mem_cons_self _ _) e hfa
      by_cases hpa : p a = true
      · have hq : q e = true := by rw [← this]; exact hpa
        simp [List.filter_cons, hpa, List.filterMap_cons, hfa, ih1, hq]
      · have hq : ¬ q e = true := by rw [← this]; exact hpa
        simp [List.filter_cons, hpa, List.filterMap_cons, hfa, ih1, hq]

namespace Shape

variable {sl : genericSkipList K V} {h : Nat} {ch : Nat → List Nat}

theorem keys_ascending (hs : Shape sl h ch) : sl.keys.Pairwise (· < ·) := by
  unfold genericSkipList.keys
  rw [hs.entries_eq, List.pairwise_map, List.pairwise_filterMap]
  refine (hs.sorted 0 hs.height_toNat_pos).imp ?_
  intro a b hab x hx y hy
  obtain ⟨x1, y1, hx1, hy1, hlt⟩ := keyLt_iff.1 hab
  rw [Option.mem_def] at hx hy
  rw [hx1] at hx; rw [hy1] at hy
  cases hx; cases hy
  exact hlt

theorem levelKeys_sorted (hs : Shape sl h ch) {L : Nat} (hL : L < sl.height.toNat) :
    ∃ ks, sl.levelKeys L = some ks ∧ ks.Pairwise (· < ·) := by
  unfold genericSkipList.levelKeys
  rw [hs.chain_eq hL]
  have hall : (ch L).all (fun a => (entryAt sl.mem a).isSome) = true := by
    rw [List.all_eq_true]
    intro a ha
    obtain ⟨e, he⟩ := hs.entry hL ha
    simp [he]
  simp only [hall, if_true]
  refine ⟨_, rfl, ?_⟩
  rw [List.pairwise_filterMap]
  refine (hs.sorted L hL).imp ?_
  intro a b hab x hx y hy
  obtain ⟨x1, y1, hx1, hy1, hlt⟩ := keyLt_iff.1 hab
  rw [Option.mem_def] at hx hy
  rw [hx1] at hx; rw [hy1] at hy
  simp only [Option.map_some', Option.some.injEq] at hx hy
  subst hx; subst hy
  exact hlt

theorem all_keyIs_false_iff (hs : Shape sl h ch) {k : K} :
    (∀ a ∈ ch 0, keyIs sl.mem k a = false) ↔ k ∉ sl.keys := by
  rw [hs.not_mem_keys]
  constructor
  · intro hall a ha e he
    exact keyIs_eq_false_iff.1 (hall a ha) e he
  · intro hall a ha
    exact keyIs_eq_false_iff.2 (hall a ha)

theorem entries_add_new (hs : Shape sl h ch) (key : K) (value : Value V) (lvl : Nat)
    {sl1 : genericSkipList K V}
    (hs1 : Shape sl1 h (fun M => if M < lvl then
        (ch M).takeWhile (under LessEq sl.mem key) ++
          sl.mem.length :: (ch M).dropWhile (under LessEq sl.mem key) else ch M))
    (hlvl : 0 < lvl)
    (hold : ∀ b, b < sl.mem.length → entryAt sl1.mem b = entryAt sl.mem b)
    (hnew : entryAt sl1.mem sl.mem.length = some (key, value)) :
    sl1.entries.Perm ((key, value) :: sl.entries) := by
  have hpos := hs.height_toNat_pos
  rw [hs1.entries_eq, hs.entries_eq]
  simp only [hlvl, if_true, List.filterMap_append, List.filterMap_cons, hnew]
  have h1 : ((ch 0).takeWhile (under LessEq sl.mem key)).filterMap (entryAt sl1.mem)
      = ((ch 0).takeWhile (under LessEq sl.mem key)).filterMap (entryAt sl.mem) := by
    apply List.filterMap_congr
    intro b hb
    exact hold b (hs.lt_length hpos ((List.takeWhile_sublist _).subset hb))
  have h2 : ((ch 0).dropWhile (under LessEq sl.mem key)).filterMap (entryAt sl1.mem)
      = ((ch 0).dropWhile (under LessEq sl.mem key)).filterMap (entryAt sl.mem) := by
    apply List.filterMap_congr
    intro b hb
    exact hold b (hs.lt_length hpos ((List.dropWhile_suffix _).subset hb))
  rw [h1, h2]
  refine List.perm_middle.trans ?_
  rw [← List.filterMap_append, List.takeWhile_append_dropWhile]

theorem entries_delete (hs : Shape sl h ch) (key : K) {sl1 : genericSkipList K V}
    (hs1 : Shape sl1 h (fun L => (ch L).filter (fun a => !keyIs sl.mem key a)))
    (hsame : SameData sl1.mem sl.mem) :
    sl1.entries = sl.entries.filter (fun e => decide (e.1 ≠ key)) := by
  rw [hs1.entries_eq, hs.entries_eq]
  have : entryAt sl1.mem = entryAt sl.mem := funext (fun b => (hsame.2 b).1)
  rw [this]
  apply filterMap_filter_of
  intro a _ e he
  by_cases hk : e.1 = key
  · have : keyIs sl.mem key a = true := keyIs_eq_true_iff.2 ⟨e.2, by rw [he, ← hk]⟩
    simp [this, hk]
  · have : keyIs sl.mem key a = false := by
      rw [keyIs_eq_false_iff]
      intro e1 he1
      rw [he] at he1
      cases he1
      exact hk
    simp [this, hk]

end Shape

/-! ## The operations on a well-formed list -/

theorem WellFormed.find_of_mem {sl : genericSkipList K V} (hw : WellFormed sl) {k : K}
    {v : Value V} (hmem : (k, v) ∈ sl.entries) : sl.Find k = .ok (v, true) := by
  obtain ⟨h, ch, hs, _⟩ := hw.shape
  obtain ⟨a, ha, he⟩ := hs.mem_entries.1 hmem
  exact hs.Find_of_mem ha he

theorem WellFormed.find_of_not_mem {sl : genericSkipList K V} (hw : WellFormed sl) {k : K}
    (hk : k ∉ sl.keys) : sl.Find k = .ok (defaultValue, false) := by
  obtain ⟨h, ch, hs, _⟩ := hw.shape
  exact hs.Find_of_not_mem (hs.not_mem_keys.1 hk)

theorem WellFormed.keys_sorted {sl : genericSkipList K V} (hw : WellFormed sl) :
    sl.keys.Pairwise (· < ·) := by
  obtain ⟨h, ch, hs, _⟩ := hw.shape
  exact hs.keys_ascending

theorem WellFormed.size_eq {sl : genericSkipList K V} (hw : WellFormed sl) :
    sl.size = sl.entries.length := by
  obtain ⟨h, ch, hs, _⟩ := hw.shape
  rw [hs.entries_eq, hs.size_eq]
  congr 1
  have hpos := hs.height_toNat_pos
  generalize hxs : ch 0 = xs
  have hall : ∀ a ∈ xs, ∃ e, entryAt sl.mem a = some e := by
    intro a ha; rw [← hxs] at ha; exact hs.entry hpos ha
  clear hxs
  induction xs with
  | nil => rfl
  | cons a xs ih =>
    obtain ⟨e, he⟩ := hall a (List.mem_cons_self _ _)
    rw [List.filterMap_cons_some he]
    simp only [List.length_cons]
    rw [ih (fun b hb => hall b (List.mem_cons_of_mem _ hb))]

/-- Two well-formed lists that hold the same values under a key answer `Find` alike. -/
theorem WellFormed.find_congr {sl sl1 : genericSkipList K V} (hw : WellFormed sl)
    (hw1 : WellFormed sl1) {k : K}
    (hsame : ∀ v, (k, v) ∈ sl1.entries ↔ (k, v) ∈ sl.entries) :
    sl1.Find k = sl.Find k := by
  by_cases hk : k ∈ sl.keys
  · obtain ⟨⟨k1, v⟩, hmem, hk1⟩ := List.mem_map.1 hk
    simp only at hk1
    subst hk1
    rw [hw.find_of_mem hmem, hw1.find_of_mem ((hsame v).2 hmem)]
  · have hk1 : k ∉ sl1.keys := by
      intro hmem
      obtain ⟨⟨k1, v⟩, hmem1, hk1⟩ := List.mem_map.1 hmem
      simp only at hk1
      subst hk1
      exact hk (List.mem_map.2 ⟨_, (hsame v).1 hmem1, rfl⟩)
    rw [hw.find_of_not_mem hk, hw1.find_of_not_mem hk1]

/-- What `Add` of a key that is not there does to a well-formed list. -/
theorem WellFormed.add_new {sl : genericSkipList K V} (hw : WellFormed sl) {k : K}
    (hk : k ∉ sl.keys) (v : Value V) (draws : Nat → ℚ) :
    ∃ sl1, sl.Add k v draws = .ok sl1 ∧ WellFormed sl1 ∧
      sl1.entries.Perm ((k, v) :: sl.entries) ∧ sl1.size = sl.size + 1 ∧
      sl1.height = sl.height ∧ sl1.prob = sl.prob := by
  obtain ⟨h, ch, hs, _⟩ := hw.shape
  obtain ⟨sl1, hrun, hs1, hold, hnew, _, _, hsize, hh, hp, _⟩ :=
    hs.Add_new k v draws (hs.all_keyIs_false_iff.2 hk)
  refine ⟨sl1, hrun, hs1.wellFormed, ?_, hsize, hh, hp⟩
  have hl := randLevel_bounds sl draws hs.height_pos
  exact hs.entries_add_new k v _ hs1 (by omega) hold hnew

/-- What `Delete` does to a well-formed list, in terms of its entries. -/
theorem WellFormed.delete_spec {sl : genericSkipList K V} (hw : WellFormed sl) (k : K) :
    ∃ sl1 v ok, sl.Delete k = .ok (sl1, v, ok) ∧ WellFormed sl1 ∧
      sl1.entries = sl.entries.filter (fun e => decide (e.1 ≠ k)) ∧
      (∀ w, (k, w) ∈ sl.entries → v = w ∧ ok = true ∧ sl1.size = sl.size - 1) ∧
      (k ∉ sl.keys → sl1 = sl ∧ v = defaultValue ∧ ok = false) := by
  obtain ⟨h, ch, hs, _⟩ := hw.shape
  obtain ⟨sl1, v, ok, hrun, hs1, hsame, _, _, hpres, habs⟩ := hs.Delete_spec k
  refine ⟨sl1, v, ok, hrun, hs1.wellFormed, hs.entries_delete k hs1 hsame, ?_, ?_⟩
  · intro w hw1
    obtain ⟨a, ha, he⟩ := hs.mem_entries.1 hw1
    exact hpres a ha w he
  · intro hk
    exact habs (hs.all_keyIs_false_iff.2 hk)

/-- What `Add` of a key that is already there does to a well-formed list: it stops on a nil
dereference when the key is the largest one, and otherwise returns a well-formed list of the
same size in which the key still has its old value. -/
theorem WellFormed.add_existing {sl : genericSkipList K V} (hw : WellFormed sl) {k : K}
    {v0 : Value V} (hmem : (k, v0) ∈ sl.entries) (v : Value V) (draws : Nat → ℚ) :
    sl.Add k v draws = .error Fault.nilDeref ∨
      ∃ sl1, sl.Add k v draws = .ok sl1 ∧ WellFormed sl1 ∧ sl1.size = sl.size ∧
        sl1.Find k = .ok (v0, true) := by
  obtain ⟨h, ch, hs, _⟩ := hw.shape
  have hpos := hs.height_toNat_pos
  obtain ⟨a, ha, he⟩ := hs.mem_entries.1 hmem
  obtain ⟨r, hr, hrun⟩ := hs.Add_existing ha he v draws
  cases r with
  | none =>
    left
    rw [hrun, setValue_nil]
  | some b =>
    right
    have hba : b ≠ a := by
      obtain ⟨A, B, hAB⟩ := List.append_of_mem ha
      have hseg := hs.seg 0 hpos
      have hnd := hs.nodup hpos
      rw [hAB] at hnd
      rw [hAB, ← List.cons_append, seg_append] at hseg
      obtain ⟨t, _, _, q, hq, hB⟩ := hseg
      rw [hr] at hq
      have hqb : some b = q := by injection hq
      subst hqb
      cases B with
      | nil => simp [IsSeg] at hB
      | cons b1 B1 =>
        have hb1 : b = b1 := Option.some.inj hB.1
        subst hb1
        have := (List.nodup_cons.1 (List.nodup_append.1 hnd).2.1).1
        intro heq
        apply this
        rw [← heq]
        exact List.mem_cons_self _ _
    obtain ⟨q, hq⟩ : ∃ q, getNext sl.mem (some b) 0 = .ok q := by
      obtain ⟨A, B, hAB⟩ := List.append_of_mem ha
      have hseg := hs.seg 0 hpos
      rw [hAB, ← List.cons_append, seg_append] at hseg
      obtain ⟨t, _, _, q, hq, hB⟩ := hseg
      rw [hr] at hq
      have hqb : some b = q := by injection hq
      subst hqb
      cases B with
      | nil => simp [IsSeg] at hB
      | cons b1 B1 =>
        obtain ⟨hb1, q1, hq1, _⟩ := hB
        have hb1 : b = b1 := Option.some.inj hb1
        subst hb1
        exact ⟨q1, hq1⟩
    obtain ⟨mem1, hset⟩ := setValue_of_getNext v hq
    rw [hset] at hrun
    have hs1 := hs.setValue_shape hset
    refine ⟨_, hrun, hs1.wellFormed, rfl, ?_⟩
    refine hs1.Find_of_mem ha ?_
    show entryAt mem1 a = some (k, v0)
    rw [entryAt_setValue hset]
    simp [Ne.symm hba, he]

end SkipList

namespace SkipList

set_option linter.unusedSectionVars false

variable {K V : Type} [LinearOrder K]

/-! ## The fresh list -/

theorem NewSkipList_eq (height : Int) (prob : ℚ) (hpos : 0 < height) :
    (NewSkipList height prob : Except Fault (genericSkipList K V)) =
      .ok { mem := [{ key := none, value := Value.nil,
                      next := List.replicate height.toNat none }]
            height := height
            head := some 0
            size := 0
            prob := 0 } := by
  unfold NewSkipList
  rw [makeSlice_of_nonneg (le_of_lt hpos)]

theorem NewSkipList_shape (height : Int) (prob : ℚ) (hpos : 0 < height)
    {sl : genericSkipList K V} (hnew : NewSkipList height prob = .ok sl) :
    Shape sl 0 (fun _ => []) ∧ sl.height = height := by
  rw [NewSkipList_eq height prob hpos] at hnew
  simp only [Except.ok.injEq] at hnew
  subst hnew
  refine ⟨⟨hpos, rfl, ?_, ?_, ?_, ?_, ?_, rfl⟩, rfl⟩
  · rw [headOK_iff]
    refine ⟨0, rfl, ?_⟩
    rw [levelAt_eq_some_iff]
    refine ⟨{ key := none, value := Value.nil, next := List.replicate height.toNat none },
      rfl, ?_⟩
    simp only [List.length_replicate]
    omega
  · intro L hL
    have hL : L < height.toNat := hL
    refine ⟨rfl, none, ?_, rfl⟩
    rw [getNext_ok_iff]
    refine ⟨_, rfl, ?_⟩
    simp [List.getElem?_replicate, hL]
  · intro L _ a ha
    simp at ha
  · intro L _
    exact List.Pairwise.nil
  · intro L _ a ha
    simp at ha

theorem NewSkipList_wellFormed (height : Int) (prob : ℚ) (hpos : 0 < height)
    {sl : genericSkipList K V} (hnew : NewSkipList height prob = .ok sl) :
    WellFormed sl ∧ sl.entries = [] ∧ sl.height = height := by
  obtain ⟨hs, hh⟩ := NewSkipList_shape height prob hpos hnew
  refine ⟨hs.wellFormed, ?_, hh⟩
  rw [hs.entries_eq]
  rfl

/-! ## Many insertions -/

theorem addAll_spec (kvs : List (K × Value V)) :
    ∀ (sl : genericSkipList K V) (draws : Nat → Nat → ℚ), WellFormed sl →
      (kvs.map Prod.fst).Nodup → (∀ k ∈ kvs.map Prod.fst, k ∉ sl.keys) →
      ∃ sl1, addAll sl kvs draws = .ok sl1 ∧ WellFormed sl1 ∧
        sl1.entries.Perm (kvs ++ sl.entries) ∧ sl1.height = sl.height := by
  induction kvs with
  | nil =>
    intro sl draws hw _ _
    exact ⟨sl, rfl, hw, List.Perm.refl _, rfl⟩
  | cons kv rest ih =>
    intro sl draws hw hnd hfresh
    obtain ⟨k, v⟩ := kv
    simp only [List.map_cons, List.nodup_cons] at hnd
    have hk : k ∉ sl.keys := hfresh k (by simp)
    obtain ⟨sl1, hadd, hw1, hperm, _, hh, _⟩ := hw.add_new hk v (draws 0)
    have hfresh1 : ∀ k1 ∈ rest.map Prod.fst, k1 ∉ sl1.keys := by
      intro k1 hk1 hmem
      have hperm1 : sl1.keys.Perm (k :: sl.keys) := by
        unfold genericSkipList.keys
        exact hperm.map Prod.fst
      rcases List.mem_cons.1 (hperm1.subset hmem) with heq | hold
      · subst heq
        exact hnd.1 hk1
      · exact hfresh k1 (by simp [List.mem_map] at hk1 ⊢; exact Or.inr hk1) hold
    obtain ⟨sl2, hrun, hw2, hperm2, hh2⟩ := ih sl1 (fun j => draws (j + 1)) hw1 hnd.2 hfresh1
    refine ⟨sl2, ?_, hw2, ?_, hh2.trans hh⟩
    · simp only [addAll, hadd]
      exact hrun
    · refine hperm2.trans ?_
      refine (List.Perm.append_left rest hperm).trans ?_
      simp only [List.cons_append]
      exact List.perm_middle

/-! ## The iterator -/

theorem getElem?_filterMap_of_all {α β : Type} (f : α → Option β) :
    ∀ (xs : List α), (∀ a ∈ xs, ∃ e, f a = some e) →
      ∀ i : Nat, (xs.filterMap f)[i]? = (xs[i]?).bind f := by
  intro xs
  induction xs with
  | nil => intro _ i; simp
  | cons a xs ih =>
    intro hall i
    obtain ⟨e, he⟩ := hall a (List.mem_cons_self _ _)
    rw [List.filterMap_cons_some he]
    cases i with
    | zero => simp [he]
    | succ i =>
      simp only [List.getElem?_cons_succ]
      exact ih (fun b hb => hall b (List.mem_cons_of_mem _ hb)) i

/-- Successive calls of `Next` along a nil-terminated segment of level 0. -/
theorem runNext_seg (mem : List (node K V)) :
    ∀ (j a : Nat) (ys : List Nat), IsSeg mem 0 (some a) (a :: ys) none →
      ∃ c, (a :: ys)[min j ys.length]? = some c ∧
        skipListIterator.runNext mem j { current := some a } =
          .ok (List.replicate (min j ys.length) true ++ List.replicate (j - ys.length) false,
            { current := some c }) := by
  intro j
  induction j with
  | zero =>
    intro a ys _
    exact ⟨a, by simp, by simp [skipListIterator.runNext]⟩
  | succ j ih =>
    intro a ys hseg
    obtain ⟨_, r, hr, hrest⟩ := hseg
    cases ys with
    | nil =>
      simp only [IsSeg] at hrest
      subst hrest
      obtain ⟨c, hc, hrun⟩ := ih a [] ⟨rfl, none, hr, rfl⟩
      simp only [List.length_nil, Nat.min_zero, List.getElem?_cons_zero, Option.some.injEq] at hc
      subst hc
      refine ⟨a, by simp, ?_⟩
      simp only [skipListIterator.runNext, skipListIterator.Next, hr, hrun]
      simp [List.replicate_succ]
    | cons b zs =>
      have hrb : r = some b := hrest.1
      subst hrb
      obtain ⟨c, hc, hrun⟩ := ih b zs hrest
      refine ⟨c, ?_, ?_⟩
      · simp only [List.length_cons, Nat.add_min_add_right, List.getElem?_cons_succ]
        exact hc
      · simp only [skipListIterator.runNext, skipListIterator.Next, hr, hrun]
        simp [List.replicate_succ, Nat.add_min_add_right]

end SkipList

namespace SkipList

set_option linter.unusedSectionVars false

variable {K V : Type} [LinearOrder K]

/-- Adding a new key leaves the answer of `Find` for every other key as it was. -/
theorem add_new_frame (sl : genericSkipList K V) (hw : WellFormed sl) (k k1 : K)
    (v : Value V) (draws : Nat → ℚ) (hk : k ∉ sl.keys) (hne : k ≠ k1) :
    ∃ sl1, sl.Add k v draws = .ok sl1 ∧ sl1.Find k1 = sl.Find k1 := by
  obtain ⟨sl1, hadd, hw1, hperm, _⟩ := hw.add_new hk v draws
  refine ⟨sl1, hadd, hw.find_congr hw1 ?_⟩
  intro w
  rw [hperm.mem_iff, List.mem_cons]
  constructor
  · rintro (heq | hmem)
    · cases heq
      exact absurd rfl hne
    · exact hmem
  · exact Or.inr

/-- C1. On a well-formed list that lacks the key `k`, `Add(k, v)` returns and `Find(k)` on
the list it leaves answers `(v, true)`. The list may hold nodes of any level and have any
`prob`; the draws of the level generator are arbitrary. -/
theorem add_then_find (sl : genericSkipList K V) (hw : WellFormed sl) (k : K) (v : Value V)
    (draws : Nat → ℚ) (hk : k ∉ sl.keys) :
    ∃ sl1, sl.Add k v draws = .ok sl1 ∧ sl1.Find k = .ok (v, true) := by
  obtain ⟨sl1, hadd, hw1, hperm, _⟩ := hw.add_new hk v draws
  exact ⟨sl1, hadd, hw1.find_of_mem (hperm.symm.subset (List.mem_cons_self _ _))⟩

theorem add_then_find_witness :
    WellFormed sample ∧ 4 ∉ sample.keys ∧
      ∃ sl1, sample.Add 4 (Value.val 40) sampleDraws = .ok sl1 ∧
        sl1.Find 4 = .ok (Value.val 40, true) :=
  ⟨by decide, by decide, add_then_find sample (by decide) 4 (Value.val 40) sampleDraws
    (by decide)⟩

/-- C2 (defect in the code). `Add` of a key that is already there does not update its
entry: on `sample`, `Add(2, 99)` returns a list in which `Find(2)` still answers the old
value 20, and `Add(7, 99)`, 7 being the largest key, stops on a nil dereference. -/
theorem add_existing_key_keeps_old_value :
    WellFormed sample ∧ (2, Value.val 20) ∈ sample.entries ∧
      (7, Value.val 70) ∈ sample.entries ∧
      (∃ sl1, sample.Add 2 (Value.val 99) sampleDraws = .ok sl1 ∧
        sl1.Find 2 = .ok (Value.val 20, true) ∧ sl1.Len = sample.Len) ∧
      sample.Add 7 (Value.val 99) sampleDraws = .error Fault.nilDeref :=
  ⟨by decide, by decide, by decide, ⟨_, rfl, rfl, rfl⟩, rfl⟩

/-- C3. On a well-formed list that holds the entry `(k, v)`, `Delete(k)` returns `(v, true)`,
`Len()` afterwards is one less, and `Find(k)` afterwards answers `(defaultValue, false)`. -/
theorem delete_existing (sl : genericSkipList K V) (hw : WellFormed sl) (k : K) (v : Value V)
    (hmem : (k, v) ∈ sl.entries) :
    ∃ sl1, sl.Delete k = .ok (sl1, v, true) ∧ sl1.Len = sl.Len - 1 ∧
      sl1.Find k = .ok (defaultValue, false) := by
  obtain ⟨sl1, v1, ok1, hdel, hw1, hent, hpres, _⟩ := hw.delete_spec k
  obtain ⟨hv, hok, hsize⟩ := hpres v hmem
  subst hv hok
  refine ⟨sl1, hdel, hsize, hw1.find_of_not_mem ?_⟩
  unfold genericSkipList.keys
  rw [hent]
  intro hmem1
  obtain ⟨e, he, hk⟩ := List.mem_map.1 hmem1
  have := (List.mem_filter.1 he).2
  simp only [decide_eq_true_eq] at this
  exact this hk

theorem delete_existing_witness :
    WellFormed sample ∧ (5, Value.val 50) ∈ sample.entries ∧
      ∃ sl1, sample.Delete 5 = .ok (sl1, Value.val 50, true) ∧ sl1.Len = sample.Len - 1 ∧
        sl1.Find 5 = .ok (defaultValue, false) :=
  ⟨by decide, by decide, delete_existing sample (by decide) 5 (Value.val 50) (by decide)⟩

/-- C4. On a well-formed list that lacks the key `k`, `Delete(k)` returns
`(defaultValue, false)` and leaves the list as it was: the same `Len()` and the same memory,
so the same keys, values and links at every level. -/
theorem delete_missing (sl : genericSkipList K V) (hw : WellFormed sl) (k : K)
    (hk : k ∉ sl.keys) :
    sl.Delete k = .ok (sl, defaultValue, false) ∧
      ∀ sl1 r, sl.Delete k = .ok (sl1, r) →
        sl1.Len = sl.Len ∧ sl1.mem = sl.mem ∧ ∀ L, sl1.chain L = sl.chain L := by
  obtain ⟨sl1, v1, ok1, hdel, _, _, _, habs⟩ := hw.delete_spec k
  obtain ⟨h1, h2, h3⟩ := habs hk
  subst h1 h2 h3
  refine ⟨hdel, ?_⟩
  intro sl2 r hdel2
  rw [hdel] at hdel2
  cases hdel2
  exact ⟨rfl, rfl, fun _ => rfl⟩

theorem delete_missing_witness :
    WellFormed sample ∧ 4 ∉ sample.keys ∧
      (sample.Delete 4 = .ok (sample, defaultValue, false) ∧
        ∀ sl1 r, sample.Delete 4 = .ok (sl1, r) →
          sl1.Len = sample.Len ∧ sl1.mem = sample.mem ∧ ∀ L, sl1.chain L = sample.chain L) :=
  ⟨by decide, by decide, delete_missing sample (by decide) 4 (by decide)⟩

/-- C5 (defect in the code). `Add` of a key that is already there disturbs another key: on
`sample`, `Find(5)` answers 50 before `Add(2, 99)` and 99 after it, 5 being the key that
follows 2. -/
theorem add_existing_key_changes_other :
    WellFormed sample ∧ sample.Find 5 = .ok (Value.val 50, true) ∧
      ∃ sl1, sample.Add 2 (Value.val 99) sampleDraws = .ok sl1 ∧
        sl1.Find 5 = .ok (Value.val 99, true) :=
  ⟨by decide, rfl, _, rfl, rfl⟩

/-- C6. On a well-formed list, `Delete(k)` returns and leaves the answer of `Find` for every
other key as it was, whether or not `k` was there. -/
theorem delete_frame (sl : genericSkipList K V) (hw : WellFormed sl) (k k1 : K)
    (hne : k ≠ k1) :
    ∃ sl1 v ok, sl.Delete k = .ok (sl1, v, ok) ∧ sl1.Find k1 = sl.Find k1 ∧
      ∃ r, sl.Find k1 = .ok r := by
  obtain ⟨sl1, v1, ok1, hdel, hw1, hent, _, _⟩ := hw.delete_spec k
  refine ⟨sl1, v1, ok1, hdel, hw.find_congr hw1 ?_, ?_⟩
  · intro w
    rw [hent, List.mem_filter]
    simp only [decide_eq_true_eq, and_iff_left_iff_imp]
    intro _ heq
    exact hne heq.symm
  · by_cases hk1 : k1 ∈ sl.keys
    · obtain ⟨⟨k2, w⟩, hmem, hk2⟩ := List.mem_map.1 hk1
      simp only at hk2
      subst hk2
      exact ⟨_, hw.find_of_mem hmem⟩
    · exact ⟨_, hw.find_of_not_mem hk1⟩

theorem delete_frame_witness :
    WellFormed sample ∧ (5 : Nat) ≠ 7 ∧
      ∃ sl1 v ok, sample.Delete 5 = .ok (sl1, v, ok) ∧ sl1.Find 7 = sample.Find 7 ∧
        ∃ r, sample.Find 7 = .ok r :=
  ⟨by decide, by decide, delete_frame sample (by decide) 5 7 (by decide)⟩

/-- C7. For a positive height, `NewSkipList` returns a list with `Len() == 0` on which
`Find(k)` answers `(defaultValue, false)`, `Delete(k)` answers `(defaultValue, false)` and
leaves `Len() == 0`, and the first `Next()` of its iterator answers false. -/
theorem empty_container (K V : Type) [LinearOrder K] (height : Int) (hpos : 0 < height)
    (prob : ℚ) (k : K) :
    ∃ sl : genericSkipList K V, NewSkipList height prob = .ok sl ∧ sl.Len = 0 ∧
      sl.Find k = .ok (defaultValue, false) ∧
      (∃ sl1, sl.Delete k = .ok (sl1, defaultValue, false) ∧ sl1.Len = 0) ∧
      ∃ it, sl.Iterator = .ok it ∧ it.Next sl.mem = .ok (false, it) := by
  have hnew := NewSkipList_eq (K := K) (V := V) height prob hpos
  obtain ⟨hw, hent, _⟩ := NewSkipList_wellFormed height prob hpos hnew
  obtain ⟨hs, _⟩ := NewSkipList_shape height prob hpos hnew
  have hk : k ∉ genericSkipList.keys
      ({ mem := [{ key := none, value := Value.nil, next := List.replicate height.toNat none }]
         height := height, head := some 0, size := 0, prob := 0 } : genericSkipList K V) := by
    unfold genericSkipList.keys
    rw [hent]
    simp
  refine ⟨_, hnew, rfl, hw.find_of_not_mem hk, ?_, ?_⟩
  · obtain ⟨sl1, v1, ok1, hdel, _, _, _, habs⟩ := hw.delete_spec k
    obtain ⟨h1, h2, h3⟩ := habs hk
    subst h1 h2 h3
    exact ⟨_, hdel, rfl⟩
  · obtain ⟨_, r, hr, hrest⟩ := hs.seg 0 hs.height_toNat_pos
    simp only [IsSeg] at hrest
    subst hrest
    refine ⟨{ current := none }, ?_, rfl⟩
    unfold genericSkipList.Iterator
    rw [hs.head_eq, hr]

theorem empty_container_witness :
    (0 : Int) < 4 ∧
      ∃ sl : genericSkipList Nat Nat, NewSkipList 4 (1 / 2) = .ok sl ∧ sl.Len = 0 ∧
        sl.Find 3 = .ok (defaultValue, false) ∧
        (∃ sl1, sl.Delete 3 = .ok (sl1, defaultValue, false) ∧ sl1.Len = 0) ∧
        ∃ it, sl.Iterator = .ok it ∧ it.Next sl.mem = .ok (false, it) :=
  ⟨by decide, empty_container Nat Nat 4 (by decide) (1 / 2) 3⟩

/-- C8. Pairwise distinct keys inserted one at a time, in any order and with any draws, into
a fresh list of positive height: every `Add` returns, and the level-0 chain then holds
exactly the inserted pairs, each once, the keys strictly ascending. -/
theorem sorted_iteration (height : Int) (hpos : 0 < height) (prob : ℚ)
    (kvs : List (K × Value V)) (hnd : (kvs.map Prod.fst).Nodup) (draws : Nat → Nat → ℚ) :
    ∃ sl0 sl, NewSkipList height prob = .ok sl0 ∧ addAll sl0 kvs draws = .ok sl ∧
      sl.entries.Perm kvs ∧ sl.keys.Pairwise (· < ·) := by
  have hnew := NewSkipList_eq (K := K) (V := V) height prob hpos
  obtain ⟨hw, hent, _⟩ := NewSkipList_wellFormed height prob hpos hnew
  obtain ⟨sl, hrun, hw1, hperm, _⟩ := addAll_spec kvs _ draws hw hnd (by
    intro k _
    unfold genericSkipList.keys
    rw [hent]
    simp)
  refine ⟨_, sl, hnew, hrun, ?_, hw1.keys_sorted⟩
  rw [hent, List.append_nil] at hperm
  exact hperm

theorem sorted_iteration_witness :
    (0 : Int) < 3 ∧
      ([((5 : Nat), (Value.val 50 : Value Nat)), (2, Value.val 20), (7, Value.val 70)].map
        Prod.fst).Nodup ∧
      ∃ sl0 sl, NewSkipList 3 1 = .ok sl0 ∧
        addAll sl0 [(5, Value.val 50), (2, Value.val 20), (7, Value.val 70)]
          (fun _ => sampleDraws) = .ok sl ∧
        sl.entries.Perm [(5, Value.val 50), (2, Value.val 20), (7, Value.val 70)] ∧
        sl.keys.Pairwise (· < ·) :=
  ⟨by decide, by decide, sorted_iteration 3 (by decide) 1 _ (by decide) _⟩

/-- C9. On a well-formed list with `N >= 1` entries a fresh iterator stands on the first node
of the level-0 chain, whose keys ascend strictly. After `j` calls of `Next()` the returned
flags are `true` for the first `min j (N-1)` calls and `false` for the others, and the
cursor is the node at position `min j (N-1)` of the chain, where `Key()` and `Value()`
answer the entry at that position: so the first `N-1` calls move one entry forward and
every later call leaves the cursor where it is. -/
theorem iterator_protocol (sl : genericSkipList K V) (hw : WellFormed sl)
    (hne : sl.entries ≠ []) :
    ∃ cs it0, sl.chain 0 = some cs ∧ cs.length = sl.entries.length ∧
      sl.keys.Pairwise (· < ·) ∧ sl.Iterator = .ok it0 ∧
      ∀ j : Nat, ∃ c e,
        cs[min j (sl.entries.length - 1)]? = some c ∧
        sl.entries[min j (sl.entries.length - 1)]? = some e ∧
        it0.runNext sl.mem j =
          .ok (List.replicate (min j (sl.entries.length - 1)) true ++
                List.replicate (j - (sl.entries.length - 1)) false,
              { current := some c }) ∧
        skipListIterator.Key sl.mem { current := some c } = .ok (some e.1) ∧
        skipListIterator.Value sl.mem { current := some c } = .ok e.2 := by
  obtain ⟨h, ch, hs, _⟩ := hw.shape
  have hpos := hs.height_toNat_pos
  have hall : ∀ a ∈ ch 0, ∃ e, entryAt sl.mem a = some e := fun a ha => hs.entry hpos ha
  have hlen : (ch 0).length = sl.entries.length := by
    have h1 := hw.size_eq
    have h2 := hs.size_eq
    omega
  obtain ⟨_, r, hr, hrest⟩ := hs.seg 0 hpos
  cases hch : ch 0 with
  | nil =>
    exfalso
    apply hne
    rw [hs.entries_eq, hch]
    rfl
  | cons a ys =>
    rw [hch] at hrest hlen
    have hra : r = some a := hrest.1
    subst hra
    refine ⟨a :: ys, { current := some a }, ?_, hlen, hs.keys_ascending, ?_, ?_⟩
    · rw [hs.chain_eq hpos, hch]
    · unfold genericSkipList.Iterator
      rw [hs.head_eq, hr]
    · intro j
      have hN : sl.entries.length - 1 = ys.length := by
        rw [← hlen]; simp
      rw [hN]
      obtain ⟨c, hc, hrun⟩ := runNext_seg sl.mem j a ys hrest
      have hcmem : c ∈ ch 0 := by
        rw [hch]
        exact List.getElem?_mem hc
      obtain ⟨e, he⟩ := hall c hcmem
      refine ⟨c, e, hc, ?_, hrun, ?_, ?_⟩
      · rw [hs.entries_eq, getElem?_filterMap_of_all _ _ hall, hch, hc]
        exact he
      · exact getKey_of_entryAt he
      · exact getValue_of_entryAt he

theorem iterator_protocol_witness :
    WellFormed sample ∧ sample.entries ≠ [] ∧
      ∃ cs it0, sample.chain 0 = some cs ∧ cs.length = sample.entries.length ∧
        sample.keys.Pairwise (· < ·) ∧ sample.Iterator = .ok it0 ∧
        ∀ j : Nat, ∃ c e,
          cs[min j (sample.entries.length - 1)]? = some c ∧
          sample.entries[min j (sample.entries.length - 1)]? = some e ∧
          it0.runNext sample.mem j =
            .ok (List.replicate (min j (sample.entries.length - 1)) true ++
                  List.replicate (j - (sample.entries.length - 1)) false,
                { current := some c }) ∧
          skipListIterator.Key sample.mem { current := some c } = .ok (some e.1) ∧
          skipListIterator.Value sample.mem { current := some c } = .ok e.2 :=
  ⟨by decide, by decide, iterator_protocol sample (by decide) (by decide)⟩

/-- Every state reached from a fresh list of positive height is well formed. -/
theorem Reachable.invariants {height : Int} {prob : ℚ} (hpos : 0 < height)
    {sl : genericSkipList K V} (hr : Reachable height prob sl) :
    WellFormed sl ∧ sl.height = height := by
  induction hr with
  | fresh hnew =>
    obtain ⟨hw, _, hh⟩ := NewSkipList_wellFormed height prob hpos hnew
    exact ⟨hw, hh⟩
  | add _ hadd ih =>
    obtain ⟨hw1, hh1⟩ := ih.1.add hadd
    exact ⟨hw1, hh1.trans ih.2⟩
  | delete _ hdel ih =>
    obtain ⟨hw1, hh1⟩ := ih.1.delete hdel
    exact ⟨hw1, hh1.trans ih.2⟩

theorem sampleOne_reachable : Reachable 3 (1 / 2) sampleOne :=
  Reachable.add (Reachable.fresh (rfl : NewSkipList 3 (1 / 2) = .ok sampleFresh))
    (rfl : sampleFresh.Add 5 (Value.val 50) sampleDraws = .ok sampleOne)

theorem sampleThree_reachable : Reachable 3 (1 / 2) sampleThree :=
  Reachable.add
    (Reachable.add sampleOne_reachable
      (rfl : sampleOne.Add 2 (Value.val 20) sampleDraws = .ok sampleTwo))
    (rfl : sampleTwo.Add 7 (Value.val 70) sampleDraws = .ok sampleThree)

theorem sampleAfter_reachable : Reachable 3 (1 / 2) sampleAfter :=
  Reachable.delete sampleThree_reachable
    (rfl : sampleThree.Delete 5 = .ok (sampleAfter, Value.val 50, true))

/-- C10. In every state reached from a fresh list of positive height by calls of `Add` and
`Delete`, whatever the draws of the level generator, the chain of every level below the
height is nil-terminated and has strictly ascending keys, and no key occurs twice on
level 0. -/
theorem order_invariant (height : Int) (hpos : 0 < height) (prob : ℚ)
    (sl : genericSkipList K V) (hr : Reachable height prob sl) (L : Nat)
    (hL : L < height.toNat) :
    (∃ ks, sl.levelKeys L = some ks ∧ ks.Pairwise (· < ·)) ∧ sl.keys.Nodup := by
  obtain ⟨hw, hh⟩ := hr.invariants hpos
  obtain ⟨h, ch, hs, _⟩ := hw.shape
  refine ⟨hs.levelKeys_sorted (by rw [hh]; exact hL), ?_⟩
  exact hs.keys_ascending.imp (fun hab => ne_of_lt hab)

theorem order_invariant_witness :
    (0 : Int) < 3 ∧ Reachable 3 (1 / 2) sampleThree ∧ 0 < (3 : Int).toNat ∧
      sampleThree.levelKeys 0 = some [2, 5, 7] ∧
      ((∃ ks, sampleThree.levelKeys 0 = some ks ∧ ks.Pairwise (· < ·)) ∧
        sampleThree.keys.Nodup) ∧
      Reachable 3 (1 / 2) sampleAfter ∧ sampleAfter.levelKeys 0 = some [2, 7] ∧
      ((∃ ks, sampleAfter.levelKeys 0 = some ks ∧ ks.Pairwise (· < ·)) ∧
        sampleAfter.keys.Nodup) :=
  ⟨by decide, sampleThree_reachable, by decide, by decide,
    order_invariant 3 (by decide) (1 / 2) sampleThree sampleThree_reachable 0 (by decide),
    sampleAfter_reachable, by decide,
    order_invariant 3 (by decide) (1 / 2) sampleAfter sampleAfter_reachable 0 (by decide)⟩

end SkipList

namespace SkipList

set_option linter.unusedSectionVars false

variable {K V : Type} [LinearOrder K]

/-! ## Search against the naive scan -/

theorem takeWhile_eq_filter_of_pairwise {α : Type} {R : α → α → Prop} {t : α → Bool}
    (hdown : ∀ a b, R a b → t b = true → t a = true) {xs : List α} (hp : xs.Pairwise R) :
    xs.takeWhile t = xs.filter t := by
  have h1 : (xs.takeWhile t).filter t = xs.takeWhile t :=
    List.filter_eq_self.2 (fun a ha => List.mem_takeWhile_imp ha)
  have h2 : (xs.dropWhile t).filter t = [] := by
    rw [List.filter_eq_nil_iff]
    intro a ha
    rw [dropWhile_all_false hdown hp a ha]
    simp
  conv_rhs => rw [← List.takeWhile_append_dropWhile t xs]
  rw [List.filter_append, h1, h2, List.append_nil]

theorem find?_key_of_pairwise {es : List (K × Value V)}
    (hp : (es.map Prod.fst).Pairwise (· < ·)) {k : K} {v : Value V} (hmem : (k, v) ∈ es) :
    es.find? (fun e => decide (e.1 = k)) = some (k, v) := by
  induction es with
  | nil => simp at hmem
  | cons e es ih =>
    simp only [List.map_cons, List.pairwise_cons] at hp
    rcases List.mem_cons.1 hmem with heq | hrest
    · subst heq
      simp [List.find?_cons]
    · have hne : e.1 ≠ k := by
        have := hp.1 k (List.mem_map.2 ⟨(k, v), hrest, rfl⟩)
        exact ne_of_lt this
      simp only [List.find?_cons, hne, decide_False]
      exact ih hp.2 hrest

theorem find?_key_none {es : List (K × Value V)} {k : K} (hk : k ∉ es.map Prod.fst) :
    es.find? (fun e => decide (e.1 = k)) = none := by
  rw [List.find?_eq_none]
  intro e he
  simp only [decide_eq_true_eq]
  intro heq
  exact hk (List.mem_map.2 ⟨e, he, heq⟩)

theorem WellFormed.find_eq_naive {sl : genericSkipList K V} (hw : WellFormed sl) (k : K) :
    sl.Find k = .ok (sl.naiveFind k) := by
  unfold genericSkipList.naiveFind
  by_cases hk : k ∈ sl.keys
  · obtain ⟨⟨k1, v⟩, hmem, hk1⟩ := List.mem_map.1 hk
    simp only at hk1
    subst hk1
    rw [hw.find_of_mem hmem, find?_key_of_pairwise hw.keys_sorted hmem]
  · rw [hw.find_of_not_mem hk, find?_key_none hk]

/-! ## Many deletions -/

theorem WellFormed.entries_nodup_keys {sl : genericSkipList K V} (hw : WellFormed sl) :
    sl.keys.Nodup :=
  hw.keys_sorted.imp (fun hab => ne_of_lt hab)

theorem deleteAll_spec (ks : List K) :
    ∀ (sl : genericSkipList K V), WellFormed sl → ks.Nodup → (∀ k ∈ ks, k ∈ sl.keys) →
      ∃ sl1 rs, deleteAll sl ks = .ok (sl1, rs) ∧ WellFormed sl1 ∧
        sl1.entries = sl.entries.filter (fun e => decide (e.1 ∉ ks)) ∧
        sl1.size = sl.size - ks.length ∧ sl1.height = sl.height ∧
        rs.length = ks.length ∧
        ∀ (i : Nat) (k : K), ks[i]? = some k →
          ∃ v, (k, v) ∈ sl.entries ∧ rs[i]? = some (v, true, sl.size - (i + 1)) := by
  induction ks with
  | nil =>
    intro sl hw _ _
    refine ⟨sl, [], rfl, hw, ?_, by simp, rfl, rfl, ?_⟩
    · simp
    · intro i k hik
      simp at hik
  | cons k rest ih =>
    intro sl hw hnd hsub
    rw [List.nodup_cons] at hnd
    have hk : k ∈ sl.keys := hsub k (List.mem_cons_self _ _)
    obtain ⟨⟨k1, v⟩, hmem, hk1⟩ := List.mem_map.1 hk
    simp only at hk1
    subst hk1
    obtain ⟨sl1, v1, ok1, hdel, hw1, hent, hpres, _⟩ := hw.delete_spec k1
    obtain ⟨hv, hok, hsize⟩ := hpres v hmem
    subst hv hok
    have hh1 : sl1.height = sl.height := (hw.delete hdel).2
    have hsub1 : ∀ k ∈ rest, k ∈ sl1.keys := by
      intro k2 hk2
      have hk2s := hsub k2 (List.mem_cons_of_mem _ hk2)
      obtain ⟨e, he, hek⟩ := List.mem_map.1 hk2s
      unfold genericSkipList.keys
      rw [hent]
      refine List.mem_map.2 ⟨e, List.mem_filter.2 ⟨he, ?_⟩, hek⟩
      simp only [decide_eq_true_eq]
      intro heq
      apply hnd.1
      rw [← heq, hek]
      exact hk2
    obtain ⟨sl2, rs, hrun, hw2, hent2, hsize2, hh2, hlen, hres⟩ := ih sl1 hw1 hnd.2 hsub1
    refine ⟨sl2, (v1, true, sl1.Len) :: rs, ?_, hw2, ?_, ?_, hh2.trans hh1, by simp [hlen], ?_⟩
    · simp only [deleteAll, hdel, hrun]
    · rw [hent2, hent, List.filter_filter]
      apply List.filter_congr
      intro e _
      by_cases h1 : e.1 = k1
      · simp [h1]
      · by_cases h2 : e.1 ∈ rest <;> simp [h1, h2]
    · rw [hsize2, hsize]
      simp only [List.length_cons]
      push_cast
      omega
    · intro i k2 hik
      cases i with
      | zero =>
        simp only [List.getElem?_cons_zero, Option.some.injEq] at hik
        subst hik
        refine ⟨v1, hmem, ?_⟩
        simp only [List.getElem?_cons_zero, genericSkipList.Len, hsize]
        simp
      | succ i =>
        simp only [List.getElem?_cons_succ] at hik
        obtain ⟨w, hw3, hri⟩ := hres i k2 hik
        rw [hent] at hw3
        refine ⟨w, (List.mem_filter.1 hw3).1, ?_⟩
        simp only [List.getElem?_cons_succ, hri, hsize]
        congr 3
        push_cast
        omega

/-- A well-formed list without entries: the head links to nil on every level. -/
theorem WellFormed.empty_links {sl : genericSkipList K V} (hw : WellFormed sl)
    (hent : sl.entries = []) (L : Nat) (hL : L < sl.height.toNat) :
    getNext sl.mem sl.head L = .ok none := by
  obtain ⟨h, ch, hs, _⟩ := hw.shape
  have hpos := hs.height_toNat_pos
  have h0 : ch 0 = [] := by
    have h1 := hw.size_eq
    have h2 := hs.size_eq
    rw [hent] at h1
    simp only [List.length_nil] at h1
    have : (ch 0).length = 0 := by omega
    exact List.length_eq_zero.1 this
  have hL0 : ch L = [] := by
    apply List.eq_nil_iff_forall_not_mem.2
    intro a ha
    have := hs.mem_lower hL ha 0 (Nat.zero_le _)
    rw [h0] at this
    simp at this
  obtain ⟨_, r, hr, hrest⟩ := hs.seg L hL
  rw [hL0] at hrest
  simp only [IsSeg] at hrest
  subst hrest
  rw [hs.head_eq]
  exact hr

end SkipList

namespace SkipList

set_option linter.unusedSectionVars false

variable {K V : Type} [LinearOrder K]

/-! ## The memory after `Add` -/

namespace Shape

variable {sl : genericSkipList K V} {h : Nat} {ch : Nat → List Nat}

/-- After `Add` of a new key the memory is the old one with the new node appended, up to
links. -/
theorem Add_new_sameData (hs : Shape sl h ch) (key : K) (value : Value V) (draws : Nat → ℚ)
    (hnew : ∀ a ∈ ch 0, keyIs sl.mem key a = false) :
    ∃ sl1, sl.Add key value draws = .ok sl1 ∧
      SameData sl1.mem
        (sl.mem ++ [⟨some key, value, List.replicate (sl.randLevel draws).toNat none⟩]) := by
  obtain ⟨update, hadd, hupd⟩ := hs.Add_eq_insert key value draws hnew
  obtain ⟨hl1, hl2⟩ := randLevel_bounds sl draws hs.height_pos
  obtain ⟨m1, hrun, hsame, _, _⟩ :=
    hs.spliceLoop_spec key
      ⟨some key, value, List.replicate (sl.randLevel draws).toNat none⟩
      update hupd (sl.randLevel draws).toNat (by simp) (by omega)
      (sl.mem ++ [⟨some key, value, List.replicate (sl.randLevel draws).toNat none⟩])
      (SameData.refl _) (fun _ _ _ => rfl)
  refine ⟨{ sl with mem := m1, size := sl.size + 1 }, ?_, hsame⟩
  rw [hadd]
  unfold genericSkipList.insert
  rw [makeSlice_of_nonneg (by omega)]
  simp only [List.length_replicate, hrun]

/-- Above the height no level has a chain. -/
theorem chain_none_of_le (hs : Shape sl h ch) {L : Nat} (hL : sl.height.toNat ≤ L) :
    sl.chain L = none := by
  obtain ⟨h1, hh1, hl⟩ := headOK_iff.1 hs.head_ok
  obtain ⟨n, hn, hlen⟩ := levelAt_eq_some_iff.1 hl
  unfold genericSkipList.chain getNext index
  rw [hh1, load_eq, hn]
  have : n.next[L]? = none := by
    rw [List.getElem?_eq_none_iff]
    omega
  simp [this]

/-- After `Add` of a new key and `Delete` of the same key every level has the chain it had. -/
theorem Add_then_Delete (hs : Shape sl h ch) (key : K) (value : Value V) (draws : Nat → ℚ)
    (hnew : ∀ a ∈ ch 0, keyIs sl.mem key a = false) :
    ∃ sl1 sl2, sl.Add key value draws = .ok sl1 ∧ sl1.Delete key = .ok (sl2, value, true) ∧
      Shape sl2 h ch ∧ sl2.size = sl.size ∧ sl2.height = sl.height ∧
      (∀ b, b < sl.mem.length → entryAt sl2.mem b = entryAt sl.mem b) := by
  have hpos := hs.height_toNat_pos
  obtain ⟨sl1, hadd, hs1, hold, hnewE, _, _, hsize1, hh1, _, _⟩ :=
    hs.Add_new key value draws hnew
  obtain ⟨hl1, hl2⟩ := randLevel_bounds sl draws hs.height_pos
  obtain ⟨sl2, v2, ok2, hdel, hs2, hsame2, hh2, _, hpres, _⟩ := hs1.Delete_spec key
  have hlvl0 : 0 < (sl.randLevel draws).toNat := by omega
  have ha0 : sl.mem.length ∈ (fun M => if M < (sl.randLevel draws).toNat then
      (ch M).takeWhile (under LessEq sl.mem key) ++
        sl.mem.length :: (ch M).dropWhile (under LessEq sl.mem key) else ch M) 0 := by
    simp [hlvl0]
  obtain ⟨hv, hok, hsize2⟩ := hpres _ ha0 value hnewE
  subst hv hok
  have hk0 : keyIs sl1.mem key sl.mem.length = true := keyIs_eq_true_iff.2 ⟨_, hnewE⟩
  have hkold : ∀ L, L < sl.height.toNat → ∀ a ∈ ch L, keyIs sl1.mem key a = false := by
    intro L hL a ha
    have h1 := hnew a (hs.mem_lower hL ha 0 (Nat.zero_le _))
    rw [keyIs_eq_false_iff] at h1 ⊢
    intro e he
    rw [hold a (hs.lt_length hL ha)] at he
    exact h1 e he
  have hfil : ∀ L, L < sl.height.toNat →
      (if L < (sl.randLevel draws).toNat then
        (ch L).takeWhile (under LessEq sl.mem key) ++
          sl.mem.length :: (ch L).dropWhile (under LessEq sl.mem key) else ch L).filter
        (fun a => !keyIs sl1.mem key a) = ch L := by
    intro L hL
    have hall : (ch L).filter (fun a => !keyIs sl1.mem key a) = ch L := by
      rw [List.filter_eq_self]
      intro a ha
      simp [hkold L hL a ha]
    by_cases hLl : L < (sl.randLevel draws).toNat
    · simp only [hLl, if_true]
      rw [List.filter_append, List.filter_cons]
      simp only [hk0, Bool.not_true, Bool.false_eq_true, if_false]
      rw [← List.filter_append, List.takeWhile_append_dropWhile]
      exact hall
    · simp only [hLl, if_false]
      exact hall
  have hH : sl2.height = sl.height := hh2.trans hh1
  refine ⟨sl1, sl2, hadd, hdel, ?_, ?_, hH, ?_⟩
  · refine ⟨hs2.height_pos, hs2.head_eq, hs2.head_ok, ?_, ?_, ?_, fun L hL a ha => hs.nested L (by rw [← hH]; exact hL) a ha, ?_⟩
    · intro L hL
      have hL1 : L < sl.height.toNat := by rw [← hH]; exact hL
      have := hs2.seg L hL
      rw [hfil L hL1] at this
      exact this
    · intro L hL a ha
      have hL1 : L < sl.height.toNat := by rw [← hH]; exact hL
      apply hs2.node_ok L hL a
      rw [hfil L hL1]
      exact ha
    · intro L hL
      have hL1 : L < sl.height.toNat := by rw [← hH]; exact hL
      have := hs2.sorted L hL
      rw [hfil L hL1] at this
      exact this
    · have := hs2.size_eq
      rw [hfil 0 hpos] at this
      exact this
  · rw [hsize2, hsize1]
    omega
  · intro b hb
    rw [(hsame2.2 b).1, hold b hb]

end Shape

end SkipList

namespace SkipList

set_option linter.unusedSectionVars false

variable {K V : Type} [LinearOrder K]

/-! ## The number of levels of the allocated nodes -/

theorem LevelsOK_congr (sl sl1 : genericSkipList K V) (hhead : sl1.head = sl.head)
    (hheight : sl1.height = sl.height) (hlen : sl1.mem.length = sl.mem.length)
    (hlev : ∀ b, levelAt sl1.mem b = levelAt sl.mem b) (hok : sl.LevelsOK) :
    sl1.LevelsOK := by
  intro a ha
  rw [hlev a, hhead, hheight]
  exact hok a (by rw [← hlen]; exact ha)

theorem NewSkipList_levelsOK (height : Int) (prob : ℚ) (hpos : 0 < height)
    {sl : genericSkipList K V} (hnew : NewSkipList height prob = .ok sl) : sl.LevelsOK := by
  rw [NewSkipList_eq height prob hpos] at hnew
  simp only [Except.ok.injEq] at hnew
  subst hnew
  intro a ha
  simp only [List.length_singleton, Nat.lt_one_iff] at ha
  subst ha
  have : levelAt [(⟨none, Value.nil, List.replicate height.toNat none⟩ : node K V)] 0
      = some height := by
    rw [levelAt_eq_some_iff]
    refine ⟨⟨none, Value.nil, List.replicate height.toNat none⟩, rfl, ?_⟩
    rw [List.length_replicate]
    omega
  rw [this]
  simp

theorem WellFormed.add_levelsOK {sl sl1 : genericSkipList K V} (hw : WellFormed sl)
    (hok : sl.LevelsOK) {k : K} {v : Value V} {draws : Nat → ℚ}
    (hadd : sl.Add k v draws = .ok sl1) : sl1.LevelsOK := by
  obtain ⟨h, ch, hs, _⟩ := hw.shape
  by_cases hex : ∃ a ∈ ch 0, keyIs sl.mem k a = true
  · obtain ⟨a, ha, hka⟩ := hex
    obtain ⟨v0, hv0⟩ := keyIs_eq_true_iff.1 hka
    obtain ⟨r, hr, hrun⟩ := hs.Add_existing ha hv0 v draws
    rw [hadd] at hrun
    cases r with
    | none => rw [setValue_nil] at hrun; cases hrun
    | some b =>
      cases hset : setValue sl.mem (some b) v with
      | error e => rw [hset] at hrun; cases hrun
      | ok mem1 =>
        rw [hset] at hrun
        simp only [Except.ok.injEq] at hrun
        subst hrun
        exact LevelsOK_congr sl { sl with mem := mem1 } rfl rfl (length_setValue hset)
          (levelAt_setValue hset) hok
  · have hall : ∀ a ∈ ch 0, keyIs sl.mem k a = false := by
      intro a ha
      by_contra hk
      exact hex ⟨a, ha, by simpa using hk⟩
    obtain ⟨sl2, hrun, _, _, _, _, _, _, hh, _, hhead⟩ := hs.Add_new k v draws hall
    obtain ⟨sl3, hrun3, hsame⟩ := hs.Add_new_sameData k v draws hall
    rw [hadd] at hrun hrun3
    cases hrun
    cases hrun3
    obtain ⟨hl1, hl2⟩ := randLevel_bounds sl draws hs.height_pos
    intro a ha
    rw [(hsame.2 a).2.1, hhead, hh]
    have hlen : sl1.mem.length = sl.mem.length + 1 := by rw [hsame.1]; simp
    rcases Nat.lt_or_ge a sl.mem.length with hlt | hge
    · rw [levelAt_append _ hlt]
      exact hok a hlt
    · have hae : a = sl.mem.length := by omega
      subst hae
      rw [levelAt_append_new]
      have hne : ¬ (some sl.mem.length = sl.head) := by
        rw [hs.head_eq]
        intro heq
        have := hs.head_lt_length
        cases heq
        exact absurd this (lt_irrefl _)
      simp only [hne, if_false, List.length_replicate]
      omega

theorem WellFormed.delete_levelsOK {sl sl1 : genericSkipList K V} (hw : WellFormed sl)
    (hok : sl.LevelsOK) {k : K} {v : Value V} {ok : Bool}
    (hdel : sl.Delete k = .ok (sl1, v, ok)) : sl1.LevelsOK := by
  obtain ⟨h, ch, hs, _⟩ := hw.shape
  obtain ⟨sl2, v2, ok2, hrun, hs2, hsame, hh, _⟩ := hs.Delete_spec k
  rw [hdel] at hrun
  cases hrun
  exact LevelsOK_congr sl sl1 (hs2.head_eq.trans hs.head_eq.symm) hh hsame.1
    (fun b => (hsame.2 b).2.1) hok

theorem Reachable.levelsOK {height : Int} {prob : ℚ} (hpos : 0 < height)
    {sl : genericSkipList K V} (hr : Reachable height prob sl) : sl.LevelsOK := by
  induction hr with
  | fresh hnew => exact NewSkipList_levelsOK height prob hpos hnew
  | add hprev hadd ih => exact (hprev.invariants hpos).1.add_levelsOK ih hadd
  | delete hprev hdel ih => exact (hprev.invariants hpos).1.delete_levelsOK ih hdel

/-! ## What runs to completion on a well-formed list -/

theorem WellFormed.iterator_total {sl : genericSkipList K V} (hw : WellFormed sl) :
    ∃ it, sl.Iterator = .ok it ∧ ∀ j, ∃ r, it.runNext sl.mem j = .ok r := by
  obtain ⟨h, ch, hs, _⟩ := hw.shape
  have hpos := hs.height_toNat_pos
  obtain ⟨_, r, hr, hrest⟩ := hs.seg 0 hpos
  refine ⟨{ current := r }, ?_, ?_⟩
  · unfold genericSkipList.Iterator
    rw [hs.head_eq, hr]
  · intro j
    cases hch : ch 0 with
    | nil =>
      rw [hch] at hrest
      simp only [IsSeg] at hrest
      subst hrest
      clear hr
      induction j with
      | zero => exact ⟨_, rfl⟩
      | succ j ih =>
        obtain ⟨r1, hr1⟩ := ih
        refine ⟨(false :: r1.1, r1.2), ?_⟩
        simp only [skipListIterator.runNext, skipListIterator.Next, hr1]
    | cons a ys =>
      rw [hch] at hrest
      have hra : r = some a := hrest.1
      subst hra
      obtain ⟨c, _, hrun⟩ := runNext_seg sl.mem j a ys hrest
      exact ⟨_, hrun⟩

end SkipList

namespace SkipList

set_option linter.unusedSectionVars false

variable {K V : Type} [LinearOrder K]

/-- C11. In every state reached from a fresh list of positive height `Len()` is the number
of nodes on the level-0 chain (the head is not on it); and after inserting `N` pairwise
distinct keys into a fresh list, with any draws, `Len()` is `N`. -/
theorem size_invariant (height : Int) (hpos : 0 < height) (prob : ℚ)
    (sl : genericSkipList K V) (hr : Reachable height prob sl)
    (kvs : List (K × Value V)) (hnd : (kvs.map Prod.fst).Nodup) (draws : Nat → Nat → ℚ) :
    (∃ cs, sl.chain 0 = some cs ∧ sl.Len = cs.length) ∧
      ∃ sl0 sl1, NewSkipList height prob = .ok sl0 ∧ addAll sl0 kvs draws = .ok sl1 ∧
        sl1.Len = kvs.length := by
  constructor
  · obtain ⟨hw, _⟩ := hr.invariants hpos
    obtain ⟨h, ch, hs, _⟩ := hw.shape
    exact ⟨ch 0, hs.chain_eq hs.height_toNat_pos, hs.size_eq⟩
  · have hnew := NewSkipList_eq (K := K) (V := V) height prob hpos
    obtain ⟨hw, hent, _⟩ := NewSkipList_wellFormed height prob hpos hnew
    obtain ⟨sl1, hrun, hw1, hperm, _⟩ := addAll_spec kvs _ draws hw hnd (by
      intro k _
      unfold genericSkipList.keys
      rw [hent]
      simp)
    refine ⟨_, sl1, hnew, hrun, ?_⟩
    rw [hent, List.append_nil] at hperm
    show sl1.size = _
    rw [hw1.size_eq, hperm.length_eq]

theorem size_invariant_witness :
    (0 : Int) < 3 ∧ Reachable 3 (1 / 2) sampleOne ∧
      ([((5 : Nat), (Value.val 50 : Value Nat)), (2, Value.val 20), (7, Value.val 70)].map
        Prod.fst).Nodup ∧
      ((∃ cs, sampleOne.chain 0 = some cs ∧ sampleOne.Len = cs.length) ∧
        ∃ sl0 sl1, NewSkipList 3 (1 / 2) = .ok sl0 ∧
          addAll sl0 [((5 : Nat), (Value.val 50 : Value Nat)), (2, Value.val 20),
            (7, Value.val 70)] (fun _ => sampleDraws) = .ok sl1 ∧
          sl1.Len = ([((5 : Nat), (Value.val 50 : Value Nat)), (2, Value.val 20),
            (7, Value.val 70)]).length) :=
  ⟨by decide, sampleOne_reachable, by decide,
    size_invariant 3 (by decide) (1 / 2) sampleOne sampleOne_reachable _ (by decide) _⟩

/-- C12. Pairwise distinct keys are inserted into a fresh list of positive height and then
deleted, each once, in any order `ks`. Every call returns; the `i`-th `Delete` answers the
value inserted with its key and `true`, and `Len()` right after it is `N - i`; at the end
`Len()` is 0, the head links to nil on every level, the first `Next()` of a fresh iterator
answers false, and `Find` of every inserted key answers `(defaultValue, false)`. -/
theorem full_drain (height : Int) (hpos : 0 < height) (prob : ℚ)
    (kvs : List (K × Value V)) (hnd : (kvs.map Prod.fst).Nodup) (draws : Nat → Nat → ℚ)
    (ks : List K) (hperm : ks.Perm (kvs.map Prod.fst)) :
    ∃ sl0 sl1 sl2 rs, NewSkipList height prob = .ok sl0 ∧ addAll sl0 kvs draws = .ok sl1 ∧
      deleteAll sl1 ks = .ok (sl2, rs) ∧ rs.length = ks.length ∧
      (∀ (i : Nat) (k : K), ks[i]? = some k →
        ∃ v, (k, v) ∈ kvs ∧ rs[i]? = some (v, true, (kvs.length : Int) - (i + 1))) ∧
      sl2.Len = 0 ∧
      (∀ L, L < height.toNat → getNext sl2.mem sl2.head L = .ok none) ∧
      (∃ it, sl2.Iterator = .ok it ∧ it.Next sl2.mem = .ok (false, it)) ∧
      ∀ k ∈ kvs.map Prod.fst, sl2.Find k = .ok (defaultValue, false) := by
  have hnew := NewSkipList_eq (K := K) (V := V) height prob hpos
  obtain ⟨hw, hent, hh0⟩ := NewSkipList_wellFormed height prob hpos hnew
  obtain ⟨sl1, hrun, hw1, hperm1, hh1⟩ := addAll_spec kvs _ draws hw hnd (by
    intro k _
    unfold genericSkipList.keys
    rw [hent]
    simp)
  rw [hent, List.append_nil] at hperm1
  have hkeys1 : sl1.keys.Perm (kvs.map Prod.fst) := by
    unfold genericSkipList.keys
    exact hperm1.map Prod.fst
  have hsize1 : sl1.size = kvs.length := by rw [hw1.size_eq, hperm1.length_eq]
  obtain ⟨sl2, rs, hdel, hw2, hent2, hsize2, hh2, hlen, hres⟩ :=
    deleteAll_spec ks sl1 hw1 (hperm.nodup_iff.2 hnd)
      (fun k hk => hkeys1.symm.subset (hperm.subset hk))
  have hempty : sl2.entries = [] := by
    rw [hent2, List.filter_eq_nil_iff]
    intro e he
    simp only [decide_not, Bool.not_eq_true', decide_eq_false_iff_not, not_not]
    exact hperm.symm.subset (hkeys1.subset (List.mem_map.2 ⟨e, he, rfl⟩))
  have hheight2 : sl2.height = height := hh2.trans (hh1.trans hh0)
  have hlinks : ∀ L, L < height.toNat → getNext sl2.mem sl2.head L = .ok none := by
    intro L hL
    exact hw2.empty_links hempty L (by rw [hheight2]; exact hL)
  refine ⟨_, sl1, sl2, rs, hnew, hrun, hdel, hlen, ?_, ?_, hlinks, ?_, ?_⟩
  · intro i k hik
    obtain ⟨v, hv, hri⟩ := hres i k hik
    refine ⟨v, hperm1.subset hv, ?_⟩
    rw [hri, hsize1]
  · show sl2.size = 0
    rw [hw2.size_eq, hempty]
    rfl
  · refine ⟨{ current := none }, ?_, rfl⟩
    unfold genericSkipList.Iterator
    rw [hlinks 0 (by omega)]
  · intro k _
    apply hw2.find_of_not_mem
    unfold genericSkipList.keys
    rw [hempty]
    simp

theorem full_drain_witness :
    (0 : Int) < 10 ∧
      ([((1 : Nat), (Value.val 1 : Value Nat)), (2, Value.val 1), (3, Value.val 1)].map
        Prod.fst).Nodup ∧
      ([1, 2, 3] : List Nat).Perm
        ([((1 : Nat), (Value.val 1 : Value Nat)), (2, Value.val 1), (3, Value.val 1)].map
          Prod.fst) ∧
      ∃ sl0 sl1 sl2 rs, NewSkipList 10 (1 / 2) = .ok sl0 ∧
        addAll sl0 [((1 : Nat), (Value.val 1 : Value Nat)), (2, Value.val 1), (3, Value.val 1)]
          (fun _ => sampleDraws) = .ok sl1 ∧
        deleteAll sl1 [1, 2, 3] = .ok (sl2, rs) ∧ rs.length = ([1, 2, 3] : List Nat).length ∧
        (∀ (i : Nat) (k : Nat), ([1, 2, 3] : List Nat)[i]? = some k →
          ∃ v, (k, v) ∈ [((1 : Nat), (Value.val 1 : Value Nat)), (2, Value.val 1),
              (3, Value.val 1)] ∧
            rs[i]? = some (v, true,
              (([((1 : Nat), (Value.val 1 : Value Nat)), (2, Value.val 1),
                (3, Value.val 1)]).length : Int) - (i + 1))) ∧
        sl2.Len = 0 ∧
        (∀ L, L < (10 : Int).toNat → getNext sl2.mem sl2.head L = .ok none) ∧
        (∃ it, sl2.Iterator = .ok it ∧ it.Next sl2.mem = .ok (false, it)) ∧
        ∀ k ∈ [((1 : Nat), (Value.val 1 : Value Nat)), (2, Value.val 1),
            (3, Value.val 1)].map Prod.fst,
          sl2.Find k = .ok (defaultValue, false) :=
  ⟨by decide, by decide, List.Perm.refl _,
    full_drain 10 (by decide) (1 / 2) _ (by decide) _ [1, 2, 3] (List.Perm.refl _)⟩

end SkipList

namespace SkipList

set_option linter.unusedSectionVars false

variable {K V : Type} [LinearOrder K]

/-- C13, as stated, fails for height 1: the list returned by `NewSkipList(1, p)` has a
positive height, and `randLevel` answers 1, which is not at most `height - 1 = 0`. -/
theorem randLevel_range_counterexample :
    (NewSkipList 1 (1 / 2) : Except Fault (genericSkipList Nat Nat)) = .ok sampleLow ∧
      0 < sampleLow.height ∧ sampleLow.randLevel (fun _ => 0) = 1 ∧
      ¬ (1 ≤ sampleLow.randLevel (fun _ => 0) ∧
          sampleLow.randLevel (fun _ => 0) ≤ sampleLow.height - 1) :=
  ⟨rfl, by decide, by decide, by decide⟩

/-- C13, amended. For every list, of positive height in particular, every `prob` and every
sequence of draws, `randLevel` answers a level `L` with `1 <= L <= max 1 (height - 1)`:
below the height when the height is at least 2, and 1, the height itself, when the height
is 1. -/
theorem randLevel_range (sl : genericSkipList K V) (draws : Nat → ℚ) :
    1 ≤ sl.randLevel draws ∧ sl.randLevel draws ≤ max 1 (sl.height - 1) ∧
      (2 ≤ sl.height → sl.randLevel draws ≤ sl.height - 1) ∧
      (sl.height = 1 → sl.randLevel draws = 1) := by
  obtain ⟨l1, l2⟩ := randLevelLoop_bounds sl.height sl.prob draws sl.height.toNat 0 1
  have l1 : 1 ≤ sl.randLevel draws := l1
  have l2 : sl.randLevel draws ≤ max 1 (sl.height - 1) := l2
  refine ⟨l1, l2, ?_, ?_⟩
  · intro h2
    rwa [max_eq_right (by omega)] at l2
  · intro h1
    rw [max_eq_left (by omega)] at l2
    omega

/-- C14 (defect in the code). `Add` of a key that is already there does not always run to
completion: `sampleOne` is reached from `NewSkipList(3, p)` by `Add(5, 50)`, it holds the key
5, and `Add(5, 51)` on it stops on a nil dereference. -/
theorem add_existing_largest_key_faults :
    Reachable 3 (1 / 2) sampleOne ∧ (5, Value.val 50) ∈ sampleOne.entries ∧
      sampleOne.Add 5 (Value.val 51) sampleDraws = .error Fault.nilDeref :=
  ⟨sampleOne_reachable, by decide, rfl⟩

/-- C15, as stated, fails: `NewSkipList(0, p)` returns a list, whose head has no forward
slot, and `NewSkipList(3, 2)` returns a list although 2 is not a probability. -/
theorem newSkipList_accepts_bad_configuration :
    (NewSkipList 0 (1 / 2) : Except Fault (genericSkipList Nat Nat)) = .ok sampleZero ∧
      getNext sampleZero.mem sampleZero.head 0 = .error Fault.indexOutOfRange ∧
      (NewSkipList 3 2 : Except Fault (genericSkipList Nat Nat)) = .ok sampleFresh :=
  ⟨rfl, rfl, rfl⟩

/-- C15, amended. `NewSkipList` does not check its arguments. For every negative height it
fails at construction, `make` stopping on the negative length. For height 0 it returns a
list, whatever `prob` is, whose head has no forward slot. And `prob` has no influence on what
it does, so no probability, inside or outside `(0, 1)`, is rejected. -/
theorem newSkipList_negative_fails_zero_returns (K V : Type) (height : Int) (prob : ℚ) :
    (height < 0 →
      (NewSkipList height prob : Except Fault (genericSkipList K V)) =
        .error Fault.makeNegative) ∧
      (∃ sl : genericSkipList K V, NewSkipList 0 prob = .ok sl ∧ sl.height = 0 ∧
        sl.head = some 0 ∧ levelAt sl.mem 0 = some 0 ∧
        getNext sl.mem sl.head 0 = .error Fault.indexOutOfRange) ∧
      ∀ q : ℚ, (NewSkipList height q : Except Fault (genericSkipList K V)) =
        NewSkipList height prob := by
  refine ⟨?_, ⟨_, rfl, rfl, rfl, rfl, rfl⟩, fun _ => rfl⟩
  intro h
  unfold NewSkipList makeSlice
  simp [h]

/-- C16. On a well-formed list the descent of `Find` ends on the last node of the level-0
chain whose key is at most `k`, or on the head when there is none; `Find(k)` answers
`(v, true)` exactly when the level-0 chain holds the entry `(k, v)`, and its answer is that
of the naive scan of the level-0 chain from the left. -/
theorem find_refines_naive (sl : genericSkipList K V) (hw : WellFormed sl) (k : K) :
    sl.Find k = .ok (sl.naiveFind k) ∧
      (∀ v, sl.Find k = .ok (v, true) ↔ (k, v) ∈ sl.entries) ∧
      (k ∉ sl.keys → sl.Find k = .ok (defaultValue, false)) ∧
      ∃ h cs, sl.head = some h ∧ sl.chain 0 = some cs ∧
        findLoop sl.mem k (sl.mem.length + 1) sl.height.toNat sl.head =
          .ok (some (lastFrom h (cs.filter (under LessEq sl.mem k)))) := by
  refine ⟨hw.find_eq_naive k, ?_, fun hk => hw.find_of_not_mem hk, ?_⟩
  · intro v
    constructor
    · intro hfind
      by_cases hk : k ∈ sl.keys
      · obtain ⟨⟨k1, v1⟩, hmem, hk1⟩ := List.mem_map.1 hk
        simp only at hk1
        subst hk1
        rw [hw.find_of_mem hmem] at hfind
        simp only [Except.ok.injEq, Prod.mk.injEq, and_true] at hfind
        subst hfind
        exact hmem
      · rw [hw.find_of_not_mem hk] at hfind
        simp at hfind
    · exact fun hmem => hw.find_of_mem hmem
  · obtain ⟨h, ch, hs, _⟩ := hw.shape
    have hpos := hs.height_toNat_pos
    refine ⟨h, ch 0, hs.head_eq, hs.chain_eq hpos, ?_⟩
    rw [hs.findLoop_head k,
      takeWhile_eq_filter_of_pairwise (under_down (LessEq_down k) sl.mem) (hs.sorted 0 hpos)]

theorem find_refines_naive_witness :
    WellFormed sample ∧
      (sample.Find 5 = .ok (sample.naiveFind 5) ∧
        (∀ v, sample.Find 5 = .ok (v, true) ↔ (5, v) ∈ sample.entries) ∧
        (5 ∉ sample.keys → sample.Find 5 = .ok (defaultValue, false)) ∧
        ∃ h cs, sample.head = some h ∧ sample.chain 0 = some cs ∧
          findLoop sample.mem 5 (sample.mem.length + 1) sample.height.toNat sample.head =
            .ok (some (lastFrom h (cs.filter (under LessEq sample.mem 5))))) :=
  ⟨by decide, find_refines_naive sample (by decide) 5⟩

/-- C17. On a well-formed list, whenever `Add(k, v)` returns (it does for a new key) every
node linked on a level is still linked on the levels below; `Delete(k)` returns, the same
holds after it, and on every level the chain after it is the chain before it without the
node that holds `k`: no chain holds `k` any more, and every other node stays, with its key
and value, on exactly the levels it was on. -/
theorem nesting_preserved (sl : genericSkipList K V) (hw : WellFormed sl) (k : K)
    (v : Value V) (draws : Nat → ℚ) :
    (k ∉ sl.keys → ∃ sl1, sl.Add k v draws = .ok sl1) ∧
      (∀ sl1, sl.Add k v draws = .ok sl1 → sl1.Nested) ∧
      ∃ sl2 r ok, sl.Delete k = .ok (sl2, r, ok) ∧ sl2.Nested ∧
        ∀ L, L < sl.height.toNat →
          ∃ cs, sl.chain L = some cs ∧
            sl2.chain L = some (cs.filter (fun a => !keyIs sl.mem k a)) ∧
            (∀ a ∈ cs.filter (fun a => !keyIs sl.mem k a), keyIs sl2.mem k a = false) ∧
            ∀ a ∈ cs, entryAt sl2.mem a = entryAt sl.mem a := by
  refine ⟨?_, ?_, ?_⟩
  · intro hk
    obtain ⟨sl1, hadd, _⟩ := hw.add_new hk v draws
    exact ⟨sl1, hadd⟩
  · intro sl1 hadd
    exact (hw.add hadd).1.2.2.2.1
  · obtain ⟨h, ch, hs, _⟩ := hw.shape
    obtain ⟨sl2, r, ok, hdel, hs2, hsame, hh, _⟩ := hs.Delete_spec k
    refine ⟨sl2, r, ok, hdel, hs2.wellFormed.2.2.2.1, ?_⟩
    intro L hL
    have hent : ∀ a, entryAt sl2.mem a = entryAt sl.mem a := fun a => (hsame.2 a).1
    refine ⟨ch L, hs.chain_eq hL, hs2.chain_eq (by rw [hh]; exact hL), ?_, fun a _ => hent a⟩
    intro a ha
    have := (List.mem_filter.1 ha).2
    simp only [Bool.not_eq_true'] at this
    rw [keyIs_eq_false_iff] at this ⊢
    intro e he
    rw [hent a] at he
    exact this e he

theorem nesting_preserved_witness :
    WellFormed sample ∧
      sample.chain 0 = some [2, 1, 3] ∧ sample.chain 1 = some [2, 3] ∧
      sample.chain 2 = some [3] ∧ keyIs sample.mem 7 3 = true ∧
      (∃ sl2, sample.Delete 7 = .ok (sl2, Value.val 70, true) ∧
        sl2.chain 0 = some [2, 1] ∧ sl2.chain 1 = some [2] ∧ sl2.chain 2 = some []) ∧
      ((7 ∉ sample.keys → ∃ sl1, sample.Add 7 (Value.val 40) sampleDraws = .ok sl1) ∧
        (∀ sl1, sample.Add 7 (Value.val 40) sampleDraws = .ok sl1 → sl1.Nested) ∧
        ∃ sl2 r ok, sample.Delete 7 = .ok (sl2, r, ok) ∧ sl2.Nested ∧
          ∀ L, L < sample.height.toNat →
            ∃ cs, sample.chain L = some cs ∧
              sl2.chain L = some (cs.filter (fun a => !keyIs sample.mem 7 a)) ∧
              (∀ a ∈ cs.filter (fun a => !keyIs sample.mem 7 a), keyIs sl2.mem 7 a = false) ∧
              ∀ a ∈ cs, entryAt sl2.mem a = entryAt sample.mem a) ∧
      4 ∉ sample.keys ∧
      (∃ sl1, sample.Add 4 (Value.val 40) sampleDraws = .ok sl1 ∧
        sl1.chain 0 = some [2, 4, 1, 3] ∧ sl1.chain 1 = some [2, 4, 3] ∧
        sl1.chain 2 = some [3]) ∧
      ((4 ∉ sample.keys → ∃ sl1, sample.Add 4 (Value.val 40) sampleDraws = .ok sl1) ∧
        (∀ sl1, sample.Add 4 (Value.val 40) sampleDraws = .ok sl1 → sl1.Nested) ∧
        ∃ sl2 r ok, sample.Delete 4 = .ok (sl2, r, ok) ∧ sl2.Nested ∧
          ∀ L, L < sample.height.toNat →
            ∃ cs, sample.chain L = some cs ∧
              sl2.chain L = some (cs.filter (fun a => !keyIs sample.mem 4 a)) ∧
              (∀ a ∈ cs.filter (fun a => !keyIs sample.mem 4 a), keyIs sl2.mem 4 a = false) ∧
              ∀ a ∈ cs, entryAt sl2.mem a = entryAt sample.mem a) :=
  ⟨by decide, by decide, by decide, by decide, by decide, ⟨_, rfl, rfl, rfl, rfl⟩,
    nesting_preserved sample (by decide) 7 (Value.val 40) sampleDraws,
    by decide, ⟨_, rfl, rfl, rfl, rfl⟩,
    nesting_preserved sample (by decide) 4 (Value.val 40) sampleDraws⟩

/-- C18. In every state reached from `NewSkipList(height, prob)` with `height >= 1` the head
has exactly `height` forward slots and every other allocated node between 1 and `height`;
the level drawn for a new node is between 1 and `height`, the length of `update`, and `Add`
of a new key returns, so the splice loop stays inside `update` and inside the slots of the
nodes it touches. -/
theorem height_bound (height : Int) (hpos : 0 < height) (prob : ℚ)
    (sl : genericSkipList K V) (hr : Reachable height prob sl) (draws : Nat → ℚ) :
    sl.height = height ∧ sl.LevelsOK ∧
      1 ≤ sl.randLevel draws ∧ sl.randLevel draws ≤ sl.height ∧
      ∀ (k : K) (v : Value V), k ∉ sl.keys →
        ∃ sl1, sl.Add k v draws = .ok sl1 ∧ sl1.LevelsOK := by
  obtain ⟨hw, hh⟩ := hr.invariants hpos
  have hok := hr.levelsOK hpos
  obtain ⟨l1, l2⟩ := randLevel_bounds sl draws (by rw [hh]; exact hpos)
  refine ⟨hh, hok, l1, l2, ?_⟩
  intro k v hk
  obtain ⟨sl1, hadd, _⟩ := hw.add_new hk v draws
  exact ⟨sl1, hadd, hw.add_levelsOK hok hadd⟩

theorem height_bound_witness :
    (0 : Int) < 3 ∧ Reachable 3 (1 / 2) sampleOne ∧
      (sampleOne.height = 3 ∧ sampleOne.LevelsOK ∧
        1 ≤ sampleOne.randLevel sampleDraws ∧
        sampleOne.randLevel sampleDraws ≤ sampleOne.height ∧
        ∀ (k : Nat) (v : Value Nat), k ∉ sampleOne.keys →
          ∃ sl1, sampleOne.Add k v sampleDraws = .ok sl1 ∧ sl1.LevelsOK) :=
  ⟨by decide, sampleOne_reachable,
    height_bound 3 (by decide) (1 / 2) sampleOne sampleOne_reachable sampleDraws⟩

/-- No list returned by `NewSkipList` follows the probability it was given: `prob` stays 0,
and with draws from `[0, 1)` the level generator always answers 1. -/
theorem NewSkipList_randLevel (height : Int) (prob : ℚ) {sl : genericSkipList K V}
    (hnew : NewSkipList height prob = .ok sl) (draws : Nat → ℚ) (hd : ∀ i, 0 ≤ draws i) :
    sl.prob = 0 ∧ sl.randLevel draws = 1 := by
  have hp : sl.prob = 0 := by
    unfold NewSkipList at hnew
    cases hm : makeSlice height with
    | error e => rw [hm] at hnew; cases hnew
    | ok slots =>
      rw [hm] at hnew
      simp only [Except.ok.injEq] at hnew
      rw [← hnew]
  refine ⟨hp, ?_⟩
  unfold genericSkipList.randLevel
  rw [hp]
  cases sl.height.toNat with
  | zero => rfl
  | succ n =>
    unfold randLevelLoop
    have : ¬ draws 0 < 0 := not_lt.2 (hd 0)
    simp [this]

/-- C19 (defect in the code). The level generator does not follow the configured
probability: `NewSkipList(3, 1/2)` returns `sampleFresh`, whose `prob` is 0, and with a first
draw of 0, which is less than 1/2, `randLevel` answers 1 where the claim says at least 2. -/
theorem randLevel_ignores_configured_prob :
    (NewSkipList 3 (1 / 2) : Except Fault (genericSkipList Nat Nat)) = .ok sampleFresh ∧
      sampleFresh.prob = 0 ∧ sampleFresh.randLevel (fun _ => 0) = 1 :=
  ⟨rfl, rfl, by decide⟩

/-- C20. On a well-formed list that lacks the key `k`, `Add(k, v)` returns, `Delete(k)` right
after it returns `(v, true)`, and the list it leaves has the `Len()` of the list before the
`Add` and, on every level, the same chain of nodes with the same keys and values. -/
theorem add_then_delete (sl : genericSkipList K V) (hw : WellFormed sl) (k : K) (v : Value V)
    (draws : Nat → ℚ) (hk : k ∉ sl.keys) :
    ∃ sl1 sl2, sl.Add k v draws = .ok sl1 ∧ sl1.Delete k = .ok (sl2, v, true) ∧
      sl2.Len = sl.Len ∧ (∀ L, sl2.chain L = sl.chain L) ∧
      (∀ L cs, sl.chain L = some cs → ∀ a ∈ cs, entryAt sl2.mem a = entryAt sl.mem a) ∧
      sl2.entries = sl.entries := by
  obtain ⟨h, ch, hs, _⟩ := hw.shape
  obtain ⟨sl1, sl2, hadd, hdel, hs2, hsize, hh, hent⟩ :=
    hs.Add_then_Delete k v draws (hs.all_keyIs_false_iff.2 hk)
  have hchain : ∀ L, sl2.chain L = sl.chain L := by
    intro L
    rcases Nat.lt_or_ge L sl.height.toNat with hlt | hge
    · rw [hs.chain_eq hlt, hs2.chain_eq (by rw [hh]; exact hlt)]
    · rw [hs.chain_none_of_le hge, hs2.chain_none_of_le (by rw [hh]; exact hge)]
  have hold : ∀ L cs, sl.chain L = some cs → ∀ a ∈ cs, entryAt sl2.mem a = entryAt sl.mem a := by
    intro L cs hcs a ha
    rcases Nat.lt_or_ge L sl.height.toNat with hlt | hge
    · rw [hs.chain_eq hlt] at hcs
      cases hcs
      exact hent a (hs.lt_length hlt ha)
    · rw [hs.chain_none_of_le hge] at hcs
      cases hcs
  refine ⟨sl1, sl2, hadd, hdel, hsize, hchain, hold, ?_⟩
  rw [hs2.entries_eq, hs.entries_eq]
  apply List.filterMap_congr
  intro a ha
  exact hent a (hs.lt_length hs.height_toNat_pos ha)

theorem add_then_delete_witness :
    WellFormed sample ∧ 4 ∉ sample.keys ∧
      ∃ sl1 sl2, sample.Add 4 (Value.val 40) sampleDraws = .ok sl1 ∧
        sl1.Delete 4 = .ok (sl2, Value.val 40, true) ∧
        sl2.Len = sample.Len ∧ (∀ L, sl2.chain L = sample.chain L) ∧
        (∀ L cs, sample.chain L = some cs →
          ∀ a ∈ cs, entryAt sl2.mem a = entryAt sample.mem a) ∧
        sl2.entries = sample.entries :=
  ⟨by decide, by decide,
    add_then_delete sample (by decide) 4 (Value.val 40) sampleDraws (by decide)⟩

end SkipList
